import Mathlib

/-!
JSTBStore: the data import plugin (`src/plugins/dataimport.js`).

A shallow embedding of the bulk-import pipeline: the staging store `ImportDB`,
the value coercion table `Parsers`, the record transformer `processRecord`,
the cached lookup resolver `resolve` and the validation pass `prepareData`.

Asynchronous code is sequential here (every `await` is awaited before the next
statement runs), so it is embedded as explicit state passing.
-/

set_option autoImplicit false

namespace JSTBStore

/-! ## Staging store (`class ImportDB`) -/

/-- Object store `Rows` of the `ImportDB` database: its records in ascending key
order, and the current number of the key generator that the store owns because
it is created with `autoIncrement: true`. -/
structure ImportDB (α : Type) where
  rows : List (Nat × α)
  keyGen : Nat

/-- The effect of `store.put(value, key)` on the records of an object store: the
record is stored under `key`, replacing a record with the same key, and the
records stay in ascending key order. -/
def putRecord {α : Type} (k : Nat) (v : α) : List (Nat × α) → List (Nat × α)
  | [] => [(k, v)]
  | (k', v') :: rest =>
    if k < k' then (k, v) :: (k', v') :: rest
    else if k = k' then (k, v) :: rest
    else (k', v') :: putRecord k v rest

/-- One `store.put(row)` without a key on an auto-increment store: the key is
the current number of the key generator, which then advances by one. -/
def ImportDB.put {α : Type} (db : ImportDB α) (row : α) : ImportDB α :=
  { rows := putRecord db.keyGen row db.rows, keyGen := db.keyGen + 1 }

/-- Source `ImportDB.AddRows(rows)`: `for(const row of rows) store.put(row)` in one
read-write transaction. -/
def ImportDB.AddRows {α : Type} (db : ImportDB α) (rows : List α) : ImportDB α :=
  rows.foldl ImportDB.put db

/-- Source `ImportDB.Clear()`: `objectStore(Rows).clear()` deletes every record; the
key generator of the store is not reset. -/
def ImportDB.Clear {α : Type} (db : ImportDB α) : ImportDB α :=
  { rows := [], keyGen := db.keyGen }

/-- Modelled from the spec: `BaseDB.getCount` of `lib/storage.js`, which is not
part of the sources at hand; the spec has `Count()` return the total count of
rows of the store. -/
def ImportDB.getCount {α : Type} (db : ImportDB α) : Nat :=
  db.rows.length

/-- Source `ImportDB.getMinKey`: the key cursor opened without a range stands on the
record with the least key, the callback stores that key and does not continue;
on an empty store the callback gets no cursor and `min` stays `null`. -/
def ImportDB.getMinKey {α : Type} (db : ImportDB α) : Option Nat :=
  db.rows.head?.map Prod.fst

/-- The values visited by `store.iterateCursor(IDBKeyRange.bound(lo, hi, false,
true), ...)` when the callback pushes `cursor.value` and continues: the records
with `lo ≤ key < hi`, in ascending key order. -/
def ImportDB.iterateCursor {α : Type} (db : ImportDB α) (lo hi : Nat) : List α :=
  (db.rows.filter (fun r => decide (lo ≤ r.1) && decide (r.1 < hi))).map Prod.snd

/-- The `while(read < count)` loop of `ImportDB.ReadAll`, returning the pages it
yields. `frm` is `from` (`none` is `null`), `hi` is `to`, one unit of `fuel` is one iteration;
`none` means the fuel ran out before the loop ended. `IDBKeyRange.bound` throws
a `DataError` when the lower bound is `null`. -/
def ImportDB.ReadAllLoop {α : Type} (db : ImportDB α) (count pageSize : Nat) :
    Nat → Option Nat → Nat → Nat → Option (Except String (List (List α)))
  | fuel, frm, hi, read =>
    if read < count then
      match fuel with
      | 0 => none
      | fuel + 1 =>
        match frm with
        | none => some (.error "DataError")
        | some lo =>
          let page := db.iterateCursor lo hi
          match ImportDB.ReadAllLoop db count pageSize fuel (some hi) (hi + pageSize)
              (read + page.length) with
          | some (.ok pages) => some (.ok (if page.length ≠ 0 then page :: pages else pages))
          | other => other
    else some (.ok [])

/-- Source `ImportDB.ReadAll({pageSize})`: the list of the pages the generator yields.
`to = from + pageSize` is computed on numbers, where `null` counts as `0`. -/
def ImportDB.ReadAll {α : Type} (db : ImportDB α) (pageSize fuel : Nat) :
    Option (Except String (List (List α))) :=
  let count := db.getCount
  let frm := db.getMinKey
  let hi := frm.getD 0 + pageSize
  ImportDB.ReadAllLoop db count pageSize fuel frm hi 0

/-! ## Values -/

/-- The JavaScript values the import handles. Numbers are the integers a Number
holds, `NaN` and the two infinities (the results of `parseFloat` and of the date
library are supplied by the environment), objects are plain objects with their own
properties in insertion order. -/
inductive Value where
  | undefined
  | null
  | bool (b : Bool)
  | num (n : Int)
  | nan
  | infinity (negative : Bool)
  | str (s : String)
  | date (ms : Int)
  | invalidDate
  | obj (props : List (String × Value))

/-- What reading a column of a raw row gives: `undefined` when the row has no
such column, else the cell, a string or `null` (`RawRow` of the data model). -/
inductive Cell where
  | undefined
  | null
  | str (s : String)
  deriving DecidableEq

/-- A cell as a value. -/
def Cell.toValue : Cell → Value
  | .undefined => .undefined
  | .null => .null
  | .str s => .str s

/-- A cell inside a template literal or given to `RegExp.test`: `ToString`. -/
def Cell.toStr : Cell → String
  | .undefined => "undefined"
  | .null => "null"
  | .str s => s

/-- Truthiness of a cell, as `||` tests it: a non-empty string. -/
def Cell.truthy : Cell → Bool
  | .str s => s ≠ ""
  | _ => false

/-- A raw row: source column name to string-or-null. -/
abbrev RawRow := List (String × Option String)

/-- A property key: `null` used as a key is the property `"null"`. -/
def keyOf : Option String → String
  | none => "null"
  | some s => s

/-- The read `raw[from]`. -/
def RawRow.get (raw : RawRow) (from_ : Option String) : Cell :=
  match raw.lookup (keyOf from_) with
  | none => .undefined
  | some none => .null
  | some (some s) => .str s

/-- The assignment `object[key] = value` on the own properties of a plain
object: an existing property keeps its place, a new one is added last. -/
def setProp (k : String) (v : Value) : List (String × Value) → List (String × Value)
  | [] => [(k, v)]
  | (k', v') :: rest => if k' = k then (k, v) :: rest else (k', v') :: setProp k v rest

/-- The read `object[key]` of an own property. -/
def getProp (k : String) (props : List (String × Value)) : Value :=
  (props.lookup k).getD .undefined

/-! ## Value coercion (`Parsers`, `parseValue`) -/

/-- The class `[0-9]`, which is also `\d`. -/
def isDigit (c : Char) : Bool := decide ('0' ≤ c) && decide (c ≤ '9')

/-- The class `[0-9a-f]` of `HEXDIGIT`. -/
def isHexDigit (c : Char) : Bool := isDigit c || (decide ('a' ≤ c) && decide (c ≤ 'f'))

/-- The class `[a-z]`. -/
def isLower (c : Char) : Bool := decide ('a' ≤ c) && decide (c ≤ 'z')

/-- The class `[a-z0-9_]`. -/
def isNameChar (c : Char) : Bool := isLower c || isDigit c || c == '_'

/-- The line terminators, which `.` does not match. -/
def isLineTerminator (c : Char) : Bool :=
  c == '\n' || c == '\r' || c == '\u2028' || c == '\u2029'

/-- Source `ETAGREGEX = /^W\/".+"$/` as `ETAGREGEX.test(s)`: the text starts with
`W/"`, ends with `"`, and between the two stands at least one character, none of
them a line terminator. -/
def ETAGREGEX (s : String) : Bool :=
  match s.data with
  | 'W' :: '/' :: '"' :: rest =>
    decide (2 ≤ rest.length) && rest.getLast? == some '"' && rest.dropLast.all (fun c => !isLineTerminator c)
  | _ => false

/-- Source `REGEX_INTEGER = /^-?[0-9]+$/` on a list of characters. -/
def matchInteger : List Char → Bool
  | '-' :: rest => !rest.isEmpty && rest.all isDigit
  | cs => !cs.isEmpty && cs.all isDigit

/-- Source `REGEX_INTEGER.test(s)`. -/
def REGEX_INTEGER (s : String) : Bool := matchInteger s.data

/-- Source `REGEX_MOSV = /^\d+(,\d+)*$/` on a list of characters; the flag tells
whether the character before was a digit. -/
def matchMOSV : Bool → List Char → Bool
  | afterDigit, [] => afterDigit
  | afterDigit, c :: cs =>
    if isDigit c then matchMOSV true cs
    else if c == ',' && afterDigit then matchMOSV false cs
    else false

/-- Source `REGEX_MOSV.test(s)`. -/
def REGEX_MOSV (s : String) : Bool := matchMOSV false s.data

/-- Whether the text starts with `true`, letters compared without case. -/
def startsWithTrue : List Char → Bool
  | t :: r :: u :: e :: _ =>
    (t == 't' || t == 'T') && (r == 'r' || r == 'R') && (u == 'u' || u == 'U')
      && (e == 'e' || e == 'E')
  | _ => false

/-- Source `REGEX_BOOLEAN = /true|1/i` on a list of characters: the pattern has no
anchor, so it matches anywhere in the text. -/
def matchBoolean : List Char → Bool
  | [] => false
  | c :: cs => startsWithTrue (c :: cs) || c == '1' || matchBoolean cs

/-- Source `parseBool = b => REGEX_BOOLEAN.test(b)`. -/
def parseBool (s : String) : Value := .bool (matchBoolean s.data)

/-- Exactly `n` characters of `[0-9a-f]` at the head: those and the rest. -/
def takeHex : Nat → List Char → Option (List Char × List Char)
  | 0, cs => some ([], cs)
  | _ + 1, [] => none
  | n + 1, c :: cs =>
    if isHexDigit c then (takeHex n cs).map (fun r => (c :: r.1, r.2)) else none

/-- The character `c` at the head: the rest. -/
def takeChar (c : Char) : List Char → Option (List Char)
  | [] => none
  | d :: cs => if d = c then some cs else none

/-- Source `SREGEX_GUID` at the head of the text: an optional `{`, then 8-4-4-4-12
characters of `[0-9a-f]` with hyphens between, then an optional `}`; the matched
text. -/
def matchGuid (cs : List Char) : Option (List Char) :=
  let opening : List Char := if cs.head? = some '{' then ['{'] else []
  let cs := if cs.head? = some '{' then cs.tail else cs
  (takeHex 8 cs).bind fun (g1, cs) =>
  (takeChar '-' cs).bind fun cs =>
  (takeHex 4 cs).bind fun (g2, cs) =>
  (takeChar '-' cs).bind fun cs =>
  (takeHex 4 cs).bind fun (g3, cs) =>
  (takeChar '-' cs).bind fun cs =>
  (takeHex 4 cs).bind fun (g4, cs) =>
  (takeChar '-' cs).bind fun cs =>
  (takeHex 12 cs).bind fun (g5, cs) =>
  let closing : List Char := if cs.head? = some '}' then ['}'] else []
  some (opening ++ g1 ++ ['-'] ++ g2 ++ ['-'] ++ g3 ++ ['-'] ++ g4 ++ ['-'] ++ g5 ++ closing)

/-- Source `REGEX_LOOKUP` tried at the head of the text: a name `[a-z][a-z0-9_]{0,1022}[a-z0-9]`,
a colon, a GUID. The name is the whole run of `[a-z0-9_]` at the head, because the
colon that must follow it is outside that class. The two capture groups. -/
def matchLookupAt : List Char → Option (String × String)
  | [] => none
  | c :: rest =>
    let run := rest.takeWhile isNameChar
    if isLower c && decide (1 ≤ run.length) && decide (run.length ≤ 1023)
        && (run.getLast?.map (fun l => isLower l || isDigit l) == some true) then
      ((takeChar ':' (rest.dropWhile isNameChar)).bind matchGuid).map
        (fun g => (String.mk (c :: run), String.mk g))
    else none

/-- Source `REGEX_LOOKUP.exec(ref)`: the pattern has no anchor, so the match is the one
at the leftmost position of the text where the pattern matches. -/
def execLookup : List Char → Option (String × String)
  | [] => none
  | c :: cs =>
    match matchLookupAt (c :: cs) with
    | some r => some r
    | none => execLookup cs

/-- Source `parseLookup`: `{logicalName, id}` from the two groups, or `null`. -/
def parseLookup (s : String) : Value :=
  match execLookup s.data with
  | some (logicalName, id) => .obj [("logicalName", .str logicalName), ("id", .str id)]
  | none => .null

/-- The white space that `parseInt` skips at the start of the text. -/
def isStrWhiteSpace (c : Char) : Bool :=
  [9, 10, 11, 12, 13, 32, 0xA0, 0x1680, 0x2028, 0x2029, 0x202F, 0x205F, 0x3000, 0xFEFF].contains
    c.toNat || (decide (0x2000 ≤ c.toNat) && decide (c.toNat ≤ 0x200A))

/-- The value of a digit in the given radix (10 or 16). -/
def digitValue (radix : Nat) (c : Char) : Option Nat :=
  if isDigit c then some (c.toNat - '0'.toNat)
  else if radix = 16 && decide ('a' ≤ c) && decide (c ≤ 'f') then some (c.toNat - 'a'.toNat + 10)
  else if radix = 16 && decide ('A' ≤ c) && decide (c ≤ 'F') then some (c.toNat - 'A'.toNat + 10)
  else none

/-- The digits at the head of the text, as long as they are digits of the radix. -/
def leadingDigits (radix : Nat) : List Char → List Nat
  | [] => []
  | c :: cs =>
    match digitValue radix c with
    | some d => d :: leadingDigits radix cs
    | none => []

/-- The number of binary digits of a natural number; one unit of `fuel` is one
digit, and the number itself is fuel enough. -/
def bitLength : Nat → Nat → Nat
  | 0, _ => 0
  | fuel + 1, n => if n = 0 then 0 else bitLength fuel (n / 2) + 1

/-- The Number value for a natural number: the number itself up to 2^53; beyond, the
nearest number with 53 significant binary digits, a tie going to the one whose last
digit is even; `none` is `Infinity`, which the numbers from 2^1024 - 2^970 on round
to (the nearest such number would have more than 1024 binary digits). -/
def numberValue (n : Nat) : Option Nat :=
  if n ≤ 2 ^ 53 then some n
  else
    let shift := bitLength n n - 53
    let q := n / 2 ^ shift
    let r := n % 2 ^ shift
    let rounded := (if 2 ^ shift < 2 * r ∨ (2 * r = 2 ^ shift ∧ q % 2 = 1) then q + 1 else q)
      * 2 ^ shift
    if bitLength rounded rounded ≤ 1024 then some rounded else none

/-- The Number with the given sign and magnitude. -/
def signedNumber (negative : Bool) : Option Nat → Value
  | some n => .num (if negative then -(n : Int) else n)
  | none => .infinity negative

/-- The built-in `parseInt(string)` without a usable radix (the second argument
the table passes is the attribute metadata, an object or `undefined`, which
counts as radix `0`): leading white space, a sign, `0x` for radix 16, then the
longest run of digits; `NaN` without a digit. The result is the Number value for
the integer the digits write, which is that integer only up to 2^53. (The standard
lets an engine read the decimal digits after the twentieth as zeros; the digits are
all read here, as V8 does.) -/
def parseInt (s : String) : Value :=
  let cs := s.data.dropWhile isStrWhiteSpace
  let negative := decide (cs.head? = some '-')
  let cs := if cs.head? = some '-' ∨ cs.head? = some '+' then cs.tail else cs
  let hex := match cs with
    | '0' :: 'x' :: _ => true
    | '0' :: 'X' :: _ => true
    | _ => false
  let radix := if hex then 16 else 10
  let ds := leadingDigits radix (if hex then cs.drop 2 else cs)
  if ds.isEmpty then .nan
  else signedNumber negative (numberValue (ds.foldl (fun acc d => acc * radix + d) 0))

/-- Metadata of an attribute: its type and, for option-set attributes, the
options `getOptions()` returns as `(text, value)`. -/
structure AttributeMeta where
  type : String
  options : List (String × String) := []

/-- Metadata of an entity. -/
structure EntityMeta where
  primaryIdAttribute : String
  attributes : List (String × AttributeMeta)

/-- Source `getOSVByLabel(label, meta)`: the map built from the options, a later option
overwriting an earlier one of the same text, read at `label`; `none` is
`undefined`. The map is memoised per metadata object, which does not change what
is read. Without metadata `meta.getOptions()` is a `TypeError`. -/
def getOSVByLabel (label : String) (meta : Option AttributeMeta) : Except String (Option Value) :=
  match meta with
  | none => .error "TypeError"
  | some m => .ok ((m.options.reverse.lookup label).map parseInt)

/-- Source `parseOSV(value, meta)` on a string. `assert` of `lib/helpers.js` throws when
its condition is false; `typeof` of `NaN` and of an infinity is `"number"`. -/
def parseOSV (value : String) (meta : Option AttributeMeta) : Except String Value :=
  if value = "" then .ok .null
  else if REGEX_INTEGER value then .ok (parseInt value)
  else
    match getOSVByLabel value meta with
    | .error e => .error e
    | .ok (some (.num n)) => .ok (.num n)
    | .ok (some .nan) => .ok .nan
    | .ok (some (.infinity negative)) => .ok (.infinity negative)
    | .ok _ => .error "Assertion failed"

/-- Source `parseMOSV(value, meta)` on a string. -/
def parseMOSV (value : String) : Except String Value :=
  if value = "" then .ok .null
  else if REGEX_MOSV value then .ok (.str value)
  else .error ("Cannot parse '" ++ value ++ "' as MultiSelectPicklist value")

/-- A record of a remote query result: attribute name to value. -/
abbrev Record := List (String × Value)

/-- The external collaborators of the plugin, each of which may fail:
`Utils.GUID.newGuidString()` (the identifier generated at the n-th call),
`Metadata.getEntity(entity)` (its answer may depend on the metadata requests issued
before), `Service.retrieveMultiple(entity, params)` (its answer `resp.data.values`
may depend on the queries issued before), the built-in `parseFloat` and
`moment(dt).toDate()`. -/
structure Env where
  newGuidString : Nat → String
  getEntity : List (Option String) → Option String → Except String EntityMeta
  retrieveMultiple : List (Option String × String) → Option String → String →
    Except String (List Record)
  parseFloat : String → Value
  moment : String → Value

/-- Source `parseDateTime(dt)`: `new Date(parseInt(dt))` for an integer text (a time
value beyond ±8.64e15 ms is an invalid date), else the date library. -/
def parseDateTime (env : Env) (dt : String) : Value :=
  if REGEX_INTEGER dt then
    match parseInt dt with
    | .num ms => if decide (-8640000000000000 ≤ ms) && decide (ms ≤ 8640000000000000) then .date ms
      else .invalidDate
    | _ => .invalidDate
  else env.moment dt

/-- The table `Parsers`, read at `attrType`; `none` is `undefined` (a type that
is not a key of the table). Every entry is called as `(value, attrMeta)`. -/
def Parsers (env : Env) :
    Option String → Option (String → Option AttributeMeta → Except String Value)
  | some "String" => some fun v _ => .ok (.str v)
  | some "Memo" => some fun v _ => .ok (.str v)
  | some "Integer" => some fun v _ => .ok (parseInt v)
  | some "Decimal" => some fun v _ => .ok (env.parseFloat v)
  | some "Money" => some fun v _ => .ok (env.parseFloat v)
  | some "Float" => some fun v _ => .ok (env.parseFloat v)
  | some "State" => some parseOSV
  | some "Status" => some parseOSV
  | some "Picklist" => some parseOSV
  | some "MultiSelectPicklist" => some fun v _ => parseMOSV v
  | some "Customer" => some fun v _ => .ok (parseLookup v)
  | some "Lookup" => some fun v _ => .ok (parseLookup v)
  | some "Owner" => some fun v _ => .ok (parseLookup v)
  | some "Uniqueidentifier" => some fun v _ => .ok (.str v)
  | some "Boolean" => some fun v _ => .ok (parseBool v)
  | some "DateTime" => some fun v _ => .ok (parseDateTime env v)
  | _ => none

/-- Source `parseValue(value, attrType, attrMeta)`: `null` for a value that is not a
string; calling `Parsers[attrType]` when the table has no such entry is a
`TypeError`. -/
def parseValue (env : Env) (value : Cell) (attrType : Option String)
    (attrMeta : Option AttributeMeta) : Except String Value :=
  match value with
  | .str s =>
    match Parsers env attrType with
    | some parser_ => parser_ s attrMeta
    | none => .error "TypeError"
  | _ => .ok .null

/-! ## Lookup resolver (`resolve`, `RESOLVECACHE`) -/

/-- An entry of the resolve cache: `{value, valid, message}`. -/
structure CacheEntry where
  value : Value
  valid : Bool
  message : Option String := none

/-- The mutable state the import works on: the process-wide `RESOLVECACHE`
(entity, then attribute, then a `Map` keyed by the raw value), the log of the
`Service.retrieveMultiple` calls issued so far (entity and parameters, oldest
first), the number of identifiers generated so far and the log of the
`Metadata.getEntity` calls that `resolve` issued so far (oldest first). The cache
holds the entries the code has written; what the reads of the cache find besides
is told by `readsBuiltin`. -/
structure World where
  RESOLVECACHE : List ((String × String × Cell) × CacheEntry) := []
  queries : List (Option String × String) := []
  guids : Nat := 0
  metadata : List (Option String) := []

/-- Source `ACACHE.set(value, entry)` on the cache of `entity` and `attr`. -/
def cacheSet (key : String × String × Cell) (entry : CacheEntry) :
    List ((String × String × Cell) × CacheEntry) → List ((String × String × Cell) × CacheEntry)
  | [] => [(key, entry)]
  | (k, e) :: rest => if k = key then (key, entry) :: rest else (k, e) :: cacheSet key entry rest

/-- Source `ACACHE.has(value)` and `ACACHE.get(value)` on the cache of `entity` and
`attr`; `none` when the cache has no entry for the value. -/
def cacheGet (key : String × String × Cell) :
    List ((String × String × Cell) × CacheEntry) → Option CacheEntry
  | [] => none
  | (k, e) :: rest => if k = key then some e else cacheGet key rest

/-- The names of the properties every object inherits from `Object.prototype`:
`Parsers[name]` is not `undefined` for them although the table has no such entry. -/
def inheritedNames : List String :=
  ["constructor", "__proto__", "hasOwnProperty", "isPrototypeOf", "propertyIsEnumerable",
    "toLocaleString", "toString", "valueOf", "__defineGetter__", "__defineSetter__",
    "__lookupGetter__", "__lookupSetter__"]

/-- Whether the reads `RESOLVECACHE[entity]` and `ECACHE[attr]` of `resolve` end at a
built-in instead of a cache. `RESOLVECACHE` and the caches of the entities are plain
objects, so a name of `Object.prototype` is read from there. With such an attribute
name `ECACHE[attr]` is a built-in function (or `Object.prototype`, or `null` with a
setter that throws), and with the name of an inherited function as the entity, `ECACHE`
is that function, whose `name` is a string and whose `length` is a number that is
not zero or cannot be written. Each of them ends `resolve` in a `TypeError` before
`ACACHE.has(value)` returns. For the other names under an inherited entity name the
properties of the built-in decide, which are not part of the model. -/
def readsBuiltin (entity attr : String) : Bool :=
  inheritedNames.contains attr ||
    (inheritedNames.contains entity && entity != "__proto__" && (attr == "name" || attr == "length"))

/-- The query parameters `resolve` builds for a string attribute:
`$select=${pk}&$filter=${attr} eq '${value}'&$top=2`. -/
def resolveParams (pk : String) (attr : Option String) (value : Cell) : String :=
  "$select=" ++ pk ++ "&$filter=" ++ (keyOf attr ++ " eq '" ++ value.toStr ++ "'") ++ "&$top=2"

/-- Source `resolve(entity, attr, value)`: the result (the identifier, or the message of
the error thrown) and the state afterwards. Reading `.type` of a missing
attribute is a `TypeError`, and so is calling `has` on a built-in that the reads
of the cache ended at. -/
def resolve (env : Env) (entity attr : Option String) (value : Cell) (w : World) :
    Except String Value × World :=
  let key := (keyOf entity, keyOf attr, value)
  if readsBuiltin (keyOf entity) (keyOf attr) then (.error "TypeError", w)
  else
    match cacheGet key w.RESOLVECACHE with
    | some entry =>
      if entry.valid then (.ok entry.value, w) else (.error (entry.message.getD ""), w)
    | none =>
      let w0 := { w with metadata := w.metadata ++ [entity] }
      match env.getEntity w.metadata entity with
      | .error e => (.error e, w0)
      | .ok meta =>
        match meta.attributes.lookup (keyOf attr) with
        | none => (.error "TypeError", w0)
        | some attrMeta =>
          if attrMeta.type = "String" ∨ attrMeta.type = "Memo" then
            let pk := meta.primaryIdAttribute
            let params := resolveParams pk attr value
            let w1 := { w0 with queries := w.queries ++ [(entity, params)] }
            match env.retrieveMultiple w.queries entity params with
            | .error e => (.error e, w1)
            | .ok values =>
              match values with
              | [record] =>
                let id := getProp pk record
                let cache := cacheSet key (CacheEntry.mk id true none) w1.RESOLVECACHE
                (.ok id, { w1 with RESOLVECACHE := cache })
              | [] =>
                let message := "Not Found: " ++ keyOf entity ++ "." ++ keyOf attr ++ " = "
                  ++ value.toStr
                let cache := cacheSet key (CacheEntry.mk .null false (some message)) w1.RESOLVECACHE
                (.error message, { w1 with RESOLVECACHE := cache })
              | _ =>
                let message := "Duplicates Found: " ++ keyOf entity ++ "." ++ keyOf attr ++ " = "
                  ++ value.toStr
                let cache := cacheSet key (CacheEntry.mk .null false (some message)) w1.RESOLVECACHE
                (.error message, { w1 with RESOLVECACHE := cache })
          else (.error ("Not Implememted: Resolve attribute type " ++ attrMeta.type), w0)

/-! ## Record transformer (`processRecord`) -/

/-- Source `REQUESTMODES`, the values of the operation selector. -/
inductive RequestMode where
  | AssociateRequest
  | CreateRequest
  | UpdateRequest
  | UpsertRequest
  deriving DecidableEq

/-- A field mapping, with the defaults of `FIELDDEFAULTS`; `none` is `null`. -/
structure Field where
  mode : String := "Map"
  from_ : Option String := none
  to_ : Option String := none
  type : Option String := none
  resolve : Bool := false
  resolveAttribute : Option String := none
  target : Option String := none
  targets : List String := []
  value : Value := .null

/-- An alternate key of the entity. -/
structure AlternateKey where
  KeyAttributes : List String

/-- The many-to-many relationship descriptor, as far as `processRecord` reads it. -/
structure Relationship where
  SchemaName : String
  Entity1LogicalName : String
  Entity2LogicalName : String

/-- The component state `processRecord` reads: `this.entity`, `this.meta`,
`this.key` (`none` is `null`), `this.operation`, `this.relationship` and
`this.fields`. -/
structure Ctx where
  entity : String
  meta : EntityMeta
  key : Option AlternateKey := none
  operation : RequestMode
  relationship : Option Relationship := none
  fields : List Field

/-- The package of a create, update or upsert: `{logicalName, id, etag, entity}`;
`entity` is the field set. -/
structure Pckg where
  logicalName : String
  id : Value
  etag : Value
  entity : List (String × Value)

/-- The package of an association. -/
structure AssocPckg where
  logicalNameA : String
  idA : Value
  logicalNameB : String
  idB : Value
  relationName : String

/-- What `processRecord` returns. -/
inductive OperationPackage where
  | record (pckg : Pckg)
  | associate (pckg : AssocPckg)

/-- Source `LOOKUPTYPES`. -/
def LOOKUPTYPES : List String := ["Owner", "Customer", "Lookup"]

/-- Source `isLookup(field)`: `LOOKUPTYPES.includes(field.type)`. -/
def isLookup (field : Field) : Bool :=
  match field.type with
  | some t => LOOKUPTYPES.contains t
  | none => false

/-- Source `this.key && this.key.KeyAttributes.includes(to)`. -/
def isKeyMember (key : Option AlternateKey) (to_ : Option String) : Bool :=
  match key, to_ with
  | some k, some t => k.KeyAttributes.contains t
  | _, _ => false

/-- The reference `{logicalName: target, id}` a lookup mapping writes. -/
def lookupRef (target : Option String) (id : Value) : Value :=
  .obj [("logicalName", (target.map Value.str).getD .null), ("id", id)]

/-- The assignment `pckg.entity[to] = value`. -/
def Pckg.setField (pckg : Pckg) (to_ : Option String) (value : Value) : Pckg :=
  { pckg with entity := setProp (keyOf to_) value pckg.entity }

/-- One iteration of the `for(const field of this.fields)` loop of the branch for
create, update and upsert: the package after the mapping, or the message of the
error thrown, and the state afterwards. Assigning a property on an `id` that is
not an object is a `TypeError` (the file is a module, so strict). -/
def processRecordStep (env : Env) (ctx : Ctx) (raw : RawRow) (field : Field) (pckg : Pckg)
    (w : World) : Except String Pckg × World :=
  if field.mode = "Ignore" then (.ok pckg, w)
  else if field.mode = "ETag" then
    let tag := raw.get field.from_
    if tag = .null ∨ tag = .str "" then (.ok pckg, w)
    else if ETAGREGEX tag.toStr then (.ok { pckg with etag := tag.toValue }, w)
    else (.error ("Invalid ETag: " ++ tag.toStr), w)
  else if field.mode = "Map" then
    let toMeta := ctx.meta.attributes.lookup (keyOf field.to_)
    if field.to_ = some ctx.meta.primaryIdAttribute then
      let id := if (raw.get field.from_).truthy then (raw.get field.from_).toValue else pckg.id
      if ctx.operation = .CreateRequest then
        (.ok ({ pckg with id := id }.setField field.to_ id), w)
      else (.ok { pckg with id := id }, w)
    else if isKeyMember ctx.key field.to_ then
      match parseValue env (raw.get field.from_) field.type toMeta with
      | .error e => (.error e, w)
      | .ok crmVal =>
        match pckg.id with
        | .obj props =>
          let id := Value.obj (setProp (keyOf field.to_) crmVal props)
          (.ok ({ pckg with id := id }.setField field.to_ crmVal), w)
        | _ => (.error "TypeError", w)
    else if isLookup field then
      if field.resolve then
        match resolve env field.target field.resolveAttribute (raw.get field.from_) w with
        | (.error e, w1) => (.error e, w1)
        | (.ok id, w1) => (.ok (pckg.setField field.to_ (lookupRef field.target id)), w1)
      else
        (.ok (pckg.setField field.to_ (lookupRef field.target (raw.get field.from_).toValue)), w)
    else
      match parseValue env (raw.get field.from_) field.type toMeta with
      | .error e => (.error e, w)
      | .ok v => (.ok (pckg.setField field.to_ v), w)
  else if field.mode = "Static" then (.ok (pckg.setField field.to_ field.value), w)
  else (.error ("Invalid/Unknown field mode: " ++ field.mode), w)

/-- The loop over the mappings, in their order, left at the first error. -/
def processRecordLoop (env : Env) (ctx : Ctx) (raw : RawRow) :
    List Field → Pckg → World → Except String Pckg × World
  | [], pckg, w => (.ok pckg, w)
  | field :: rest, pckg, w =>
    match processRecordStep env ctx raw field pckg w with
    | (.ok pckg1, w1) => processRecordLoop env ctx raw rest pckg1 w1
    | (.error e, w1) => (.error e, w1)

/-- One iteration of the loop of the `AssociateRequest` branch. -/
def associateStep (rel : Relationship) (raw : RawRow) (field : Field) (pckg : AssocPckg) :
    Except String AssocPckg :=
  if field.mode = "Map" then
    if field.target = some rel.Entity1LogicalName then
      .ok { pckg with idA := (raw.get field.from_).toValue }
    else if field.target = some rel.Entity2LogicalName then
      .ok { pckg with idB := (raw.get field.from_).toValue }
    else
      .error ("Cannot map " ++ keyOf field.from_ ++ " to " ++ keyOf field.to_
        ++ " in an AssociateRequest")
  else if field.mode = "Ignore" then .ok pckg
  else .error ("Unsuppored field mode " ++ field.mode ++ " for AssociateRequest")

/-- The loop of the `AssociateRequest` branch, left at the first error. -/
def associateLoop (rel : Relationship) (raw : RawRow) : List Field → AssocPckg →
    Except String AssocPckg
  | [], pckg => .ok pckg
  | field :: rest, pckg =>
    match associateStep rel raw field pckg with
    | .ok pckg1 => associateLoop rel raw rest pckg1
    | .error e => .error e

/-- The package `processRecord` starts from in the branch for create, update
and upsert, and the state after `Utils.GUID.newGuidString()` was or was not
called for it. -/
def initialPckg (env : Env) (ctx : Ctx) (w : World) : Pckg × World :=
  if ctx.operation = .UpdateRequest then
    ({ logicalName := ctx.entity, id := .null, etag := .null, entity := [] }, w)
  else if ctx.key.isSome then
    ({ logicalName := ctx.entity, id := .obj [], etag := .null, entity := [] }, w)
  else
    ({ logicalName := ctx.entity, id := .str (env.newGuidString w.guids), etag := .null,
       entity := [] }, { w with guids := w.guids + 1 })

/-- Source `processRecord(raw)`: the package, or the message of the error thrown, and
the state afterwards. Destructuring a `null` relationship is a `TypeError`. -/
def processRecord (env : Env) (ctx : Ctx) (raw : RawRow) (w : World) :
    Except String OperationPackage × World :=
  if ctx.operation = .AssociateRequest then
    match ctx.relationship with
    | none => (.error "TypeError", w)
    | some rel =>
      let pckg : AssocPckg :=
        { logicalNameA := rel.Entity1LogicalName, idA := .null,
          logicalNameB := rel.Entity2LogicalName, idB := .null, relationName := rel.SchemaName }
      ((associateLoop rel raw ctx.fields pckg).map OperationPackage.associate, w)
  else
    match processRecordLoop env ctx raw ctx.fields (initialPckg env ctx w).1
        (initialPckg env ctx w).2 with
    | (.ok pckg, w1) => (.ok (.record pckg), w1)
    | (.error e, w1) => (.error e, w1)

/-! ## Validation pass (`prepareData`) -/

/-- The counters `counts` of the component, `COUNTDEFAULTS` at the start. -/
structure Counts where
  New : Nat := 0
  Checked : Nat := 0
  Enqueued : Nat := 0
  Failed : Nat := 0
  Success : Nat := 0
  deriving DecidableEq

/-- The body of `for(const record of page)` in `prepareData`: `processRecord`
in a `try`, `Checked++` after it returned, `Failed++` in the `catch`. -/
def prepareRecord (env : Env) (ctx : Ctx) (st : Counts × World) (record : RawRow) :
    Counts × World :=
  match processRecord env ctx record st.2 with
  | (.ok _, w1) => ({ st.1 with Checked := st.1.Checked + 1 }, w1)
  | (.error _, w1) => ({ st.1 with Failed := st.1.Failed + 1 }, w1)

/-- Source `prepareData()` on the pages the reader of `getDataReader()` yields for
`ReadAll({pageSize: 250})`: the counters and the state when it returns. -/
def prepareData (env : Env) (ctx : Ctx) (pages : List (List RawRow)) (counts : Counts)
    (w : World) : Counts × World :=
  pages.foldl (fun st page => page.foldl (prepareRecord env ctx) st) (counts, w)

/-- The outcomes of `processRecord` on the rows in turn, each started in the
state the one before left: `true` for a package, `false` for a failure. -/
def outcomes (env : Env) (ctx : Ctx) : List RawRow → World → List Bool
  | [], _ => []
  | record :: rest, w =>
    match processRecord env ctx record w with
    | (.ok _, w1) => true :: outcomes env ctx rest w1
    | (.error _, w1) => false :: outcomes env ctx rest w1

/-! ## Concrete inputs -/

/-- Metadata of an `account` entity, the target of the example imports. -/
def metaAccount : EntityMeta :=
  { primaryIdAttribute := "accountid"
    attributes := [("accountid", { type := "Uniqueidentifier" }), ("name", { type := "String" }),
      ("accountnumber", { type := "String" }), ("primarycontactid", { type := "Lookup" })] }

/-- An environment whose remote query finds no record (end-to-end scenario 3). -/
def envNoMatch : Env :=
  { newGuidString := fun _ => "00000000-0000-0000-0000-000000000001"
    getEntity := fun _ _ => .ok metaAccount
    retrieveMultiple := fun _ _ _ => .ok []
    parseFloat := fun _ => .nan
    moment := fun _ => .invalidDate }

/-- An environment whose remote query fails, as a request that is rejected does. -/
def envDown : Env :=
  { envNoMatch with retrieveMultiple := fun _ _ _ => .error "503 Service Unavailable" }

/-- The mapping of end-to-end scenario 1: column `name` to attribute `name`. -/
def fieldName : Field := { from_ := some "name", to_ := some "name", type := some "String" }

/-- Create on `account` with the single mapping of scenario 1. -/
def ctxCreateName : Ctx :=
  { entity := "account", meta := metaAccount, operation := .CreateRequest, fields := [fieldName] }

/-- An ETag mapping of the column `etag`. -/
def fieldEtag : Field := { mode := "ETag", from_ := some "etag" }

/-- Update on `account` with a single ETag mapping (scenario 2). -/
def ctxUpdateEtag : Ctx :=
  { entity := "account", meta := metaAccount, operation := .UpdateRequest, fields := [fieldEtag] }

/-- An alternate key on `accountnumber`. -/
def keyAccountNumber : AlternateKey := { KeyAttributes := ["accountnumber"] }

/-- Upsert on `account` by alternate key, without mappings. -/
def ctxUpsertNoFields : Ctx :=
  { entity := "account", meta := metaAccount, key := some keyAccountNumber,
    operation := .UpsertRequest, fields := [] }

/-- A mapping of the column `id` to the primary identifier `accountid`. -/
def fieldAccountId : Field :=
  { from_ := some "id", to_ := some "accountid", type := some "Uniqueidentifier" }

/-- An import on `account` whose single mapping sets the primary identifier. -/
def ctxWithId (operation : RequestMode) : Ctx :=
  { entity := "account", meta := metaAccount, operation := operation, fields := [fieldAccountId] }

/-- A mapping of the column `number` to the key attribute `accountnumber`. -/
def fieldAccountNumber : Field :=
  { from_ := some "number", to_ := some "accountnumber", type := some "String" }

/-- Upsert on `account` by the alternate key, with the mapping to its attribute. -/
def ctxUpsertByNumber : Ctx :=
  { entity := "account", meta := metaAccount, key := some keyAccountNumber,
    operation := .UpsertRequest, fields := [fieldAccountNumber] }

/-- Upsert with a selected key that lists the primary identifier itself. -/
def ctxUpsertByIdKey : Ctx :=
  { entity := "account", meta := metaAccount, key := some { KeyAttributes := ["accountid"] },
    operation := .UpsertRequest, fields := [fieldAccountId] }

/-- A lookup mapping to `primarycontactid`, resolved by `name` or passed through. -/
def fieldPrimaryContact (resolve : Bool) : Field :=
  { from_ := some "contact", to_ := some "primarycontactid", type := some "Lookup",
    resolve := resolve, resolveAttribute := some "name", target := some "account" }

/-- Create on `account` with the single lookup mapping. -/
def ctxCreateContact (resolve : Bool) : Ctx :=
  { entity := "account", meta := metaAccount, operation := .CreateRequest,
    fields := [fieldPrimaryContact resolve] }

/-- An environment whose remote query finds exactly one record. -/
def envOneMatch : Env :=
  { envNoMatch with retrieveMultiple := fun _ _ _ => .ok [[("accountid", .str "A1")]] }

/-- Update on `account` with the mappings of scenarios 1 and 2 together. -/
def ctxUpdateNameEtag : Ctx :=
  { entity := "account", meta := metaAccount, operation := .UpdateRequest,
    fields := [fieldName, fieldEtag] }

/-- Two pages of raw rows; the second row carries an ETag the pattern rejects. -/
def pagesThreeRows : List (List RawRow) :=
  [[[("name", some "Acme"), ("etag", some "W/\"12345\"")],
    [("name", some "Bolt"), ("etag", some "garbage")]],
   [[("name", some "Core"), ("etag", none)]]]

/-- An environment whose metadata service rejects the first request and answers from
then on; the remote query finds no record. -/
def envMetadataDownOnce : Env :=
  { envNoMatch with
    getEntity := fun before _ =>
      if before.isEmpty then .error "503 Service Unavailable" else .ok metaAccount }

/-! ## Notions used to state the properties -/

/-- The failure in which `resolve` ends after the metadata request and before any
query, for the answer of the request: the rejection of the request, the `TypeError` of
a missing attribute, or the attribute type that is not implemented; `none` when the
query is issued. -/
def failureBeforeQuery (answer : Except String EntityMeta) (attr : Option String) :
    Option String :=
  match answer with
  | .error e => some e
  | .ok meta =>
    match meta.attributes.lookup (keyOf attr) with
    | none => some "TypeError"
    | some attrMeta =>
      if attrMeta.type = "String" ∨ attrMeta.type = "Memo" then none
      else some ("Not Implememted: Resolve attribute type " ++ attrMeta.type)

/-- The records of a load: the rows under consecutive keys from `g` on. -/
def keyed {α : Type} : Nat → List α → List (Nat × α)
  | _, [] => []
  | g, r :: rs => (g, r) :: keyed (g + 1) rs

/-! ## Paged array source (`class ArrayReader`) -/

/-- An in-memory source: `this.array`. -/
structure ArrayReader (α : Type) where
  array : List α

/-- Source `ArrayReader.Count()`: `this.array.length`. -/
def ArrayReader.Count {α : Type} (reader : ArrayReader α) : Nat :=
  reader.array.length

/-- The `for(const item of this.array)` loop of `ArrayReader.ReadAll` with the
statement after it, as the list of the pages yielded: the items still to visit,
then `page`. A full page is yielded as a copy and `page` is emptied; what is left
in `page` after the loop is yielded when it is not empty. -/
def ArrayReader.ReadAllLoop {α : Type} (pageSize : Nat) : List α → List α → List (List α)
  | [], page => if page.length > 0 then [page] else []
  | item :: rest, page =>
    if (page ++ [item]).length = pageSize then
      (page ++ [item]) :: ArrayReader.ReadAllLoop pageSize rest []
    else ArrayReader.ReadAllLoop pageSize rest (page ++ [item])

/-- Source `ArrayReader.ReadAll({pageSize})`: the list of the pages the generator yields. -/
def ArrayReader.ReadAll {α : Type} (reader : ArrayReader α) (pageSize : Nat) : List (List α) :=
  ArrayReader.ReadAllLoop pageSize reader.array []

/-! ## Notions used to state the coercion properties -/

/-- An entity logical name as the claims word it: a lower-case letter, then at
most 1022 characters of `[a-z0-9_]`, then a character of `[a-z0-9]`. -/
def IsEntityName (n : List Char) : Prop :=
  ∃ (c : Char) (mid : List Char) (l : Char), n = c :: (mid ++ [l]) ∧ isLower c = true ∧
    (∀ m ∈ mid, isNameChar m = true) ∧ mid.length ≤ 1022 ∧ (isLower l || isDigit l) = true

/-- A GUID as the claims word it: 8-4-4-4-12 lower-case hexadecimal digits. -/
def IsGuid (g : List Char) : Prop :=
  ∃ g1 g2 g3 g4 g5 : List Char,
    g = g1 ++ '-' :: (g2 ++ '-' :: (g3 ++ '-' :: (g4 ++ '-' :: g5))) ∧
    g1.length = 8 ∧ g2.length = 4 ∧ g3.length = 4 ∧ g4.length = 4 ∧ g5.length = 12 ∧
    (∀ c ∈ g1 ++ g2 ++ g3 ++ g4 ++ g5, isHexDigit c = true)

/-- The text equals the lower-case `word` when compared without regard to case:
it has the length of the word and each of its characters is the letter of the word
or the upper-case form of that letter. -/
def equalsIgnoreCase : List Char → List Char → Bool
  | [], [] => true
  | c :: cs, l :: word => (c == l || c == l.toUpper) && equalsIgnoreCase cs word
  | _, _ => false

/-- A GUID as the pattern takes it from a text: the 8-4-4-4-12 digits with an
optional `{` before and an optional `}` after. -/
def IsBracedGuid (g : List Char) : Prop :=
  ∃ core : List Char, IsGuid core ∧
    (g = core ∨ g = '{' :: core ∨ g = core ++ ['}'] ∨ g = '{' :: (core ++ ['}']))

/-- The text is, as a whole, a composite token `<entityName>:<guid>`. -/
def IsLookupToken (s : List Char) : Prop :=
  ∃ n g : List Char, s = n ++ ':' :: g ∧ IsEntityName n ∧ IsBracedGuid g

/-- The text holds a composite token `<entityName>:<guid>` somewhere in it. -/
def ContainsLookupToken (s : List Char) : Prop :=
  ∃ pre n g post : List Char, s = pre ++ (n ++ ':' :: (g ++ post)) ∧ IsEntityName n ∧
    IsBracedGuid g

/-- A relationship of `account` with `contact`. -/
def relAccountContact : Relationship :=
  { SchemaName := "account_contact", Entity1LogicalName := "account",
    Entity2LogicalName := "contact" }

/-- A relationship of `account` with itself. -/
def relAccountAccount : Relationship :=
  { SchemaName := "account_account", Entity1LogicalName := "account",
    Entity2LogicalName := "account" }

/-- A mapping of a column to one side of a relationship. -/
def fieldSide (from_ target : String) : Field :=
  { from_ := some from_, to_ := some from_, type := some "Uniqueidentifier", target := some target }

/-- An association import with the given relationship and mappings. -/
def ctxAssociate (rel : Relationship) (fields : List Field) : Ctx :=
  { entity := "intersect", meta := metaAccount, operation := .AssociateRequest,
    relationship := some rel, fields := fields }

/-! ## Export (`exportData` of `src/plugins/dataexport.js`) -/

/-- A call of `exportData` on its export target. -/
inductive TargetCall (Row : Type) where
  | Init (filename : String)
  | Header (columns : List String)
  | AddRange (rows : List Row)
  | Finalize

/-- The name of a call and the number of rows it carries. -/
def TargetCall.shape {Row : Type} : TargetCall Row → String × Nat
  | .Init _ => ("Init", 0)
  | .Header _ => ("Header", 0)
  | .AddRange rows => ("AddRange", rows.length)
  | .Finalize => ("Finalize", 0)

/-- The arguments and collaborators of one `exportData` call, as far as the calls on
the target depend on them. `target` is the export target, `none` for `null`: given the
calls made before and the call made now, it tells whether the call throws. `filename`
is the file name after `if(!filename)` has supplied the default. `getEntity` is
`Metadata.getEntity(logicalName)`. `fields` is the field list after `if(!fields)`
has supplied the default. `pages` are the pages the data provider (`pageAll` or
`retrieveAll` of `lib/helpers.js`) yields, `providerFailure` the error it throws after
them, if any. `project` is the body of `page.map(record => ...)`, which throws where
`textValue` does. `cancelled i` is `token.cancelled` when it is read after page `i`,
`cancelledAtEnd` when it is read after `Finalize`. `pageTick`, the progress callback,
is taken not to throw. -/
structure ExportArgs (Record Row : Type) where
  target : Option (List (TargetCall Row) → TargetCall Row → Except String Unit)
  format : String := "csv"
  filename : String
  getEntity : Except String EntityMeta
  fields : List String
  includeEtag : Bool := true
  pages : List (List Record)
  providerFailure : Option String := none
  project : Record → Except String Row
  cancelled : Nat → Bool
  cancelledAtEnd : Bool

/-- The `page.map(record => ...)` of `exportData`: the projected rows of a page, or the
error of the first record whose projection throws. -/
def projectPage {Record Row : Type} (project : Record → Except String Row) :
    List Record → Except String (List Row)
  | [] => .ok []
  | record :: rest =>
    match project record with
    | .error e => .error e
    | .ok row =>
      match projectPage project rest with
      | .error e => .error e
      | .ok rows => .ok (row :: rows)

/-- How the loop over the pages was left. -/
inductive LoopExit where
  | exhausted
  | cancelled
  | thrown (message : String)

/-- One call on the target, when there is one: the calls so far with this one added,
and the error the call throws, if any. -/
def callTarget {Row : Type}
    (target : Option (List (TargetCall Row) → TargetCall Row → Except String Unit))
    (calls : List (TargetCall Row)) (call : TargetCall Row) :
    List (TargetCall Row) × Option String :=
  match target with
  | none => (calls, none)
  | some t =>
    match t calls call with
    | .ok _ => (calls ++ [call], none)
    | .error e => (calls ++ [call], some e)

/-- The loop `for await(const page of dataProvider)` of `exportData`, from page `i` on:
the calls on the target, the rows collected in `RESULTS`, and how the loop was left. -/
def exportPages {Record Row : Type} (args : ExportArgs Record Row) :
    Nat → List (List Record) → List (TargetCall Row) → List Row →
      List (TargetCall Row) × List Row × LoopExit
  | _, [], calls, results =>
    match args.providerFailure with
    | some e => (calls, results, .thrown e)
    | none => (calls, results, .exhausted)
  | i, page :: rest, calls, results =>
    match projectPage args.project page with
    | .error e => (calls, results, .thrown e)
    | .ok pageResults =>
      match callTarget args.target calls (.AddRange pageResults) with
      | (calls1, some e) => (calls1, results, .thrown e)
      | (calls1, none) =>
        let results1 := if args.target.isSome then results else results ++ pageResults
        if args.cancelled i then (calls1, results1, .cancelled)
        else exportPages args (i + 1) rest calls1 results1

/-- What the promise of `exportData` settles with, as far as the export target is
concerned: `{cancelled: true}`, or the result object built from the collected rows. -/
inductive ExportOutcome (Row : Type) where
  | cancelled
  | finished (results : List Row)

/-- Source `exportData({...})`, the asynchronous body up to the point where the rows are
serialised: the calls made on the target, in their order, and the outcome or the
message of the error thrown. -/
def exportData {Record Row : Type} (args : ExportArgs Record Row) :
    List (TargetCall Row) × Except String (ExportOutcome Row) :=
  if args.format = "csv" ∨ args.format = "json" ∨ args.format = "xlsx" then
    match args.getEntity with
    | .error e => ([], .error e)
    | .ok _ =>
      let columns := if args.includeEtag then ["etag"] ++ args.fields else args.fields
      match callTarget args.target [] (.Init args.filename) with
      | (calls1, some e) => (calls1, .error e)
      | (calls1, none) =>
        match callTarget args.target calls1 (.Header columns) with
        | (calls2, some e) => (calls2, .error e)
        | (calls2, none) =>
          match exportPages args 0 args.pages calls2 [] with
          | (calls3, _, .thrown e) => (calls3, .error e)
          | (calls3, results, _) =>
            match callTarget args.target calls3 .Finalize with
            | (calls4, some e) => (calls4, .error e)
            | (calls4, none) =>
              if args.cancelledAtEnd then (calls4, .ok .cancelled)
              else (calls4, .ok (.finished results))
  else ([], .error ("Invalid/Unrecognized format: '" ++ args.format ++ "'"))

/-- An export of 1,250 rows, delivered in pages of 500, through a target whose calls
all succeed. -/
def exportThreePages : ExportArgs Nat Nat :=
  { target := some (fun _ _ => .ok ())
    filename := "DataExport account"
    getEntity := .ok metaAccount
    fields := ["name"]
    pages := [List.replicate 500 1, List.replicate 500 2, List.replicate 250 3]
    project := fun record => .ok record
    cancelled := fun _ => false
    cancelledAtEnd := false }

/-! ## Streaming parser (`papaWorkerCode`, `parseInWorker`) -/

/-- A message of the worker to the controller: `{done: false, results}` with a
micro-batch, or `{done: true, steps}`. -/
inductive WorkerMsg (R : Type) where
  | results (page : List R)
  | done (steps : Nat)

/-- A message of the controller to the running worker: `{resume: true}` or
`{abort: true}`. -/
inductive Signal where
  | resume
  | abort
  deriving DecidableEq

/-- The worker after it has received `{file, config, workerStepSize}` and called
`Papa.parse`: `input` are the step results the parser has still to produce, `page`,
`pageSize` and `steps` are the variables of that name, `paused` tells that
`parser.pause()` was called and the parser not resumed since, `closed` that
`complete` has run and called `close()`, `resumeParser` and `abortParser` that the
variable of that name is set, `thrown` that a handler has thrown. -/
structure StreamWorker (R : Type) where
  pageSize : Nat
  input : List R
  page : List R := []
  steps : Nat := 0
  paused : Bool := false
  closed : Bool := false
  resumeParser : Bool := false
  abortParser : Bool := false
  thrown : Bool := false

/-- The `step` callback the worker gives to `Papa.parse`, called with the next step
result: the worker afterwards and the messages it posts. -/
def StreamWorker.step {R : Type} (w : StreamWorker R) (result : R) (rest : List R) :
    StreamWorker R × List (WorkerMsg R) :=
  if (w.page ++ [result]).length = w.pageSize then
    ({ w with input := rest, page := [], steps := w.steps + 1, paused := true,
              resumeParser := true, abortParser := true },
      [.results (w.page ++ [result])])
  else ({ w with input := rest, page := w.page ++ [result], steps := w.steps + 1 }, [])

/-- The `complete` callback the worker gives to `Papa.parse`: the rest of the page is
posted when there is one, then `{done: true, steps}`, then the worker closes. -/
def StreamWorker.complete {R : Type} (w : StreamWorker R) :
    StreamWorker R × List (WorkerMsg R) :=
  ({ w with closed := true },
    (if w.page.length ≠ 0 then [.results w.page] else []) ++ [.done w.steps])

/-- The `onmessage` handler of the worker for `{resume: true}` and `{abort: true}`.
It throws when the parser function is not set. `parser.resume` lets the paused parser
go on; `parser.abort` ends the parse and, as the parser library does, calls
`complete`. -/
def StreamWorker.onmessage {R : Type} (w : StreamWorker R) :
    Signal → StreamWorker R × List (WorkerMsg R)
  | .resume =>
    if w.resumeParser then ({ w with paused := false }, []) else ({ w with thrown := true }, [])
  | .abort => if w.abortParser then w.complete else ({ w with thrown := true }, [])

/-- How the `step` callback of the controller answers a micro-batch: it returns a
value that is no promise, it throws, or it returns a promise. -/
inductive StepResponse where
  | returned
  | threw
  | promise

/-- The controller of `parseInWorker`: the number of promises of the `step` callback
that are not settled yet, the steps the promise of `parseInWorker` was resolved with,
and, for every micro-batch whose processing has ended, whether it succeeded. -/
structure Controller where
  pending : Nat := 0
  resolved : Option Nat := none
  outcomes : List Bool := []

/-- The `worker.onmessage` handler of `parseInWorker` for one message of the worker,
given how `step` answers: the controller afterwards and the signals it posts. -/
def Controller.onmessage {R : Type} (c : Controller) (response : StepResponse) :
    WorkerMsg R → Controller × List Signal
  | .results _ =>
    match response with
    | .returned => ({ c with outcomes := c.outcomes ++ [true] }, [.resume])
    | .threw => ({ c with outcomes := c.outcomes ++ [false] }, [.abort])
    | .promise => ({ c with pending := c.pending + 1 }, [])
  | .done steps => ({ c with resolved := some steps }, [])

/-- The `then` and the `catch` handler on a promise of the `step` callback: the
controller afterwards and the signal it posts. -/
def Controller.settle (c : Controller) (fulfilled : Bool) : Controller × List Signal :=
  ({ c with pending := c.pending - 1, outcomes := c.outcomes ++ [fulfilled] },
    [if fulfilled then .resume else .abort])

/-- The worker, the controller and the two message queues between them, with the
history of all messages posted by the worker and all signals posted by the
controller. -/
structure Stream (R : Type) where
  worker : StreamWorker R
  controller : Controller := {}
  toController : List (WorkerMsg R) := []
  toWorker : List Signal := []
  posted : List (WorkerMsg R) := []
  signals : List Signal := []

/-- Source `parseInWorker(file, {step, workerStepSize = 500, ...config})` after
`worker.postMessage({file, workerStepSize, config})` has reached the worker; `input`
are the step results the file parses to, `workerStepSize` is `none` when the caller
gives none. -/
def parseInWorker {R : Type} (input : List R) (workerStepSize : Option Nat) :
    Stream R :=
  { worker := { pageSize := workerStepSize.getD 500, input := input } }

/-- One event of the protocol. The parser calls `step` or `complete` while it is
neither paused nor ended; a message is handled when it is the first of its queue; a
message for a closed worker is dropped; a promise of `step` settles. -/
inductive Stream.Step {R : Type} : Stream R → Stream R → Prop where
  | parseStep (s : Stream R) (result : R) (rest : List R) :
      s.worker.paused = false → s.worker.closed = false → s.worker.input = result :: rest →
      Stream.Step s { s with
        worker := (s.worker.step result rest).1
        toController := s.toController ++ (s.worker.step result rest).2
        posted := s.posted ++ (s.worker.step result rest).2 }
  | parseComplete (s : Stream R) :
      s.worker.paused = false → s.worker.closed = false → s.worker.input = [] →
      Stream.Step s { s with
        worker := s.worker.complete.1
        toController := s.toController ++ s.worker.complete.2
        posted := s.posted ++ s.worker.complete.2 }
  | workerReceives (s : Stream R) (signal : Signal) (rest : List Signal) :
      s.worker.closed = false → s.toWorker = signal :: rest →
      Stream.Step s { s with
        worker := (s.worker.onmessage signal).1
        toWorker := rest
        toController := s.toController ++ (s.worker.onmessage signal).2
        posted := s.posted ++ (s.worker.onmessage signal).2 }
  | workerClosed (s : Stream R) (signal : Signal) (rest : List Signal) :
      s.worker.closed = true → s.toWorker = signal :: rest →
      Stream.Step s { s with toWorker := rest }
  | controllerReceives (s : Stream R) (msg : WorkerMsg R) (rest : List (WorkerMsg R))
      (response : StepResponse) :
      s.toController = msg :: rest →
      Stream.Step s { s with
        controller := (s.controller.onmessage response msg).1
        toController := rest
        toWorker := s.toWorker ++ (s.controller.onmessage response msg).2
        signals := s.signals ++ (s.controller.onmessage response msg).2 }
  | promiseSettles (s : Stream R) (fulfilled : Bool) :
      0 < s.controller.pending →
      Stream.Step s { s with
        controller := (s.controller.settle fulfilled).1
        toWorker := s.toWorker ++ (s.controller.settle fulfilled).2
        signals := s.signals ++ (s.controller.settle fulfilled).2 }

/-- The states a run of the protocol on `input` can reach. -/
inductive Stream.Reachable {R : Type} (input : List R) (workerStepSize : Option Nat) :
    Stream R → Prop where
  | start : Stream.Reachable input workerStepSize (parseInWorker input workerStepSize)
  | next (s s1 : Stream R) :
      Stream.Reachable input workerStepSize s → Stream.Step s s1 →
      Stream.Reachable input workerStepSize s1

/-- The micro-batches among the messages. -/
def batches {R : Type} : List (WorkerMsg R) → List (List R)
  | [] => []
  | .results page :: rest => page :: batches rest
  | .done _ :: rest => batches rest

/-- The number of micro-batches among the messages. -/
def batchCount {R : Type} (msgs : List (WorkerMsg R)) : Nat :=
  (batches msgs).length

/-- The signal the controller posts for a micro-batch whose processing has ended. -/
def signalOf (succeeded : Bool) : Signal :=
  if succeeded then .resume else .abort

/-- What holds in every state a run of the protocol reaches: every micro-batch posted
is waiting in the queue, being processed, or answered by one signal; the signals are
those of the outcomes; while the parser runs nothing is waiting; while it is paused
exactly one micro-batch or its answer is waiting. -/
structure Stream.Inv {R : Type} (s : Stream R) : Prop where
  count : batchCount s.posted = batchCount s.toController + s.controller.pending + s.signals.length
  answers : s.signals = s.controller.outcomes.map signalOf
  running : s.worker.closed = false → s.worker.paused = false →
    s.toController = [] ∧ s.controller.pending = 0 ∧ s.toWorker = [] ∧ Signal.abort ∉ s.signals
  paused : s.worker.closed = false → s.worker.paused = true →
    s.worker.page = [] ∧ s.worker.resumeParser = true ∧ s.worker.abortParser = true ∧
    batchCount s.toController + s.controller.pending + s.toWorker.length = 1 ∧
    s.toController.length = batchCount s.toController ∧
    (s.toWorker = [] → Signal.abort ∉ s.signals) ∧
    (∀ signal rest, s.toWorker = signal :: rest →
      ∃ before, s.signals = before ++ [signal] ∧ Signal.abort ∉ before)
  closed : s.worker.closed = true → batchCount s.toController + s.controller.pending ≤ 1

/-- What holds in every state a run of the protocol on `input` reaches, about the
messages posted: while the worker is open the micro-batches posted, followed by the
pages the rest of the loop makes of the results still to come, are the pages of the
whole input, and no completion message is posted; once it is closed without an abort
signal the messages are all pages followed by one completion message. -/
structure Stream.Paging {R : Type} (input : List R) (workerStepSize : Option Nat)
    (s : Stream R) : Prop where
  size : s.worker.pageSize = workerStepSize.getD 500
  running : s.worker.closed = false →
    batches s.posted ++ ArrayReader.ReadAllLoop s.worker.pageSize s.worker.input s.worker.page =
      ArrayReader.ReadAllLoop s.worker.pageSize input [] ∧
    s.posted = (batches s.posted).map WorkerMsg.results ∧
    s.worker.steps + s.worker.input.length = input.length
  closed : s.worker.closed = true → Signal.abort ∉ s.signals →
    s.posted = (ArrayReader.ReadAllLoop s.worker.pageSize input []).map WorkerMsg.results ++
      [WorkerMsg.done input.length] ∧
    s.worker.steps = input.length

/-- The protocol on the results `[1, 2, 3]` with micro-batches of two, after the
parser has called `step` twice: the first micro-batch waits for the controller. -/
def streamFirstBatch : Stream Nat :=
  { worker := { pageSize := 2, input := [3], page := [], steps := 2, paused := true,
                resumeParser := true, abortParser := true },
    toController := [.results [1, 2]],
    posted := [.results [1, 2]] }

/-! ## Import run (`importData`) -/

/-- What `importData` waits for, in the order it starts it: `reader.Count()`, the next
page of `reader.ReadAll`, `processRecord(record)`, `OpsQueue.pushRange`, the promise of
`batch`, `Service.execute`, each with its outcome; `cancelSet` says that the Cancel
button set `cancelled` while `importData` waited for the event before it. -/
inductive ImportEvent (Row P : Type) where
  | count (ok : Bool)
  | read (ok : Bool)
  | transform (record : Row) (ok : Bool)
  | pushRange (pckgs : List P) (ok : Bool)
  | batch (pckgs : List P) (result : Option (Nat × Nat))
  | execute (pckg : P) (ok : Bool)
  | cancelSet
  deriving DecidableEq

/-- The collaborators of `importData`: the reader (`Count()` and the pages of
`ReadAll({pageSize: 500})`, either of which may fail), `processRecord` on a state `W`,
the options `opsqueue.use` and `options.batchProcessing.use`, whether the
`OpsQueue.pushRange` awaited as `i`-th succeeds, the numbers of successes and failures
of the `batch` awaited as `i`-th (`none` when its promise rejects), whether the
`Service.execute` awaited as `i`-th succeeds, and whether the Cancel button is clicked
during the `i`-th wait. -/
structure ImportEnv (Row P W : Type) where
  count : Except String Nat
  pages : List (Except String (List Row))
  processRecord : Row → W → Except String P × W
  useOpsQueue : Bool
  useBatch : Bool
  pushRange : Nat → List P → Bool
  batch : Nat → List P → Option (Nat × Nat)
  execute : Nat → P → Bool
  clicked : Nat → Bool

/-- The state of a run of `importData`: the events so far, `counts`, the flag
`cancelled`, the number of waits so far, the state of `processRecord`, and whether an
exception has reached the outer `catch`, which reports the error. -/
structure ImportRun (Row P W : Type) where
  events : List (ImportEvent Row P)
  counts : Counts
  cancelled : Bool
  awaits : Nat
  world : W
  error : Bool

/-- One `await` of `importData` on the event `e`: a click on Cancel during the wait
sets `cancelled`. -/
def ImportRun.await {Row P W : Type} (clicked : Nat → Bool) (r : ImportRun Row P W)
    (e : ImportEvent Row P) : ImportRun Row P W :=
  if clicked r.awaits && !r.cancelled then
    { r with events := r.events ++ [e, .cancelSet], cancelled := true, awaits := r.awaits + 1 }
  else { r with events := r.events ++ [e], awaits := r.awaits + 1 }

/-- Source `counts.Failed++`. -/
def ImportRun.failed {Row P W : Type} (r : ImportRun Row P W) (n : Nat) : ImportRun Row P W :=
  { r with counts := { r.counts with Failed := r.counts.Failed + n } }

/-- Source `counts.Success++`. -/
def ImportRun.succeeded {Row P W : Type} (r : ImportRun Row P W) (n : Nat) :
    ImportRun Row P W :=
  { r with counts := { r.counts with Success := r.counts.Success + n } }

/-- Source `counts.Enqueued += pckgs.length`. -/
def ImportRun.enqueued {Row P W : Type} (r : ImportRun Row P W) (n : Nat) :
    ImportRun Row P W :=
  { r with counts := { r.counts with Enqueued := r.counts.Enqueued + n } }

/-- The loop `for(const record of page)` of `importData`: `processRecord` in a `try`,
the package pushed to `pckgs`, `Failed++` in the `catch`, and `if(this.cancelled)
break` after each record. -/
def transformRows {Row P W : Type} (env : ImportEnv Row P W) :
    List Row → List P → ImportRun Row P W → List P × ImportRun Row P W
  | [], pckgs, r => (pckgs, r)
  | record :: rest, pckgs, r =>
    match env.processRecord record r.world with
    | (.ok pckg, w) =>
      let r1 := { r.await env.clicked (.transform record true) with world := w }
      if r1.cancelled then (pckgs ++ [pckg], r1) else transformRows env rest (pckgs ++ [pckg]) r1
    | (.error _, w) =>
      let r1 := { r.await env.clicked (.transform record false) with world := w }.failed 1
      if r1.cancelled then (pckgs, r1) else transformRows env rest pckgs r1

/-- The loop `for(const pckg of pckgs)` of `importData` without queue and batches:
`Service.execute` in a `try`, `Success++` after it, `Failed++` in the `catch`, and
`if(this.cancelled) break` after each package. -/
def executeAll {Row P W : Type} (env : ImportEnv Row P W) :
    List P → ImportRun Row P W → ImportRun Row P W
  | [], r => r
  | pckg :: rest, r =>
    let ok := env.execute r.awaits pckg
    let r1 := r.await env.clicked (.execute pckg ok)
    let r2 := if ok then r1.succeeded 1 else r1.failed 1
    if r2.cancelled then r2 else executeAll env rest r2

/-- The loop `for await(const page of reader.ReadAll({pageSize: 500}))` of
`importData`: the page is asked for, its records are transformed, `if(this.cancelled)
break`, then the packages are pushed to the queue, or sent as a batch, or executed one
by one. A failing reader and a rejected batch end the loop with the exception. -/
def importPages {Row P W : Type} (env : ImportEnv Row P W) :
    List (Except String (List Row)) → ImportRun Row P W → ImportRun Row P W
  | [], r => r.await env.clicked (.read true)
  | .error _ :: _, r => { r.await env.clicked (.read false) with error := true }
  | .ok page :: rest, r =>
    match transformRows env page [] (r.await env.clicked (.read true)) with
    | (pckgs, r2) =>
      if r2.cancelled then r2
      else if env.useOpsQueue then
        let ok := env.pushRange r2.awaits pckgs
        let r3 := r2.await env.clicked (.pushRange pckgs ok)
        importPages env rest (if ok then r3.enqueued pckgs.length else r3)
      else if env.useBatch then
        match env.batch r2.awaits pckgs with
        | none => { r2.await env.clicked (.batch pckgs none) with error := true }
        | some (successes, failures) =>
          let r3 := r2.await env.clicked (.batch pckgs (some (successes, failures)))
          importPages env rest ((r3.succeeded successes).failed failures)
      else importPages env rest (executeAll env pckgs r2)

/-- Source `importData()`, started with the counts `counts` and the state `world` of
`processRecord`: `cancelled = false`, `await reader.Count()`, the loop over the pages;
the `finally` sets `cancelled = false` again. -/
def importData {Row P W : Type} (env : ImportEnv Row P W) (counts : Counts) (world : W) :
    ImportRun Row P W :=
  let r0 : ImportRun Row P W := ImportRun.mk [] counts false 0 world false
  let r1 :=
    match env.count with
    | .error _ => { r0.await env.clicked (.count false) with error := true }
    | .ok _ => importPages env env.pages (r0.await env.clicked (.count true))
  { r1 with cancelled := false }

/-- Whether the event is the setting of `cancelled`. -/
def ImportEvent.isCancel {Row P : Type} : ImportEvent Row P → Bool
  | .cancelSet => true
  | _ => false

/-- Whether the event submits operation packages. -/
def ImportEvent.isSubmission {Row P : Type} : ImportEvent Row P → Bool
  | .pushRange _ _ => true
  | .batch _ _ => true
  | .execute _ _ => true
  | _ => false

/-- Whether the event transforms a record. -/
def ImportEvent.isTransform {Row P : Type} : ImportEvent Row P → Bool
  | .transform _ _ => true
  | _ => false

/-- Whether the event ends with an exception that reaches the outer `catch`. -/
def ImportEvent.isFailure {Row P : Type} : ImportEvent Row P → Bool
  | .count false => true
  | .read false => true
  | .batch _ none => true
  | _ => false

/-- The events started before `cancelled` was set: all events when it never was. -/
def eventsUntilCancel {Row P : Type} (events : List (ImportEvent Row P)) :
    List (ImportEvent Row P) :=
  events.takeWhile (fun e => !e.isCancel)

/-- The events started after `cancelled` was set. -/
def eventsAfterCancel {Row P : Type} (events : List (ImportEvent Row P)) :
    List (ImportEvent Row P) :=
  (events.dropWhile (fun e => !e.isCancel)).drop 1

/-- What the events add to `counts.Success`. -/
def successesOf {Row P : Type} : List (ImportEvent Row P) → Nat
  | [] => 0
  | .execute _ true :: rest => 1 + successesOf rest
  | .batch _ (some (successes, _)) :: rest => successes + successesOf rest
  | _ :: rest => successesOf rest

/-- What the events add to `counts.Failed`. -/
def failuresOf {Row P : Type} : List (ImportEvent Row P) → Nat
  | [] => 0
  | .transform _ false :: rest => 1 + failuresOf rest
  | .execute _ false :: rest => 1 + failuresOf rest
  | .batch _ (some (_, failures)) :: rest => failures + failuresOf rest
  | _ :: rest => failuresOf rest

/-- What the events add to `counts.Enqueued`. -/
def enqueuedOf {Row P : Type} : List (ImportEvent Row P) → Nat
  | [] => 0
  | .pushRange pckgs true :: rest => pckgs.length + enqueuedOf rest
  | _ :: rest => enqueuedOf rest

/-- After `cancelled` was set no event submits packages or transforms a record. -/
def ImportRun.Clean {Row P W : Type} (r : ImportRun Row P W) : Prop :=
  ∀ e ∈ eventsAfterCancel r.events, e.isSubmission = false ∧ e.isTransform = false

/-- What holds during a run of `importData` started with the counts `c0`: `cancelled`
is set exactly when the events say so, the counts are those of the events, an error is
reported only for an event that failed, and after `cancelled` was set no event submits
packages and at most one transforms a record. -/
structure ImportRun.Inv {Row P W : Type} (c0 : Counts) (r : ImportRun Row P W) : Prop where
  flag : r.cancelled = r.events.any ImportEvent.isCancel
  success : r.counts.Success = c0.Success + successesOf r.events
  failed : r.counts.Failed = c0.Failed + failuresOf r.events
  enqueued : r.counts.Enqueued = c0.Enqueued + enqueuedOf r.events
  unchanged : r.counts.New = c0.New ∧ r.counts.Checked = c0.Checked
  error : r.error = true → ∃ e ∈ r.events, e.isFailure = true
  quiet : ∀ e ∈ eventsAfterCancel r.events, e.isSubmission = false
  single : (eventsAfterCancel r.events).countP ImportEvent.isTransform ≤ 1

/-- An import of 501 records through the queue: the records come in the two pages
that `ReadAll({pageSize: 500})` makes of them, the transformation of the last record
fails, every push succeeds, and Cancel is clicked during the wait for the push of the
first page, which is wait 502 after `Count()`, the first page and 500
transformations. -/
def importCancelledDuringPush : ImportEnv Nat Nat Unit :=
  { count := .ok 501,
    pages := [.ok (List.range 500), .ok [500]],
    processRecord := fun record w => (if record < 500 then .ok record else .error "failed", w),
    useOpsQueue := true,
    useBatch := false,
    pushRange := fun _ _ => true,
    batch := fun _ _ => none,
    execute := fun _ _ => true,
    clicked := fun i => i == 502 }

/-! ## Export field list (`moveFieldTo` of `src/plugins/dataexport.js`) -/

/-- Source `Array.prototype.indexOf(item)`: the first index of the item, `-1` when
the array does not hold it. -/
def indexOf {α : Type} [DecidableEq α] (xs : List α) (item : α) : Int :=
  if item ∈ xs then (xs.indexOf item : Nat) else -1

/-- Source `Array.prototype.splice(start, deleteCount, ...items)`, as the array
afterwards: a negative `start` counts from the end, and `start` is clamped to the
array. -/
def splice {α : Type} (xs : List α) (start : Int) (deleteCount : Nat) (items : List α) :
    List α :=
  let actualStart : Nat := if start < 0 then ((xs.length : Int) + start).toNat
    else min start.toNat xs.length
  xs.take actualStart ++ items ++ xs.drop (actualStart + deleteCount)

/-- Source `moveFieldTo(field, toIndex)`, as `this.fields` afterwards. -/
def moveFieldTo {α : Type} [DecidableEq α] (fields : List α) (field : α) (toIndex : Int) :
    List α :=
  let fromIndex := indexOf fields field
  if fromIndex > -1 then
    let removed := splice fields fromIndex 1 []
    let to_ := if toIndex < fromIndex then toIndex else toIndex - 1
    splice removed to_ 0 [field]
  else fields

/-- The template's button with the arrow up on row `i`: `moveFieldTo(f, i - 1)`,
disabled when `i < 1`. -/
def moveUp {α : Type} [DecidableEq α] (fields : List α) (i : Nat) : List α :=
  match fields.get? i with
  | some f => if i < 1 then fields else moveFieldTo fields f ((i : Int) - 1)
  | none => fields

/-- The template's button with the arrow down on row `i`: `moveFieldTo(f, i + 1)`,
disabled when `i >= fields.length - 1`. -/
def moveDown {α : Type} [DecidableEq α] (fields : List α) (i : Nat) : List α :=
  match fields.get? i with
  | some f => if i + 1 ≥ fields.length then fields else moveFieldTo fields f ((i : Int) + 1)
  | none => fields

/-! ## Notions used to state the option-set properties -/

/-- The texts that `^\d+(,\d+)*$` describes: a run of one or more digits, followed
by any number of groups of a comma and a run of one or more digits. -/
def IsIntegerList (cs : List Char) : Prop :=
  ∃ first : List Char, ∃ more : List (List Char),
    first ≠ [] ∧ first.all isDigit = true ∧ (∀ g ∈ more, g ≠ [] ∧ g.all isDigit = true) ∧
      cs = first ++ (more.map (fun g => ',' :: g)).flatten

/-- The number a run of decimal digits writes. -/
def decimalValue (cs : List Char) : Nat :=
  cs.foldl (fun acc c => acc * 10 + (c.toNat - '0'.toNat)) 0


/-- The texts that `^-?[0-9]+$` describes, with the integer each writes: a run of one
or more digits, or a minus sign and such a run. -/
def IsDecimalInteger (cs : List Char) (n : Int) : Prop :=
  ∃ digits : List Char, digits ≠ [] ∧ digits.all isDigit = true ∧
    ((cs = digits ∧ n = decimalValue digits) ∨ (cs = '-' :: digits ∧ n = -(decimalValue digits : Int)))

/-- Update on `account` addressed by the alternate key, with the mapping to its
attribute. -/
def ctxUpdateByNumber : Ctx :=
  { entity := "account", meta := metaAccount, key := some keyAccountNumber,
    operation := .UpdateRequest, fields := [fieldAccountNumber] }

/-- A mapping to the key attribute `accountnumber` whose type `Double` has no entry in
`Parsers`. -/
def fieldNumberDouble : Field :=
  { from_ := some "number", to_ := some "accountnumber", type := some "Double" }

/-- A mapping of a column that matches no attribute, as `processFields` leaves it. -/
def fieldUnmatched : Field := { from_ := some "remark" }

/-- The packages of the records that `processRecord` transforms successfully, in the
order of the records, each record transformed in the state the one before left. -/
def transformedPackages {Row P W : Type} (env : ImportEnv Row P W) : List Row → W → List P
  | [], _ => []
  | record :: rest, w =>
    match env.processRecord record w with
    | (.ok pckg, w1) => pckg :: transformedPackages env rest w1
    | (.error _, w1) => transformedPackages env rest w1

/-- The state of `processRecord` after the records. -/
def worldAfterRows {Row P W : Type} (env : ImportEnv Row P W) : List Row → W → W
  | [], w => w
  | record :: rest, w => worldAfterRows env rest (env.processRecord record w).2

/-- The packages given to `Service.execute`, in the order of the calls. -/
def executedOf {Row P : Type} : List (ImportEvent Row P) → List P
  | [] => []
  | .execute pckg _ :: rest => pckg :: executedOf rest
  | _ :: rest => executedOf rest

/-- The records given to `processRecord`, in the order of the calls. -/
def transformedOf {Row P : Type} : List (ImportEvent Row P) → List Row
  | [] => []
  | .transform record _ :: rest => record :: transformedOf rest
  | _ :: rest => transformedOf rest

/-- An import of the three example rows, one by one: the row with the ETag the pattern
rejects fails in the transformation, and the execution of the third package fails. -/
def importThreeRowsDirect : ImportEnv RawRow OperationPackage World :=
  { count := .ok 3,
    pages := pagesThreeRows.map Except.ok,
    processRecord := processRecord envNoMatch ctxUpdateNameEtag,
    useOpsQueue := false,
    useBatch := false,
    pushRange := fun _ _ => true,
    batch := fun _ _ => none,
    execute := fun i _ => decide (i < 6),
    clicked := fun _ => false }

/-- An import whose reader fails at the first page; a second page would follow. -/
def importFirstPageFails : ImportEnv Nat Nat Unit :=
  { count := .ok 2,
    pages := [.error "read failed", .ok [7]],
    processRecord := fun record w => (.ok record, w),
    useOpsQueue := false,
    useBatch := false,
    pushRange := fun _ _ => true,
    batch := fun _ _ => none,
    execute := fun _ _ => true,
    clicked := fun _ => false }

/-- Whether the event is a read of the source that failed. -/
def ImportEvent.isFailedRead {Row P : Type} : ImportEvent Row P → Bool
  | .read false => true
  | _ => false


/-- The protocol on a file of one result with the default micro-batch size, after the
worker has completed and the controller has handled both messages, the `step` callback
having returned a promise that is not settled yet. -/
def streamResolvedEarly : Stream Nat :=
  { worker := { pageSize := 500, input := [], page := [1], steps := 1, closed := true },
    controller := { pending := 1, resolved := some 1 },
    posted := [.results [1], .done 1] }

/-! ## Batch executor (`batch` of `plugins/fieldupdater.js`) -/

/-- Modelled from the spec: the grouping of the operation packages into sub-batches of
the configured size, in their order; `batch` of `plugins/fieldupdater.js` is not among
the sources. -/
def subBatches {P : Type} (batchsize : Nat) (requests : List P) : List (List P) :=
  requests.toChunks batchsize

/-- Modelled from the spec: the state of `batch({requests, parallel, batchsize})`, which
is not among the sources: the concurrency bound the call was given, the sub-batches not
dispatched yet, the sub-batches dispatched to the remote service whose completion is
awaited, in the order of their dispatch, the results collected so far, one for each
package, and whether the cancellation handle was used. Nothing in the state limits how
many sub-batches can be in flight. -/
structure BatchExecutor (P : Type) where
  parallel : Nat
  waiting : List (List P)
  inFlight : List (List P)
  results : List Bool
  cancelled : Bool

/-- Modelled from the spec: `batch({requests, parallel, batchsize})` at its start: the
packages grouped into sub-batches, none dispatched. -/
def batch {P : Type} (requests : List P) (parallel batchsize : Nat) : BatchExecutor P :=
  { parallel := parallel,
    waiting := subBatches batchsize requests,
    inFlight := [],
    results := [],
    cancelled := false }

/-- Modelled from the spec: one event of the executor. The next sub-batch is dispatched
while fewer than `parallel` sub-batches are in flight and the executor is not cancelled;
a sub-batch in flight, whichever, completes with one result for each of its packages,
which are collected; the cancellation handle is used, which recalls nothing. -/
inductive BatchExecutor.Step {P : Type} : BatchExecutor P → BatchExecutor P → Prop where
  | dispatch (s : BatchExecutor P) (subBatch : List P) (rest : List (List P)) :
      s.cancelled = false → s.waiting = subBatch :: rest → s.inFlight.length < s.parallel →
      BatchExecutor.Step s { s with waiting := rest, inFlight := s.inFlight ++ [subBatch] }
  | complete (s : BatchExecutor P) (i : Nat) (subBatch : List P) (outcome : List Bool) :
      s.inFlight.get? i = some subBatch → outcome.length = subBatch.length →
      BatchExecutor.Step s
        { s with inFlight := s.inFlight.eraseIdx i, results := s.results ++ outcome }
  | cancel (s : BatchExecutor P) : BatchExecutor.Step s { s with cancelled := true }

/-- The states a run of `batch({requests, parallel, batchsize})` can reach. -/
inductive BatchExecutor.Reachable {P : Type} (requests : List P) (parallel batchsize : Nat) :
    BatchExecutor P → Prop where
  | start : BatchExecutor.Reachable requests parallel batchsize
      (batch requests parallel batchsize)
  | next (s s1 : BatchExecutor P) :
      BatchExecutor.Reachable requests parallel batchsize s → BatchExecutor.Step s s1 →
      BatchExecutor.Reachable requests parallel batchsize s1

/-! # Properties -/

/-! ## Staging store -/

/-- A record whose key is above every key of the store is stored last. -/
theorem putRecord_append {α : Type} (k : Nat) (v : α) (l : List (Nat × α))
    (h : ∀ r ∈ l, r.1 < k) : putRecord k v l = l ++ [(k, v)] := by
  induction l with
  | nil => rfl
  | cons r rest ih =>
    obtain ⟨k', v'⟩ := r
    have hk : k' < k := h (k', v') (List.mem_cons_self _ _)
    have h1 : ¬ k < k' := by omega
    have h2 : ¬ k = k' := by omega
    simp only [putRecord, h1, h2, if_false, List.cons_append]
    rw [ih (fun r hr => h r (List.mem_cons_of_mem _ hr))]

/-- The records of a load split where the rows split. -/
theorem keyed_append {α : Type} (g : Nat) (a b : List α) :
    keyed g (a ++ b) = keyed g a ++ keyed (g + a.length) b := by
  induction a generalizing g with
  | nil => simp [keyed]
  | cons x xs ih => simp [keyed, ih, Nat.add_assoc, Nat.add_comm 1]

/-- The keys of a load are the consecutive numbers from its first key. -/
theorem keyed_key_lt {α : Type} (g : Nat) (l : List α) :
    ∀ r ∈ keyed g l, g ≤ r.1 ∧ r.1 < g + l.length := by
  induction l generalizing g with
  | nil => simp [keyed]
  | cons x xs ih =>
    intro r hr
    simp only [keyed, List.mem_cons] at hr
    rcases hr with rfl | hr
    · simp
    · have := ih (g + 1) r hr
      simp only [List.length_cons]
      omega

/-- On a store whose keys are below the key generator, `AddRows` stores the rows last, under
consecutive keys from the key generator on. -/
theorem AddRows_rows {α : Type} (rs : List α) (db : ImportDB α)
    (h : ∀ r ∈ db.rows, r.1 < db.keyGen) :
    (db.AddRows rs).rows = db.rows ++ keyed db.keyGen rs := by
  induction rs generalizing db with
  | nil => simp [ImportDB.AddRows, keyed]
  | cons x xs ih =>
    have hput : (db.put x).rows = db.rows ++ [(db.keyGen, x)] := putRecord_append _ _ _ h
    have hinv : ∀ r ∈ (db.put x).rows, r.1 < (db.put x).keyGen := by
      intro r hr
      rw [hput] at hr
      simp only [ImportDB.put]
      rcases List.mem_append.mp hr with hr | hr
      · have := h r hr
        omega
      · simp only [List.mem_singleton] at hr
        subst hr
        simp
    have := ih (db.put x) hinv
    simp only [ImportDB.AddRows, List.foldl_cons] at this ⊢
    rw [this, hput]
    simp [keyed, ImportDB.put]

/-- A key range that starts at or before a load holds the rows of the load up to the end of
the range. -/
theorem filter_keyed {α : Type} (lo hi g : Nat) (l : List α) (hg : lo ≤ g) :
    ((keyed g l).filter (fun r => decide (lo ≤ r.1) && decide (r.1 < hi))).map Prod.snd
      = l.take (hi - g) := by
  induction l generalizing g with
  | nil => simp [keyed]
  | cons x xs ih =>
    by_cases hlt : g < hi
    · have h1 : hi - g = (hi - (g + 1)) + 1 := by omega
      simp only [keyed, List.filter_cons, hg, hlt, decide_True, Bool.and_self, if_true,
        List.map_cons, h1, List.take_succ_cons]
      rw [ih (g + 1) (by omega)]
    · have h1 : hi - g = 0 := by omega
      have h2 : List.filter (fun r => decide (lo ≤ r.1) && decide (r.1 < hi)) (keyed g (x :: xs)) = [] := by
        rw [List.filter_eq_nil_iff]
        intro r hr
        have := keyed_key_lt g (x :: xs) r hr
        simp
        omega
      rw [h2, h1]
      simp

/-- A load has one record per row. -/
theorem keyed_length {α : Type} (g : Nat) (l : List α) : (keyed g l).length = l.length := by
  induction l generalizing g with
  | nil => rfl
  | cons x xs ih => simp [keyed, ih]

/-- The loop of `ReadAll`, started at the first key of the rows not yet read with that many
rows counted as read before, yields non-empty pages that concatenate to those rows,
given fuel for one iteration per row. -/
theorem ReadAllLoop_keyed {α : Type} (db : ImportDB α) (k : Nat) (hk : 1 ≤ k) :
    ∀ (n : Nat) (pre : List (Nat × α)) (rest : List α) (f : Nat),
      db.rows = pre ++ keyed f rest → (∀ r ∈ pre, r.1 < f) → rest.length ≤ n →
      ∃ pages, (∀ fuel, rest.length ≤ fuel →
          ImportDB.ReadAllLoop db (pre.length + rest.length) k fuel (some f) (f + k)
            pre.length = some (.ok pages)) ∧
        pages.flatten = rest ∧ ∀ p ∈ pages, p ≠ [] := by
  intro n
  induction n with
  | zero =>
    intro pre rest f _ _ hn
    have hrest : rest = [] := List.length_eq_zero.mp (by omega)
    subst hrest
    refine ⟨[], ?_, rfl, by simp⟩
    intro fuel _
    unfold ImportDB.ReadAllLoop
    simp
  | succ n ih =>
    intro pre rest f hrows hpre hn
    by_cases hrest : rest = []
    · subst hrest
      refine ⟨[], ?_, rfl, by simp⟩
      intro fuel _
      unfold ImportDB.ReadAllLoop
      simp
    · have hlen : 0 < rest.length := List.length_pos.mpr hrest
      have hpage : db.iterateCursor f (f + k) = rest.take k := by
        unfold ImportDB.iterateCursor
        rw [hrows, List.filter_append]
        have h0 : List.filter (fun r => decide (f ≤ r.1) && decide (r.1 < f + k)) pre = [] := by
          rw [List.filter_eq_nil_iff]
          intro r hr
          have := hpre r hr
          simp
          omega
        rw [h0, List.nil_append, filter_keyed f (f + k) f rest (Nat.le_refl _)]
        congr 1
        omega
      have hsplit : keyed f rest = keyed f (rest.take k) ++ keyed (f + k) (rest.drop k) := by
        conv_lhs => rw [← List.take_append_drop k rest]
        rw [keyed_append]
        by_cases hle : k ≤ rest.length
        · rw [List.length_take, Nat.min_eq_left hle]
        · have : rest.drop k = [] := List.drop_eq_nil_of_le (by omega)
          rw [this]
          simp [keyed]
      obtain ⟨pages, hloop, hjoin, hne⟩ := ih (pre ++ keyed f (rest.take k)) (rest.drop k) (f + k)
        (by rw [hrows, hsplit, List.append_assoc])
        (by
          intro r hr
          rcases List.mem_append.mp hr with hr | hr
          · have := hpre r hr
            omega
          · have := keyed_key_lt f (rest.take k) r hr
            rw [List.length_take] at this
            have : min k rest.length ≤ k := Nat.min_le_left _ _
            omega)
        (by rw [List.length_drop]; omega)
      have hcount : (pre ++ keyed f (rest.take k)).length + (rest.drop k).length
          = pre.length + rest.length := by
        rw [List.length_append, keyed_length, List.length_take, List.length_drop]
        omega
      have hread : (pre ++ keyed f (rest.take k)).length = pre.length + (rest.take k).length := by
        rw [List.length_append, keyed_length]
      rw [hcount, hread] at hloop
      have htake : (rest.take k).length ≠ 0 := by
        rw [List.length_take]
        omega
      refine ⟨rest.take k :: pages, ?_, ?_, ?_⟩
      · intro fuel hfuel
        obtain ⟨m, rfl⟩ : ∃ m, fuel = m + 1 := ⟨fuel - 1, by omega⟩
        have hm := hloop m (by rw [List.length_drop]; omega)
        unfold ImportDB.ReadAllLoop
        have hlt : pre.length < pre.length + rest.length := by omega
        simp only [hlt, if_true, hpage, hm]
        simp only [htake, ne_eq, not_false_eq_true, if_true]
      · simp [hjoin]
      · intro p hp
        rcases List.mem_cons.mp hp with rfl | hp
        · intro h
          rw [h] at htake
          exact htake rfl
        · exact hne p hp

/-- C1. Staging store round trip: on any `ImportDB` (whatever its records and
the number of its key generator), `Clear()`, then `AddRows(rows)`, then
`ReadAll({pageSize: k})` with `k ≥ 1` ends (with fuel for one iteration per row)
and yields non-empty pages whose concatenation is `rows`, whatever `k` is. -/
theorem staging_round_trip {α : Type} (db : ImportDB α) (rows : List α) (k : Nat) (hk : 1 ≤ k) :
    ∃ pages : List (List α),
      (∀ fuel, rows.length ≤ fuel →
        ((db.Clear).AddRows rows).ReadAll k fuel = some (.ok pages)) ∧
      pages.flatten = rows ∧ ∀ p ∈ pages, p ≠ [] := by
  have hrows : ((db.Clear).AddRows rows).rows = keyed db.keyGen rows := by
    have := AddRows_rows rows db.Clear (by simp [ImportDB.Clear])
    simpa [ImportDB.Clear] using this
  cases rows with
  | nil =>
    refine ⟨[], ?_, rfl, by simp⟩
    intro fuel _
    unfold ImportDB.ReadAll ImportDB.ReadAllLoop
    simp [ImportDB.getCount, hrows, keyed]
  | cons x xs =>
    obtain ⟨pages, hloop, hjoin, hne⟩ := ReadAllLoop_keyed _ k hk (x :: xs).length []
      (x :: xs) db.keyGen (by simpa using hrows) (by simp) (Nat.le_refl _)
    refine ⟨pages, ?_, hjoin, hne⟩
    intro fuel hfuel
    have := hloop fuel hfuel
    unfold ImportDB.ReadAll
    simpa [ImportDB.getCount, ImportDB.getMinKey, hrows, keyed, keyed_length] using this

/-- Witness of C1: three rows after an earlier load, pages of two. -/
theorem staging_round_trip_witness :
    ∃ pages : List (List String),
      (∀ fuel, ["a", "b", "c"].length ≤ fuel →
        (((ImportDB.mk [(3, "x")] 7).Clear).AddRows ["a", "b", "c"]).ReadAll 2 fuel
          = some (.ok pages)) ∧
      pages.flatten = ["a", "b", "c"] ∧ ∀ p ∈ pages, p ≠ [] :=
  staging_round_trip (ImportDB.mk [(3, "x")] 7) ["a", "b", "c"] 2 (by decide)

/-! ## Lookup resolver, validation pass, record transformer -/

/-- After `ACACHE.set(value, entry)` the cache holds that entry under the key. -/
theorem cacheGet_cacheSet (key : String × String × Cell) (entry : CacheEntry)
    (cache : List ((String × String × Cell) × CacheEntry)) :
    cacheGet key (cacheSet key entry cache) = some entry := by
  induction cache with
  | nil => simp [cacheSet, cacheGet]
  | cons x xs ih =>
    obtain ⟨k, e⟩ := x
    by_cases hk : k = key
    · simp [cacheSet, cacheGet, hk]
    · simp [cacheSet, cacheGet, hk, ih]

/-- Names that no object inherits are read from the cache itself. -/
theorem readsBuiltin_of_not_inherited (entity attr : String)
    (hentity : entity ∉ inheritedNames) (hattr : attr ∉ inheritedNames) :
    readsBuiltin entity attr = false := by
  have h1 : inheritedNames.contains entity = false := by simpa using hentity
  have h2 : inheritedNames.contains attr = false := by simpa using hattr
  unfold readsBuiltin
  rw [h1, h2]
  rfl

/-- When the reads end at a built-in, `resolve` throws and leaves the state as it is. -/
theorem resolve_builtin (env : Env) (entity attr : Option String) (value : Cell) (w : World)
    (hb : readsBuiltin (keyOf entity) (keyOf attr) = true) :
    resolve env entity attr value w = (.error "TypeError", w) := by
  unfold resolve
  simp only [hb, if_true]

/-- On a cache hit `resolve` replays the entry and leaves the state as it is. -/
theorem resolve_hit (env : Env) (entity attr : Option String) (value : Cell) (w : World)
    (entry : CacheEntry) (hb : readsBuiltin (keyOf entity) (keyOf attr) = false)
    (h : cacheGet (keyOf entity, keyOf attr, value) w.RESOLVECACHE = some entry) :
    resolve env entity attr value w
      = (if entry.valid then .ok entry.value else .error (entry.message.getD ""), w) := by
  unfold resolve
  simp only [hb, h, Bool.false_eq_true, if_false]
  split <;> rfl

/-- On a cache miss that ends before the query, `resolve` throws the failure, logs the
metadata request and caches nothing. -/
theorem resolve_failure_before_query (env : Env) (entity attr : Option String) (value : Cell)
    (w : World) (e : String) (hb : readsBuiltin (keyOf entity) (keyOf attr) = false)
    (hmiss : cacheGet (keyOf entity, keyOf attr, value) w.RESOLVECACHE = none)
    (hfail : failureBeforeQuery (env.getEntity w.metadata entity) attr = some e) :
    resolve env entity attr value w
      = (.error e, { w with metadata := w.metadata ++ [entity] }) := by
  unfold resolve
  simp only [hb, hmiss, Bool.false_eq_true, if_false]
  unfold failureBeforeQuery at hfail
  cases hmeta : env.getEntity w.metadata entity with
  | error e1 =>
    rw [hmeta] at hfail
    simp only [Option.some.injEq] at hfail
    rw [hfail]
  | ok meta =>
    rw [hmeta] at hfail
    simp only at hfail ⊢
    cases hattr : meta.attributes.lookup (keyOf attr) with
    | none =>
      rw [hattr] at hfail
      simp only [Option.some.injEq] at hfail
      rw [← hfail]
    | some attrMeta =>
      rw [hattr] at hfail
      simp only at hfail ⊢
      by_cases htype : attrMeta.type = "String" ∨ attrMeta.type = "Memo"
      · rw [if_pos htype] at hfail
        cases hfail
      · rw [if_neg htype] at hfail
        simp only [Option.some.injEq] at hfail
        rw [if_neg htype, ← hfail]

/-- On a cache miss that reaches the query, when the remote answers, `resolve` issues
one query and leaves a cache entry that carries its outcome. -/
theorem resolve_query (env : Env) (entity attr : Option String) (value : Cell) (w : World)
    (hb : readsBuiltin (keyOf entity) (keyOf attr) = false)
    (hmiss : cacheGet (keyOf entity, keyOf attr, value) w.RESOLVECACHE = none)
    (hfail : failureBeforeQuery (env.getEntity w.metadata entity) attr = none)
    (h : ∀ params msg, env.retrieveMultiple w.queries entity params ≠ .error msg) :
    ∃ entry, cacheGet (keyOf entity, keyOf attr, value)
        (resolve env entity attr value w).2.RESOLVECACHE = some entry ∧
      (resolve env entity attr value w).1
        = (if entry.valid then .ok entry.value else .error (entry.message.getD "")) ∧
      (resolve env entity attr value w).2.queries.length = w.queries.length + 1 := by
  unfold resolve
  simp only [hb, hmiss, Bool.false_eq_true, if_false]
  unfold failureBeforeQuery at hfail
  cases hmeta : env.getEntity w.metadata entity with
  | error e1 =>
    rw [hmeta] at hfail
    cases hfail
  | ok meta =>
    rw [hmeta] at hfail
    simp only at hfail ⊢
    cases hattr : meta.attributes.lookup (keyOf attr) with
    | none =>
      rw [hattr] at hfail
      cases hfail
    | some attrMeta =>
      rw [hattr] at hfail
      simp only at hfail ⊢
      by_cases htype : attrMeta.type = "String" ∨ attrMeta.type = "Memo"
      · simp only [htype, if_true]
        split
        · exact absurd ‹_› (h _ _)
        · split
          · exact ⟨_, cacheGet_cacheSet _ _ _, by simp, by simp⟩
          · exact ⟨_, cacheGet_cacheSet _ _ _, by simp, by simp⟩
          · exact ⟨_, cacheGet_cacheSet _ _ _, by simp, by simp⟩
      · rw [if_neg htype] at hfail
        cases hfail

/-- C2, amended. For an entity name that no object inherits: when the remote query of the
first call, if one is issued, returns a row set, and the metadata request of a second
call, if one is issued (the first call has cached nothing), is answered as that of the
first, a second `resolve` of the same (entity, attribute, value) has the outcome of the
first, issues no query and leaves the cache as it is, and the two calls together issue
at most one remote query. -/
theorem resolve_twice (env : Env) (entity attr : Option String) (value : Cell) (w : World)
    (_hentity : keyOf entity ∉ inheritedNames)
    (h : ∀ params msg, env.retrieveMultiple w.queries entity params ≠ .error msg)
    (hmeta : cacheGet (keyOf entity, keyOf attr, value)
        (resolve env entity attr value w).2.RESOLVECACHE = none →
      env.getEntity (w.metadata ++ [entity]) entity = env.getEntity w.metadata entity) :
    (resolve env entity attr value (resolve env entity attr value w).2).1
        = (resolve env entity attr value w).1 ∧
      (resolve env entity attr value (resolve env entity attr value w).2).2.RESOLVECACHE
        = (resolve env entity attr value w).2.RESOLVECACHE ∧
      (resolve env entity attr value (resolve env entity attr value w).2).2.queries
        = (resolve env entity attr value w).2.queries ∧
      (resolve env entity attr value (resolve env entity attr value w).2).2.queries.length
        ≤ w.queries.length + 1 := by
  cases hb : readsBuiltin (keyOf entity) (keyOf attr) with
  | true =>
    have h1 := resolve_builtin env entity attr value w hb
    rw [h1]
    dsimp only
    rw [h1]
    exact ⟨rfl, rfl, rfl, Nat.le_succ _⟩
  | false =>
    cases hc : cacheGet (keyOf entity, keyOf attr, value) w.RESOLVECACHE with
    | some entry =>
      have h1 := resolve_hit env entity attr value w entry hb hc
      rw [h1]
      dsimp only
      rw [h1]
      exact ⟨rfl, rfl, rfl, Nat.le_succ _⟩
    | none =>
      cases hf : failureBeforeQuery (env.getEntity w.metadata entity) attr with
      | some e =>
        have h1 := resolve_failure_before_query env entity attr value w e hb hc hf
        rw [h1] at hmeta ⊢
        dsimp only at hmeta ⊢
        have h2 := resolve_failure_before_query env entity attr value
          { w with metadata := w.metadata ++ [entity] } e hb hc
          (by
            dsimp only
            rw [hmeta hc]
            exact hf)
        rw [h2]
        exact ⟨rfl, rfl, rfl, Nat.le_succ _⟩
      | none =>
        obtain ⟨entry, hget, hres, hlen⟩ := resolve_query env entity attr value w hb hc hf h
        rw [resolve_hit env entity attr value _ entry hb hget]
        refine ⟨hres.symm, rfl, rfl, ?_⟩
        dsimp only
        rw [hlen]

/-- C3, amended. For entity and attribute names that no object inherits: on a cache miss
for a String or Memo attribute whose remote query returns `values`, one row returns its
primary identifier and caches it as valid, no row caches and raises
`Not Found: <entity>.<attr> = <value>`, two or more rows cache and raise `Duplicates
Found: ...`; exactly one query is issued and the cache holds an entry for the key
afterwards. -/
theorem resolve_miss_string (env : Env) (entity attr : Option String) (value : Cell) (w : World)
    (meta : EntityMeta) (attrMeta : AttributeMeta) (values : List Record)
    (hentity : keyOf entity ∉ inheritedNames) (hname : keyOf attr ∉ inheritedNames)
    (hmiss : cacheGet (keyOf entity, keyOf attr, value) w.RESOLVECACHE = none)
    (hmeta : env.getEntity w.metadata entity = .ok meta)
    (hattr : meta.attributes.lookup (keyOf attr) = some attrMeta)
    (htype : attrMeta.type = "String" ∨ attrMeta.type = "Memo")
    (hresp : env.retrieveMultiple w.queries entity
      (resolveParams meta.primaryIdAttribute attr value) = .ok values) :
    (∀ record, values = [record] →
      (resolve env entity attr value w).1 = .ok (getProp meta.primaryIdAttribute record) ∧
      cacheGet (keyOf entity, keyOf attr, value) (resolve env entity attr value w).2.RESOLVECACHE
        = some (CacheEntry.mk (getProp meta.primaryIdAttribute record) true none)) ∧
    (values = [] →
      (resolve env entity attr value w).1
        = .error ("Not Found: " ++ keyOf entity ++ "." ++ keyOf attr ++ " = " ++ value.toStr) ∧
      cacheGet (keyOf entity, keyOf attr, value) (resolve env entity attr value w).2.RESOLVECACHE
        = some (CacheEntry.mk .null false
            (some ("Not Found: " ++ keyOf entity ++ "." ++ keyOf attr ++ " = " ++ value.toStr)))) ∧
    (2 ≤ values.length →
      (resolve env entity attr value w).1
        = .error ("Duplicates Found: " ++ keyOf entity ++ "." ++ keyOf attr ++ " = "
            ++ value.toStr) ∧
      cacheGet (keyOf entity, keyOf attr, value) (resolve env entity attr value w).2.RESOLVECACHE
        = some (CacheEntry.mk .null false
            (some ("Duplicates Found: " ++ keyOf entity ++ "." ++ keyOf attr ++ " = "
              ++ value.toStr)))) ∧
    (resolve env entity attr value w).2.queries
      = w.queries ++ [(entity, resolveParams meta.primaryIdAttribute attr value)] := by
  have hb := readsBuiltin_of_not_inherited _ _ hentity hname
  unfold resolve
  simp only [hb, Bool.false_eq_true, if_false, hmiss, hmeta, hattr, htype, if_true, hresp]
  refine ⟨?_, ?_, ?_, ?_⟩
  · intro record hv
    subst hv
    exact ⟨rfl, cacheGet_cacheSet _ _ _⟩
  · intro hv
    subst hv
    exact ⟨rfl, cacheGet_cacheSet _ _ _⟩
  · intro hv
    match values, hv with
    | _ :: _ :: _, _ => exact ⟨rfl, cacheGet_cacheSet _ _ _⟩
  · match values with
    | [] => rfl
    | [_] => rfl
    | _ :: _ :: _ => rfl

/-- Witness of C3, amended: scenario 3, `account.name = Acme` with zero matches. -/
theorem resolve_miss_string_witness :
    (resolve envNoMatch (some "account") (some "name") (.str "Acme") {}).1
        = .error "Not Found: account.name = Acme" ∧
      cacheGet ("account", "name", .str "Acme")
        (resolve envNoMatch (some "account") (some "name") (.str "Acme") {}).2.RESOLVECACHE
        = some (CacheEntry.mk .null false (some "Not Found: account.name = Acme")) :=
  (resolve_miss_string envNoMatch (some "account") (some "name") (.str "Acme") {} metaAccount
    { type := "String" } [] (by decide) (by decide) rfl rfl rfl (Or.inl rfl) rfl).2.1 rfl

/-- C3 as stated fails: for the entity name `constructor` and the attribute `name`,
with nothing cached, a String attribute and a remote that would return zero rows,
`RESOLVECACHE[entity]` is the inherited function `Object` and `ECACHE[attr]` its name,
a string without a method `has`: `resolve` throws a `TypeError`, issues no query and
caches nothing. -/
theorem resolve_inherited_name_type_error :
    cacheGet ("constructor", "name", .str "Acme") ({} : World).RESOLVECACHE = none ∧
      envNoMatch.getEntity [] (some "constructor") = .ok metaAccount ∧
      metaAccount.attributes.lookup "name" = some { type := "String" } ∧
      envNoMatch.retrieveMultiple [] (some "constructor")
        (resolveParams "accountid" (some "name") (.str "Acme")) = .ok [] ∧
      resolve envNoMatch (some "constructor") (some "name") (.str "Acme") {}
        = (.error "TypeError", {}) :=
  ⟨rfl, rfl, rfl, rfl, rfl⟩

/-- Witness of C2, amended: `account.name = Acme` without a match, resolved twice. -/
theorem resolve_twice_witness :
    (resolve envNoMatch (some "account") (some "name") (.str "Acme")
        (resolve envNoMatch (some "account") (some "name") (.str "Acme") {}).2).1
      = .error "Not Found: account.name = Acme" ∧
    (resolve envNoMatch (some "account") (some "name") (.str "Acme")
        (resolve envNoMatch (some "account") (some "name") (.str "Acme") {}).2).2.queries.length
      ≤ 1 :=
  have h := resolve_twice envNoMatch (some "account") (some "name") (.str "Acme") {}
    (by decide) (by intro params msg hc; cases hc) (fun _ => rfl)
  ⟨h.1.trans rfl, h.2.2.2⟩

/-- C2 as stated fails: when the remote query fails, nothing is cached and the second call
queries again, so two calls issue two queries. -/
theorem resolve_requeries_after_remote_failure :
    ¬ ((resolve envDown (some "account") (some "name") (.str "Acme")
          (resolve envDown (some "account") (some "name") (.str "Acme") {}).2).1
        = (resolve envDown (some "account") (some "name") (.str "Acme") {}).1 ∧
      (resolve envDown (some "account") (some "name") (.str "Acme")
          (resolve envDown (some "account") (some "name") (.str "Acme") {}).2).2.queries.length
        ≤ ({} : World).queries.length + 1) := by
  intro h
  exact absurd h.2 (by decide)

/-- A metadata request that is rejected is not cached either: the first call fails with
the rejection, the second, whose request is answered, queries and fails with
`Not Found`, so the two outcomes differ although one query is issued in all. -/
theorem resolve_repeats_after_metadata_failure :
    (resolve envMetadataDownOnce (some "account") (some "name") (.str "Acme") {}).1
        = .error "503 Service Unavailable" ∧
      (resolve envMetadataDownOnce (some "account") (some "name") (.str "Acme")
          (resolve envMetadataDownOnce (some "account") (some "name") (.str "Acme") {}).2).1
        = .error "Not Found: account.name = Acme" ∧
      (resolve envMetadataDownOnce (some "account") (some "name") (.str "Acme")
          (resolve envMetadataDownOnce (some "account") (some "name") (.str "Acme") {}).2).2.queries.length
        = 1 :=
  ⟨rfl, rfl, rfl⟩

/-- The record loop of `prepareData` adds to `Checked` the packages and to `Failed` the
failures of `processRecord`. -/
theorem prepareRecords_counts (env : Env) (ctx : Ctx) (rows : List RawRow) (counts : Counts)
    (w : World) :
    (rows.foldl (prepareRecord env ctx) (counts, w)).1.Checked
        = counts.Checked + (outcomes env ctx rows w).count true ∧
      (rows.foldl (prepareRecord env ctx) (counts, w)).1.Failed
        = counts.Failed + (outcomes env ctx rows w).count false ∧
      (outcomes env ctx rows w).length = rows.length := by
  induction rows generalizing counts w with
  | nil => simp [outcomes]
  | cons r rs ih =>
    simp only [List.foldl_cons, outcomes, prepareRecord]
    rcases hres : processRecord env ctx r w with ⟨res, w1⟩
    cases res with
    | error e =>
      have := ih { counts with Failed := counts.Failed + 1 } w1
      simp only [List.count_cons, List.length_cons] at this ⊢
      simp only [this]
      simp
      omega
    | ok p =>
      have := ih { counts with Checked := counts.Checked + 1 } w1
      simp only [List.count_cons, List.length_cons] at this ⊢
      simp only [this]
      simp
      omega

/-- The page loop of `prepareData` is the record loop over all rows in order. -/
theorem prepareData_flatten (env : Env) (ctx : Ctx) (pages : List (List RawRow))
    (st : Counts × World) :
    pages.foldl (fun st page => page.foldl (prepareRecord env ctx) st) st
      = pages.flatten.foldl (prepareRecord env ctx) st := by
  induction pages generalizing st with
  | nil => rfl
  | cons p ps ih => simp [List.foldl_append, ih]

/-- Every outcome is a package or a failure. -/
theorem count_true_add_count_false (l : List Bool) :
    l.count true + l.count false = l.length := by
  induction l with
  | nil => rfl
  | cons b bs ih =>
    cases b <;> simp [List.count_cons] <;> omega

/-- C4. Started with `Checked = 0` and `Failed = 0`, `prepareData` over pages that hold N
rows ends with `Checked` the number of rows for which `processRecord` yields a package,
`Failed` the number for which it fails, and `Checked + Failed = N`. -/
theorem prepareData_counts (env : Env) (ctx : Ctx) (pages : List (List RawRow)) (counts : Counts)
    (w : World) (hChecked : counts.Checked = 0) (hFailed : counts.Failed = 0) :
    (prepareData env ctx pages counts w).1.Checked
        = (outcomes env ctx pages.flatten w).count true ∧
      (prepareData env ctx pages counts w).1.Failed
        = (outcomes env ctx pages.flatten w).count false ∧
      (prepareData env ctx pages counts w).1.Checked
        + (prepareData env ctx pages counts w).1.Failed = pages.flatten.length := by
  unfold prepareData
  rw [prepareData_flatten]
  obtain ⟨h1, h2, h3⟩ := prepareRecords_counts env ctx pages.flatten counts w
  rw [h1, h2, hChecked, hFailed, ← h3, ← count_true_add_count_false]
  simp

/-- Witness of C4: three rows in two pages, the second of which fails. -/
theorem prepareData_counts_witness :
    (prepareData envNoMatch ctxUpdateNameEtag pagesThreeRows {} {}).1.Checked = 2 ∧
      (prepareData envNoMatch ctxUpdateNameEtag pagesThreeRows {} {}).1.Failed = 1 ∧
      (prepareData envNoMatch ctxUpdateNameEtag pagesThreeRows {} {}).1.Checked
        + (prepareData envNoMatch ctxUpdateNameEtag pagesThreeRows {} {}).1.Failed = 3 :=
  prepareData_counts envNoMatch ctxUpdateNameEtag pagesThreeRows {} {} rfl rfl

/-- The package `processRecord` starts from has no fields, no etag and the entity as its
logical name. -/
theorem initialPckg_entity (env : Env) (ctx : Ctx) (w : World) :
    (initialPckg env ctx w).1.entity = [] ∧ (initialPckg env ctx w).1.etag = .null ∧
      (initialPckg env ctx w).1.logicalName = ctx.entity := by
  unfold initialPckg
  split
  · exact ⟨rfl, rfl, rfl⟩
  · split <;> exact ⟨rfl, rfl, rfl⟩

/-- With a single mapping, `processRecord` is one iteration on the initial package. -/
theorem processRecord_single (env : Env) (ctx : Ctx) (raw : RawRow) (w : World) (field : Field)
    (hop : ctx.operation ≠ .AssociateRequest) (hfields : ctx.fields = [field]) :
    processRecord env ctx raw w =
      match processRecordStep env ctx raw field (initialPckg env ctx w).1
          (initialPckg env ctx w).2 with
      | (.ok p, w1) => (.ok (.record p), w1)
      | (.error e, w1) => (.error e, w1) := by
  unfold processRecord
  simp only [hop, if_false, hfields, processRecordLoop]
  rcases processRecordStep env ctx raw field (initialPckg env ctx w).1
      (initialPckg env ctx w).2 with ⟨res, w1⟩
  cases res <;> rfl

/-- C5. In the loop for create, update and upsert, a Map mapping whose destination is
neither the primary identifier, nor a member of the selected key, nor of lookup kind
writes `fields[to] = parseValue(raw[from], type)` (and fails the row where `parseValue`
throws); as the only mapping it yields the initial package with exactly that one field. -/
theorem map_plain_field (env : Env) (ctx : Ctx) (raw : RawRow) (field : Field) (pckg : Pckg)
    (w : World) (hmode : field.mode = "Map")
    (hid : field.to_ ≠ some ctx.meta.primaryIdAttribute)
    (hkey : isKeyMember ctx.key field.to_ = false) (hlookup : isLookup field = false) :
    processRecordStep env ctx raw field pckg w =
        (match parseValue env (raw.get field.from_) field.type
            (ctx.meta.attributes.lookup (keyOf field.to_)) with
          | .ok v => (.ok (pckg.setField field.to_ v), w)
          | .error e => (.error e, w)) ∧
      (ctx.operation ≠ .AssociateRequest → ctx.fields = [field] →
        processRecord env ctx raw w =
          (match parseValue env (raw.get field.from_) field.type
              (ctx.meta.attributes.lookup (keyOf field.to_)) with
            | .ok v => (.ok (.record ((initialPckg env ctx w).1.setField field.to_ v)),
                (initialPckg env ctx w).2)
            | .error e => (.error e, (initialPckg env ctx w).2))) ∧
      (∀ v, ((initialPckg env ctx w).1.setField field.to_ v).entity = [(keyOf field.to_, v)]) := by
  have hstep : ∀ (p : Pckg) (w0 : World), processRecordStep env ctx raw field p w0 =
      (match parseValue env (raw.get field.from_) field.type
          (ctx.meta.attributes.lookup (keyOf field.to_)) with
        | .ok v => (.ok (p.setField field.to_ v), w0)
        | .error e => (.error e, w0)) := by
    intro p w0
    unfold processRecordStep
    simp only [hmode, hid, hkey, hlookup, show ("Map" : String) ≠ "Ignore" by decide,
      show ("Map" : String) ≠ "ETag" by decide, Bool.false_eq_true, if_false, if_true]
    cases parseValue env (raw.get field.from_) field.type
      (ctx.meta.attributes.lookup (keyOf field.to_)) <;> rfl
  refine ⟨hstep pckg w, ?_, ?_⟩
  · intro hop hfields
    rw [processRecord_single env ctx raw w field hop hfields, hstep]
    cases parseValue env (raw.get field.from_) field.type
      (ctx.meta.attributes.lookup (keyOf field.to_)) <;> rfl
  · intro v
    simp [Pckg.setField, (initialPckg_entity env ctx w).1, setProp]

/-- Witness of C5: scenario 1, `{name: 'Acme'}` under Create gives the entity, a generated
identifier, no etag and the field set `{name: 'Acme'}`. -/
theorem map_plain_field_witness :
    processRecord envNoMatch ctxCreateName [("name", some "Acme")] {} =
      (.ok (.record (Pckg.mk "account" (.str "00000000-0000-0000-0000-000000000001") .null
        [("name", .str "Acme")])), { guids := 1 }) :=
  (map_plain_field envNoMatch ctxCreateName [("name", some "Acme")] fieldName
    (initialPckg envNoMatch ctxCreateName {}).1 {} rfl (by decide) rfl rfl).2.1 (by decide) rfl

/-- With a single mapping whose iteration succeeds, `processRecord` returns that package. -/
theorem processRecord_single_ok (env : Env) (ctx : Ctx) (raw : RawRow) (w w1 : World)
    (field : Field) (p : Pckg) (hop : ctx.operation ≠ .AssociateRequest)
    (hfields : ctx.fields = [field])
    (hstep : processRecordStep env ctx raw field (initialPckg env ctx w).1
      (initialPckg env ctx w).2 = (.ok p, w1)) :
    processRecord env ctx raw w = (.ok (.record p), w1) := by
  rw [processRecord_single env ctx raw w field hop hfields, hstep]

/-- With a single mapping whose iteration fails, `processRecord` fails with that message. -/
theorem processRecord_single_error (env : Env) (ctx : Ctx) (raw : RawRow) (w w1 : World)
    (field : Field) (e : String) (hop : ctx.operation ≠ .AssociateRequest)
    (hfields : ctx.fields = [field])
    (hstep : processRecordStep env ctx raw field (initialPckg env ctx w).1
      (initialPckg env ctx w).2 = (.error e, w1)) :
    processRecord env ctx raw w = (.error e, w1) := by
  rw [processRecord_single env ctx raw w field hop hfields, hstep]

/-- The texts `ETAGREGEX` accepts are `W/"x"` with `x` non-empty and free of line
terminators. -/
theorem ETAGREGEX_iff (v : String) :
    ETAGREGEX v = true ↔
      ∃ x : String, x ≠ "" ∧ (∀ c ∈ x.data, isLineTerminator c = false) ∧
        v = "W/\"" ++ x ++ "\"" := by
  constructor
  · intro h
    unfold ETAGREGEX at h
    split at h
    · rename_i rest hdata
      simp only [Bool.and_eq_true, decide_eq_true_eq, beq_iff_eq, List.all_eq_true,
        Bool.not_eq_true'] at h
      obtain ⟨⟨hlen, hlast⟩, hall⟩ := h
      have hrest : rest.dropLast ++ ['"'] = rest := List.dropLast_append_getLast? _ hlast
      refine ⟨⟨rest.dropLast⟩, ?_, hall, ?_⟩
      · intro hx
        have hnil : rest.dropLast = [] := congrArg String.data hx
        have : rest.dropLast.length = 0 := by rw [hnil]; rfl
        rw [List.length_dropLast] at this
        omega
      · apply String.ext
        rw [hdata, String.data_append, String.data_append]
        show _ = 'W' :: '/' :: '"' :: (rest.dropLast ++ ['"'])
        rw [hrest]
    · exact absurd h (by simp)
  · rintro ⟨x, hx, hall, rfl⟩
    have hne : x.data ≠ [] := fun hd => hx (String.ext hd)
    have hdata : ("W/\"" ++ x ++ "\"").data = 'W' :: '/' :: '"' :: (x.data ++ ['"']) := by
      rw [String.data_append, String.data_append]
      rfl
    unfold ETAGREGEX
    rw [hdata]
    simp only [List.length_append, List.length_singleton, List.getLast?_append, List.getLast?_singleton,
      Bool.and_eq_true, decide_eq_true_eq, List.all_eq_true, Bool.not_eq_true']
    refine ⟨⟨?_, by simp⟩, ?_⟩
    · have : 0 < x.data.length := List.length_pos.mpr hne
      omega
    · rw [List.dropLast_concat]
      exact hall

/-- C6, amended. For an ETag mapping with raw value `v`: if `v` is `W/"x"` with `x`
non-empty and free of line terminators, the etag of the package becomes `v`; if `v` is a
non-empty string not of that form, the row fails with `Invalid ETag: v`; if `v` is
`null` or empty, the package is unchanged, so the etag stays `null`. -/
theorem etag_mapping (env : Env) (ctx : Ctx) (raw : RawRow) (field : Field) (pckg : Pckg)
    (w : World) (hmode : field.mode = "ETag") :
    (∀ x : String, x ≠ "" → (∀ c ∈ x.data, isLineTerminator c = false) →
      raw.get field.from_ = .str ("W/\"" ++ x ++ "\"") →
      processRecordStep env ctx raw field pckg w
          = (.ok { pckg with etag := .str ("W/\"" ++ x ++ "\"") }, w) ∧
        (ctx.operation ≠ .AssociateRequest → ctx.fields = [field] →
          processRecord env ctx raw w
            = (.ok (.record { (initialPckg env ctx w).1 with etag := .str ("W/\"" ++ x ++ "\"") }),
                (initialPckg env ctx w).2))) ∧
    (∀ v : String, raw.get field.from_ = .str v → v ≠ "" →
      (¬ ∃ x : String, x ≠ "" ∧ (∀ c ∈ x.data, isLineTerminator c = false) ∧
          v = "W/\"" ++ x ++ "\"") →
      processRecordStep env ctx raw field pckg w = (.error ("Invalid ETag: " ++ v), w) ∧
        (ctx.operation ≠ .AssociateRequest → ctx.fields = [field] →
          processRecord env ctx raw w
            = (.error ("Invalid ETag: " ++ v), (initialPckg env ctx w).2))) ∧
    (raw.get field.from_ = .null ∨ raw.get field.from_ = .str "" →
      processRecordStep env ctx raw field pckg w = (.ok pckg, w) ∧
        (ctx.operation ≠ .AssociateRequest → ctx.fields = [field] →
          processRecord env ctx raw w
              = (.ok (.record (initialPckg env ctx w).1), (initialPckg env ctx w).2) ∧
            (initialPckg env ctx w).1.etag = .null)) := by
  have hI : ("ETag" : String) ≠ "Ignore" := by decide
  refine ⟨?_, ?_, ?_⟩
  · intro x hx hall hraw
    have hre : ETAGREGEX ("W/\"" ++ x ++ "\"") = true := (ETAGREGEX_iff _).mpr ⟨x, hx, hall, rfl⟩
    have hne : ("W/\"" ++ x ++ "\"") ≠ "" := by
      intro h
      have := congrArg String.length h
      simp [String.length_append] at this
      exact absurd this.2 (by decide)
    have hstep : ∀ (p : Pckg) (w0 : World), processRecordStep env ctx raw field p w0
        = (.ok { p with etag := .str ("W/\"" ++ x ++ "\"") }, w0) := by
      intro p w0
      unfold processRecordStep
      simp [hmode, hI, hraw, hne, Cell.toStr, Cell.toValue, hre]
    exact ⟨hstep _ _, fun hop hfields =>
      processRecord_single_ok env ctx raw w _ field _ hop hfields (hstep _ _)⟩
  · intro v hraw hv hform
    have hre : ETAGREGEX v = false := by
      cases h : ETAGREGEX v with
      | false => rfl
      | true => exact absurd ((ETAGREGEX_iff v).mp h) hform
    have hstep : ∀ (p : Pckg) (w0 : World), processRecordStep env ctx raw field p w0
        = (.error ("Invalid ETag: " ++ v), w0) := by
      intro p w0
      unfold processRecordStep
      simp [hmode, hI, hraw, hv, Cell.toStr, hre]
    exact ⟨hstep _ _, fun hop hfields =>
      processRecord_single_error env ctx raw w _ field _ hop hfields (hstep _ _)⟩
  · intro hraw
    have hstep : ∀ (p : Pckg) (w0 : World), processRecordStep env ctx raw field p w0
        = (.ok p, w0) := by
      intro p w0
      unfold processRecordStep
      rcases hraw with h | h <;> simp [hmode, hI, h]
    refine ⟨hstep _ _, fun hop hfields =>
      ⟨processRecord_single_ok env ctx raw w _ field _ hop hfields (hstep _ _), ?_⟩⟩
    unfold initialPckg
    split
    · rfl
    · split <;> rfl

/-- Witness of C6, amended: scenario 2, `W/"12345"` is taken, `garbage` fails the row,
`null` leaves the etag `null`. -/
theorem etag_mapping_witness :
    processRecord envNoMatch ctxUpdateEtag [("etag", some "W/\"12345\"")] {}
        = (.ok (.record (Pckg.mk "account" .null (.str "W/\"12345\"") [])), {}) ∧
      processRecord envNoMatch ctxUpdateEtag [("etag", some "garbage")] {}
        = (.error "Invalid ETag: garbage", {}) ∧
      processRecord envNoMatch ctxUpdateEtag [("etag", none)] {}
        = (.ok (.record (Pckg.mk "account" .null .null [])), {}) :=
  have h := fun raw =>
    etag_mapping envNoMatch ctxUpdateEtag raw fieldEtag (initialPckg envNoMatch ctxUpdateEtag {}).1
      {} rfl
  ⟨((h [("etag", some "W/\"12345\"")]).1 "12345" (by decide) (by decide) rfl).2 (by decide) rfl,
   ((h [("etag", some "garbage")]).2.1 "garbage" rfl (by decide)
      (by
        rintro ⟨x, -, -, hx⟩
        have := congrArg (fun s => s.data.head?) hx
        simp [String.data_append] at this)).2 (by decide) rfl,
   ((h [("etag", none)]).2.2 (Or.inl rfl)).2 (by decide) rfl |>.1⟩

/-- C6 as stated fails: a value `W/"x"` whose non-empty `x` holds a line feed is rejected,
because `.` matches no line terminator. -/
theorem etag_with_line_break_fails :
    (∃ x : String, x ≠ "" ∧ "W/\"a\nb\"" = "W/\"" ++ x ++ "\"") ∧
      processRecord envNoMatch ctxUpdateEtag [("etag", some "W/\"a\nb\"")] {}
        = (.error "Invalid ETag: W/\"a\nb\"", {}) :=
  ⟨⟨"a\nb", by decide, by decide⟩, rfl⟩

/-- An iteration that is not a Map to the primary identifier or to a key attribute keeps
`id` and `logicalName`. -/
theorem processRecordStep_id (env : Env) (ctx : Ctx) (raw : RawRow) (field : Field)
    (pckg p : Pckg) (w w1 : World)
    (hfield : field.mode = "Map" →
      field.to_ ≠ some ctx.meta.primaryIdAttribute ∧ isKeyMember ctx.key field.to_ = false)
    (hstep : processRecordStep env ctx raw field pckg w = (.ok p, w1)) :
    p.id = pckg.id ∧ p.logicalName = pckg.logicalName := by
  have key : ∀ q, (processRecordStep env ctx raw field pckg w).1 = .ok q →
      q.id = pckg.id ∧ q.logicalName = pckg.logicalName := by
    unfold processRecordStep
    by_cases hmap : field.mode = "Map"
    · obtain ⟨hid, hkey⟩ := hfield hmap
      simp only [hmap, hid, hkey, show ("Map" : String) ≠ "Ignore" by decide,
        show ("Map" : String) ≠ "ETag" by decide, Bool.false_eq_true, if_false, if_true]
      split_ifs <;> (try split) <;> intro q hq <;> (try simp at hq) <;>
        (try (subst hq; exact ⟨rfl, rfl⟩))
    · simp only [hmap, if_false]
      split_ifs <;> intro q hq <;> simp at hq <;> (try (subst hq; exact ⟨rfl, rfl⟩))
  exact key p (by rw [hstep])

/-- The loop keeps `id` and `logicalName` when no mapping is a Map to the primary identifier
or to a key attribute. -/
theorem processRecordLoop_id (env : Env) (ctx : Ctx) (raw : RawRow) (fields : List Field)
    (hfields : ∀ f ∈ fields, f.mode = "Map" →
      f.to_ ≠ some ctx.meta.primaryIdAttribute ∧ isKeyMember ctx.key f.to_ = false) :
    ∀ (pckg p : Pckg) (w w1 : World),
      processRecordLoop env ctx raw fields pckg w = (.ok p, w1) →
      p.id = pckg.id ∧ p.logicalName = pckg.logicalName := by
  induction fields with
  | nil =>
    intro pckg p w w1 h
    simp only [processRecordLoop] at h
    cases h
    exact ⟨rfl, rfl⟩
  | cons f fs ih =>
    intro pckg p w w1 h
    simp only [processRecordLoop] at h
    rcases hs : processRecordStep env ctx raw f pckg w with ⟨res, w0⟩
    rw [hs] at h
    cases res with
    | error e => cases h
    | ok p0 =>
      have h1 := processRecordStep_id env ctx raw f pckg p0 w w0
        (hfields f (List.mem_cons_self _ _)) hs
      have h2 := ih (fun g hg => hfields g (List.mem_cons_of_mem _ hg)) p0 p w0 w1 h
      exact ⟨h2.1.trans h1.1, h2.2.trans h1.2⟩

/-- C7. For a non-Associate operation the package `processRecord` starts from has `id =
null` for Update, an empty natural-key map when the operation is not Update and a key is
selected, a generated identifier otherwise, `etag = null` and no fields; it is returned
as it is when there is no mapping, and whenever no mapping targets the primary
identifier or a key attribute the returned package still has that `id`. -/
theorem initial_package (env : Env) (ctx : Ctx) (raw : RawRow) (w : World)
    (hop : ctx.operation ≠ .AssociateRequest) :
    (initialPckg env ctx w).1
        = { logicalName := ctx.entity
            id := if ctx.operation = .UpdateRequest then .null
              else if ctx.key.isSome then .obj []
              else .str (env.newGuidString w.guids)
            etag := .null
            entity := [] } ∧
      (ctx.fields = [] →
        processRecord env ctx raw w
          = (.ok (.record (initialPckg env ctx w).1), (initialPckg env ctx w).2)) ∧
      ((∀ f ∈ ctx.fields, f.mode = "Map" →
          f.to_ ≠ some ctx.meta.primaryIdAttribute ∧ isKeyMember ctx.key f.to_ = false) →
        ∀ (p : Pckg) (w1 : World), processRecord env ctx raw w = (.ok (.record p), w1) →
          p.id = (initialPckg env ctx w).1.id ∧ p.logicalName = ctx.entity) := by
  refine ⟨?_, ?_, ?_⟩
  · unfold initialPckg
    split
    · rfl
    · split <;> rfl
  · intro hfields
    unfold processRecord
    simp [hop, hfields, processRecordLoop]
  · intro hfields p w1 hres
    unfold processRecord at hres
    simp only [hop, if_false] at hres
    rcases hl : processRecordLoop env ctx raw ctx.fields (initialPckg env ctx w).1
      (initialPckg env ctx w).2 with ⟨res, w0⟩
    rw [hl] at hres
    cases res with
    | error e => cases hres
    | ok p0 =>
      simp only [Prod.mk.injEq, Except.ok.injEq, OperationPackage.record.injEq] at hres
      obtain ⟨hp, -⟩ := hres
      subst hp
      have := processRecordLoop_id env ctx raw ctx.fields hfields _ _ _ _ hl
      refine ⟨this.1, this.2.trans ?_⟩
      unfold initialPckg
      split
      · rfl
      · split <;> rfl

/-- Witness of C7: Upsert by key, Update, and Create without key, each without mappings. -/
theorem initial_package_witness :
    processRecord envNoMatch ctxUpsertNoFields [("name", some "Acme")] {}
        = (.ok (.record (Pckg.mk "account" (.obj []) .null [])), {}) ∧
      processRecord envNoMatch { ctxUpdateEtag with fields := [] } [("name", some "Acme")] {}
        = (.ok (.record (Pckg.mk "account" .null .null [])), {}) ∧
      processRecord envNoMatch { ctxCreateName with fields := [] } [("name", some "Acme")] {}
        = (.ok (.record (Pckg.mk "account" (.str "00000000-0000-0000-0000-000000000001") .null
            [])), { guids := 1 }) :=
  ⟨(initial_package envNoMatch ctxUpsertNoFields [("name", some "Acme")] {} (by decide)).2.1 rfl,
   (initial_package envNoMatch { ctxUpdateEtag with fields := [] } [("name", some "Acme")] {}
      (by decide)).2.1 rfl,
   (initial_package envNoMatch { ctxCreateName with fields := [] } [("name", some "Acme")] {}
      (by decide)).2.1 rfl⟩

/-- C8. A Map mapping to the primary identifier with a non-empty raw value `v` sets `id = v`
and writes `fields[to] = v` for Create only; as the only mapping of a create, update or
upsert the returned package has `id = v` and holds `to -> v` in its field set if and
only if the operation is Create. -/
theorem map_primary_id (env : Env) (ctx : Ctx) (raw : RawRow) (field : Field) (pckg : Pckg)
    (w : World) (v : String) (hmode : field.mode = "Map")
    (hto : field.to_ = some ctx.meta.primaryIdAttribute)
    (hraw : raw.get field.from_ = .str v) (hv : v ≠ "") :
    processRecordStep env ctx raw field pckg w
        = (.ok (if ctx.operation = .CreateRequest
            then { pckg with id := .str v }.setField field.to_ (.str v)
            else { pckg with id := .str v }), w) ∧
      (ctx.operation ≠ .AssociateRequest → ctx.fields = [field] →
        processRecord env ctx raw w
            = (.ok (.record
                { logicalName := ctx.entity
                  id := .str v
                  etag := .null
                  entity := if ctx.operation = .CreateRequest
                    then [(ctx.meta.primaryIdAttribute, .str v)] else [] }),
                (initialPckg env ctx w).2) ∧
          ((if ctx.operation = .CreateRequest
              then [(ctx.meta.primaryIdAttribute, Value.str v)] else []).lookup
                ctx.meta.primaryIdAttribute = some (.str v)
            ↔ ctx.operation = .CreateRequest)) := by
  have hstep : ∀ (q : Pckg) (w0 : World), processRecordStep env ctx raw field q w0
      = (.ok (if ctx.operation = .CreateRequest
          then { q with id := .str v }.setField field.to_ (.str v)
          else { q with id := .str v }), w0) := by
    intro q w0
    unfold processRecordStep
    simp only [hmode, hto, hraw, show ("Map" : String) ≠ "Ignore" by decide,
      show ("Map" : String) ≠ "ETag" by decide, if_false, if_true, Cell.truthy, Cell.toValue]
    simp only [hv, ne_eq, not_false_eq_true, decide_True, if_true]
    split <;> rfl
  refine ⟨hstep _ _, fun hop hfields => ⟨?_, ?_⟩⟩
  · rw [processRecord_single_ok env ctx raw w _ field _ hop hfields (hstep _ _)]
    obtain ⟨h1, h2, h3⟩ := initialPckg_entity env ctx w
    by_cases hc : ctx.operation = .CreateRequest
    · simp [hc, h1, h2, h3, setProp, Pckg.setField, hto, keyOf]
    · simp [hc, h1, h2, h3]
  · by_cases hc : ctx.operation = .CreateRequest
    · simp [hc, List.lookup]
    · simp [hc, List.lookup]

/-- Witness of C8: the identifier `A1` under Create, Upsert and Update. -/
theorem map_primary_id_witness :
    processRecord envNoMatch (ctxWithId .CreateRequest) [("id", some "A1")] {}
        = (.ok (.record (Pckg.mk "account" (.str "A1") .null [("accountid", .str "A1")])),
            { guids := 1 }) ∧
      processRecord envNoMatch (ctxWithId .UpsertRequest) [("id", some "A1")] {}
        = (.ok (.record (Pckg.mk "account" (.str "A1") .null [])), { guids := 1 }) ∧
      processRecord envNoMatch (ctxWithId .UpdateRequest) [("id", some "A1")] {}
        = (.ok (.record (Pckg.mk "account" (.str "A1") .null [])), {}) :=
  have h := fun operation =>
    map_primary_id envNoMatch (ctxWithId operation) [("id", some "A1")] fieldAccountId
      (initialPckg envNoMatch (ctxWithId operation) {}).1 {} "A1" rfl rfl rfl (by decide)
  ⟨((h .CreateRequest).2 (by decide) rfl).1, ((h .UpsertRequest).2 (by decide) rfl).1,
   ((h .UpdateRequest).2 (by decide) rfl).1⟩

/-- C9, amended. When `id` is a natural-key map, a Map mapping whose destination is a member
of the selected key and is not the primary identifier writes `parseValue(raw[from],
type)` under that name into both the natural-key map and the field set (and fails the
row where `parseValue` throws). -/
theorem map_key_member (env : Env) (ctx : Ctx) (raw : RawRow) (field : Field) (pckg : Pckg)
    (w : World) (props : List (String × Value)) (hmode : field.mode = "Map")
    (hid : field.to_ ≠ some ctx.meta.primaryIdAttribute)
    (hkey : isKeyMember ctx.key field.to_ = true) (hobj : pckg.id = .obj props) :
    processRecordStep env ctx raw field pckg w =
        (match parseValue env (raw.get field.from_) field.type
            (ctx.meta.attributes.lookup (keyOf field.to_)) with
          | .ok v =>
            (.ok ({ pckg with id := .obj (setProp (keyOf field.to_) v props) }.setField
              field.to_ v), w)
          | .error e => (.error e, w)) ∧
      (ctx.operation = .CreateRequest ∨ ctx.operation = .UpsertRequest → ctx.fields = [field] →
        processRecord env ctx raw w =
          (match parseValue env (raw.get field.from_) field.type
              (ctx.meta.attributes.lookup (keyOf field.to_)) with
            | .ok v =>
              (.ok (.record
                { logicalName := ctx.entity
                  id := .obj [(keyOf field.to_, v)]
                  etag := .null
                  entity := [(keyOf field.to_, v)] }), w)
            | .error e => (.error e, w))) := by
  have hstep : ∀ (q : Pckg) (qprops : List (String × Value)) (w0 : World), q.id = .obj qprops →
      processRecordStep env ctx raw field q w0 =
        (match parseValue env (raw.get field.from_) field.type
            (ctx.meta.attributes.lookup (keyOf field.to_)) with
          | .ok v =>
            (.ok ({ q with id := .obj (setProp (keyOf field.to_) v qprops) }.setField
              field.to_ v), w0)
          | .error e => (.error e, w0)) := by
    intro q qprops w0 hq
    unfold processRecordStep
    simp only [hmode, hid, hkey, show ("Map" : String) ≠ "Ignore" by decide,
      show ("Map" : String) ≠ "ETag" by decide, if_false, if_true]
    cases parseValue env (raw.get field.from_) field.type
      (ctx.meta.attributes.lookup (keyOf field.to_)) with
    | error e => rfl
    | ok v => simp [hq]
  refine ⟨hstep pckg props w hobj, fun hop hfields => ?_⟩
  have hsome : ctx.key.isSome = true := by
    unfold isKeyMember at hkey
    split at hkey
    · rename_i hk _
      rw [hk]
      rfl
    · cases hkey
  have hnotAssoc : ctx.operation ≠ .AssociateRequest := by
    rcases hop with h | h <;> rw [h] <;> decide
  have hnotUpdate : ctx.operation ≠ .UpdateRequest := by
    rcases hop with h | h <;> rw [h] <;> decide
  have hinit : initialPckg env ctx w
      = ({ logicalName := ctx.entity, id := .obj [], etag := .null, entity := [] }, w) := by
    unfold initialPckg
    simp [hnotUpdate, hsome]
  rw [processRecord_single env ctx raw w field hnotAssoc hfields, hinit,
    hstep _ [] w rfl]
  cases parseValue env (raw.get field.from_) field.type
    (ctx.meta.attributes.lookup (keyOf field.to_)) with
  | error e => rfl
  | ok v => simp [setProp, Pckg.setField]

/-- Witness of C9, amended: Upsert by `accountnumber`. -/
theorem map_key_member_witness :
    processRecord envNoMatch ctxUpsertByNumber [("number", some "4711")] {}
      = (.ok (.record (Pckg.mk "account" (.obj [("accountnumber", .str "4711")]) .null
          [("accountnumber", .str "4711")])), {}) :=
  (map_key_member envNoMatch ctxUpsertByNumber [("number", some "4711")] fieldAccountNumber
    (initialPckg envNoMatch ctxUpsertByNumber {}).1 {} [] rfl (by decide) rfl rfl).2
    (Or.inr rfl) rfl

/-- C9 as stated fails: when the selected key lists the primary identifier, a mapping to it
takes the primary-identifier branch, which replaces the natural-key map by the raw value
and, for Upsert, writes no field. -/
theorem key_member_primary_id_not_written :
    isKeyMember ctxUpsertByIdKey.key fieldAccountId.to_ = true ∧
      (initialPckg envNoMatch ctxUpsertByIdKey {}).1.id = .obj [] ∧
      parseValue envNoMatch (RawRow.get [("id", some "A1")] fieldAccountId.from_)
          fieldAccountId.type none = .ok (.str "A1") ∧
      processRecord envNoMatch ctxUpsertByIdKey [("id", some "A1")] {}
        = (.ok (.record (Pckg.mk "account" (.str "A1") .null [])), {}) :=
  ⟨rfl, rfl, rfl, rfl⟩

/-- C10. In the loop for create, update and upsert, a Map mapping of lookup kind whose
destination is neither the primary identifier nor a member of the selected key writes
`fields[to] = {logicalName: target, id}`, `id` being the raw value when `resolve` is
false and the identifier `resolve(target, resolveAttribute, raw value)` returns when it
is true; when that resolution fails, the row fails with the message of the resolver. -/
theorem map_lookup_field (env : Env) (ctx : Ctx) (raw : RawRow) (field : Field) (pckg : Pckg)
    (w : World) (hmode : field.mode = "Map")
    (hid : field.to_ ≠ some ctx.meta.primaryIdAttribute)
    (hkey : isKeyMember ctx.key field.to_ = false) (hlookup : isLookup field = true) :
    (field.resolve = false →
      processRecordStep env ctx raw field pckg w
        = (.ok (pckg.setField field.to_
            (.obj [("logicalName", (field.target.map Value.str).getD .null),
              ("id", (raw.get field.from_).toValue)])), w)) ∧
    (field.resolve = true →
      processRecordStep env ctx raw field pckg w =
        (match resolve env field.target field.resolveAttribute (raw.get field.from_) w with
          | (.ok id, w1) =>
            (.ok (pckg.setField field.to_
              (.obj [("logicalName", (field.target.map Value.str).getD .null), ("id", id)])), w1)
          | (.error e, w1) => (.error e, w1))) ∧
    (ctx.operation ≠ .AssociateRequest → ctx.fields = [field] →
      processRecord env ctx raw w =
        (if field.resolve = true then
          (match resolve env field.target field.resolveAttribute (raw.get field.from_)
              (initialPckg env ctx w).2 with
            | (.ok id, w1) =>
              (.ok (.record ((initialPckg env ctx w).1.setField field.to_
                (.obj [("logicalName", (field.target.map Value.str).getD .null), ("id", id)]))),
                w1)
            | (.error e, w1) => (.error e, w1))
        else
          (.ok (.record ((initialPckg env ctx w).1.setField field.to_
            (.obj [("logicalName", (field.target.map Value.str).getD .null),
              ("id", (raw.get field.from_).toValue)]))),
            (initialPckg env ctx w).2))) ∧
    (∀ v, ((initialPckg env ctx w).1.setField field.to_ v).entity = [(keyOf field.to_, v)]) := by
  have hstep : ∀ (q : Pckg) (w0 : World), processRecordStep env ctx raw field q w0 =
      (if field.resolve = true then
        (match resolve env field.target field.resolveAttribute (raw.get field.from_) w0 with
          | (.ok id, w1) =>
            (.ok (q.setField field.to_
              (.obj [("logicalName", (field.target.map Value.str).getD .null), ("id", id)])), w1)
          | (.error e, w1) => (.error e, w1))
      else
        (.ok (q.setField field.to_
          (.obj [("logicalName", (field.target.map Value.str).getD .null),
            ("id", (raw.get field.from_).toValue)])), w0)) := by
    intro q w0
    unfold processRecordStep
    simp only [hmode, hid, hkey, hlookup, show ("Map" : String) ≠ "Ignore" by decide,
      show ("Map" : String) ≠ "ETag" by decide, Bool.false_eq_true, if_false, if_true, lookupRef]
    split
    · rcases resolve env field.target field.resolveAttribute (raw.get field.from_) w0 with
        ⟨res, w1⟩
      cases res <;> rfl
    · rfl
  refine ⟨fun hr => ?_, fun hr => ?_, fun hop hfields => ?_, fun v => ?_⟩
  · rw [hstep, hr]
    rfl
  · rw [hstep, hr]
    rfl
  · rw [processRecord_single env ctx raw w field hop hfields, hstep]
    by_cases hr : field.resolve = true
    · simp only [hr, if_true]
      rcases resolve env field.target field.resolveAttribute (raw.get field.from_)
        (initialPckg env ctx w).2 with ⟨res, w1⟩
      cases res <;> rfl
    · simp only [hr, Bool.false_eq_true, if_false]
  · simp [Pckg.setField, (initialPckg_entity env ctx w).1, setProp]

/-- Witness of C10: a lookup passed through, a lookup resolved to `A1`, and a lookup whose
resolution finds nothing. -/
theorem map_lookup_field_witness :
    processRecord envOneMatch (ctxCreateContact false) [("contact", some "Acme")] {}
        = (.ok (.record (Pckg.mk "account" (.str "00000000-0000-0000-0000-000000000001") .null
            [("primarycontactid",
              .obj [("logicalName", .str "account"), ("id", .str "Acme")])])),
            { guids := 1 }) ∧
      (processRecord envOneMatch (ctxCreateContact true) [("contact", some "Acme")] {}).1
        = .ok (.record (Pckg.mk "account" (.str "00000000-0000-0000-0000-000000000001") .null
            [("primarycontactid",
              .obj [("logicalName", .str "account"), ("id", .str "A1")])])) ∧
      (processRecord envNoMatch (ctxCreateContact true) [("contact", some "Acme")] {}).1
        = .error "Not Found: account.name = Acme" :=
  ⟨(map_lookup_field envOneMatch (ctxCreateContact false) [("contact", some "Acme")]
      (fieldPrimaryContact false) (initialPckg envOneMatch (ctxCreateContact false) {}).1 {} rfl
      (by decide) rfl rfl).2.2.1 (by decide) rfl,
   congrArg Prod.fst ((map_lookup_field envOneMatch (ctxCreateContact true)
      [("contact", some "Acme")] (fieldPrimaryContact true)
      (initialPckg envOneMatch (ctxCreateContact true) {}).1 {} rfl
      (by decide) rfl rfl).2.2.1 (by decide) rfl),
   congrArg Prod.fst ((map_lookup_field envNoMatch (ctxCreateContact true)
      [("contact", some "Acme")] (fieldPrimaryContact true)
      (initialPckg envNoMatch (ctxCreateContact true) {}).1 {} rfl
      (by decide) rfl rfl).2.2.1 (by decide) rfl)⟩

/-! ## Association packages -/

/-- The mapping is one the `AssociateRequest` loop throws on: a mode that is neither
`Map` nor `Ignore`, or a `Map` whose target is neither entity of the relationship. -/
theorem associateStep_error_iff (rel : Relationship) (raw : RawRow) (field : Field)
    (pckg : AssocPckg) :
    (∃ e, associateStep rel raw field pckg = .error e) ↔
      ((field.mode ≠ "Map" ∧ field.mode ≠ "Ignore") ∨
        (field.mode = "Map" ∧ field.target ≠ some rel.Entity1LogicalName ∧
          field.target ≠ some rel.Entity2LogicalName)) := by
  unfold associateStep
  by_cases hmap : field.mode = "Map"
  · by_cases h1 : field.target = some rel.Entity1LogicalName
    · simp [hmap, h1]
    · by_cases h2 : field.target = some rel.Entity2LogicalName
      · rw [if_pos hmap, if_neg h1, if_pos h2]
        simp [hmap, h2]
      · rw [if_pos hmap, if_neg h1, if_neg h2]
        simp [hmap, h1, h2]
  · by_cases hign : field.mode = "Ignore"
    · simp [hmap, hign]
    · simp [hmap, hign]

/-- The `AssociateRequest` loop fails exactly when one of the mappings is one it throws on. -/
theorem associateLoop_error_iff (rel : Relationship) (raw : RawRow) (fields : List Field) :
    ∀ pckg : AssocPckg,
      (∃ e, associateLoop rel raw fields pckg = .error e) ↔
        ∃ f ∈ fields, (f.mode ≠ "Map" ∧ f.mode ≠ "Ignore") ∨
          (f.mode = "Map" ∧ f.target ≠ some rel.Entity1LogicalName ∧
            f.target ≠ some rel.Entity2LogicalName) := by
  induction fields with
  | nil =>
    intro pckg
    simp [associateLoop]
  | cons f fs ih =>
    intro pckg
    have hstep := associateStep_error_iff rel raw f pckg
    simp only [associateLoop, List.mem_cons, exists_eq_or_imp]
    cases hs : associateStep rel raw f pckg with
    | error e =>
      have : (f.mode ≠ "Map" ∧ f.mode ≠ "Ignore") ∨
          (f.mode = "Map" ∧ f.target ≠ some rel.Entity1LogicalName ∧
            f.target ≠ some rel.Entity2LogicalName) := hstep.mp ⟨e, hs⟩
      simp [this]
    | ok p =>
      have hno : ¬ ((f.mode ≠ "Map" ∧ f.mode ≠ "Ignore") ∨
          (f.mode = "Map" ∧ f.target ≠ some rel.Entity1LogicalName ∧
            f.target ≠ some rel.Entity2LogicalName)) := by
        intro h
        obtain ⟨e, he⟩ := hstep.mpr h
        rw [hs] at he
        cases he
      simp only [hno, false_or]
      exact ih p

/-- C11. For the Associate operation with a relationship descriptor, `processRecord`
fails the row if and only if the mapping list holds a mapping whose mode is neither
Map nor Ignore, or a Map mapping whose target is neither of the two entities of the
descriptor; otherwise it returns an association package and leaves the state as it is. -/
theorem associate_fails_iff (env : Env) (ctx : Ctx) (raw : RawRow) (w : World)
    (rel : Relationship) (hop : ctx.operation = .AssociateRequest)
    (hrel : ctx.relationship = some rel) :
    ((∃ e, (processRecord env ctx raw w).1 = .error e) ↔
        ∃ f ∈ ctx.fields, (f.mode ≠ "Map" ∧ f.mode ≠ "Ignore") ∨
          (f.mode = "Map" ∧ f.target ≠ some rel.Entity1LogicalName ∧
            f.target ≠ some rel.Entity2LogicalName)) ∧
      ((¬ ∃ f ∈ ctx.fields, (f.mode ≠ "Map" ∧ f.mode ≠ "Ignore") ∨
          (f.mode = "Map" ∧ f.target ≠ some rel.Entity1LogicalName ∧
            f.target ≠ some rel.Entity2LogicalName)) →
        ∃ p, processRecord env ctx raw w = (.ok (.associate p), w)) := by
  have hiff := associateLoop_error_iff rel raw ctx.fields
    { logicalNameA := rel.Entity1LogicalName, idA := .null,
      logicalNameB := rel.Entity2LogicalName, idB := .null, relationName := rel.SchemaName }
  unfold processRecord
  simp only [hop, if_true, hrel]
  cases hl : associateLoop rel raw ctx.fields
    { logicalNameA := rel.Entity1LogicalName, idA := .null,
      logicalNameB := rel.Entity2LogicalName, idB := .null, relationName := rel.SchemaName } with
  | error e =>
    have := hiff.mp ⟨e, hl⟩
    refine ⟨⟨fun _ => this, fun _ => ⟨e, rfl⟩⟩, fun hno => absurd this hno⟩
  | ok p =>
    have hno : ¬ ∃ f ∈ ctx.fields, (f.mode ≠ "Map" ∧ f.mode ≠ "Ignore") ∨
        (f.mode = "Map" ∧ f.target ≠ some rel.Entity1LogicalName ∧
          f.target ≠ some rel.Entity2LogicalName) := by
      intro h
      obtain ⟨e, he⟩ := hiff.mpr h
      rw [hl] at he
      cases he
    refine ⟨⟨fun ⟨e, he⟩ => ?_, fun h => absurd h hno⟩, fun _ => ⟨p, rfl⟩⟩
    simp [Except.map] at he

/-- Witness of C11: a row with both sides mapped gives a package, a row with a
`Static` mapping fails. -/
theorem associate_fails_iff_witness :
    (∃ p, processRecord envNoMatch
        (ctxAssociate relAccountContact
          [fieldSide "accountid" "account", fieldSide "contactid" "contact"])
        [("accountid", some "A1"), ("contactid", some "C1")] {} = (.ok (.associate p), {})) ∧
      (∃ e, (processRecord envNoMatch
        (ctxAssociate relAccountContact
          [fieldSide "accountid" "account", { mode := "Static", to_ := some "name" }])
        [("accountid", some "A1")] {}).1 = .error e) :=
  ⟨(associate_fails_iff envNoMatch
      (ctxAssociate relAccountContact
        [fieldSide "accountid" "account", fieldSide "contactid" "contact"])
      [("accountid", some "A1"), ("contactid", some "C1")] {} relAccountContact rfl rfl).2
      (by
        rintro ⟨f, hf, h⟩
        simp only [ctxAssociate, List.mem_cons, List.mem_singleton, List.not_mem_nil,
          or_false] at hf
        rcases hf with rfl | rfl <;> revert h <;> decide),
   (associate_fails_iff envNoMatch
      (ctxAssociate relAccountContact
        [fieldSide "accountid" "account", { mode := "Static", to_ := some "name" }])
      [("accountid", some "A1")] {} relAccountContact rfl rfl).1.mpr
      ⟨{ mode := "Static", to_ := some "name" }, by simp [ctxAssociate], Or.inl (by decide)⟩⟩

/-- An iteration of the `AssociateRequest` loop keeps the names of the package. -/
theorem associateStep_names (rel : Relationship) (raw : RawRow) (field : Field)
    (pckg p : AssocPckg) (h : associateStep rel raw field pckg = .ok p) :
    p.relationName = pckg.relationName ∧ p.logicalNameA = pckg.logicalNameA ∧
      p.logicalNameB = pckg.logicalNameB := by
  unfold associateStep at h
  split_ifs at h <;> cases h <;> exact ⟨rfl, rfl, rfl⟩

/-- The `AssociateRequest` loop keeps the names of the package. -/
theorem associateLoop_names (rel : Relationship) (raw : RawRow) (fields : List Field) :
    ∀ pckg p : AssocPckg, associateLoop rel raw fields pckg = .ok p →
      p.relationName = pckg.relationName ∧ p.logicalNameA = pckg.logicalNameA ∧
        p.logicalNameB = pckg.logicalNameB := by
  induction fields with
  | nil =>
    intro pckg p h
    simp only [associateLoop] at h
    cases h
    exact ⟨rfl, rfl, rfl⟩
  | cons f fs ih =>
    intro pckg p h
    simp only [associateLoop] at h
    cases hs : associateStep rel raw f pckg with
    | error e =>
      rw [hs] at h
      cases h
    | ok p0 =>
      rw [hs] at h
      obtain ⟨a, b, c⟩ := associateStep_names rel raw f pckg p0 hs
      obtain ⟨a', b', c'⟩ := ih p0 p h
      exact ⟨a'.trans a, b'.trans b, c'.trans c⟩

/-- C12, amended. For the Associate operation and every relationship descriptor, a Map
mapping whose target is the first entity of the descriptor sets `idA = raw[from]`, a
Map mapping whose target is the second entity, when that is not also the first, sets
`idB = raw[from]`; every returned package carries `relationName = SchemaName`,
`logicalNameA = Entity1LogicalName` and `logicalNameB = Entity2LogicalName`, and a row
with one mapping for each side returns the package with both identifiers. -/
theorem associate_sides (env : Env) (ctx : Ctx) (raw : RawRow) (w : World)
    (rel : Relationship) (hop : ctx.operation = .AssociateRequest)
    (hrel : ctx.relationship = some rel) :
    (∀ (field : Field) (pckg : AssocPckg), field.mode = "Map" →
      field.target = some rel.Entity1LogicalName →
      associateStep rel raw field pckg
        = .ok { pckg with idA := (raw.get field.from_).toValue }) ∧
    (∀ (field : Field) (pckg : AssocPckg), field.mode = "Map" →
      field.target = some rel.Entity2LogicalName →
      rel.Entity2LogicalName ≠ rel.Entity1LogicalName →
      associateStep rel raw field pckg
        = .ok { pckg with idB := (raw.get field.from_).toValue }) ∧
    (∀ (p : AssocPckg) (w1 : World), processRecord env ctx raw w = (.ok (.associate p), w1) →
      p.relationName = rel.SchemaName ∧ p.logicalNameA = rel.Entity1LogicalName ∧
        p.logicalNameB = rel.Entity2LogicalName) ∧
    (∀ fieldA fieldB : Field, ctx.fields = [fieldA, fieldB] →
      fieldA.mode = "Map" → fieldA.target = some rel.Entity1LogicalName →
      fieldB.mode = "Map" → fieldB.target = some rel.Entity2LogicalName →
      rel.Entity2LogicalName ≠ rel.Entity1LogicalName →
      processRecord env ctx raw w
        = (.ok (.associate
            { logicalNameA := rel.Entity1LogicalName
              idA := (raw.get fieldA.from_).toValue
              logicalNameB := rel.Entity2LogicalName
              idB := (raw.get fieldB.from_).toValue
              relationName := rel.SchemaName }), w)) := by
  have hA : ∀ (field : Field) (pckg : AssocPckg), field.mode = "Map" →
      field.target = some rel.Entity1LogicalName →
      associateStep rel raw field pckg
        = .ok { pckg with idA := (raw.get field.from_).toValue } := by
    intro field pckg hmode ht
    unfold associateStep
    rw [if_pos hmode, if_pos ht]
  have hB : ∀ (field : Field) (pckg : AssocPckg), field.mode = "Map" →
      field.target = some rel.Entity2LogicalName →
      rel.Entity2LogicalName ≠ rel.Entity1LogicalName →
      associateStep rel raw field pckg
        = .ok { pckg with idB := (raw.get field.from_).toValue } := by
    intro field pckg hmode ht hne
    have h1 : field.target ≠ some rel.Entity1LogicalName := by
      rw [ht]
      intro h
      exact hne (Option.some.inj h)
    unfold associateStep
    rw [if_pos hmode, if_neg h1, if_pos ht]
  refine ⟨hA, hB, ?_, ?_⟩
  · intro p w1 hres
    unfold processRecord at hres
    simp only [hop, if_true, hrel] at hres
    cases hl : associateLoop rel raw ctx.fields
      { logicalNameA := rel.Entity1LogicalName, idA := .null,
        logicalNameB := rel.Entity2LogicalName, idB := .null,
        relationName := rel.SchemaName } with
    | error e =>
      rw [hl] at hres
      simp [Except.map] at hres
    | ok p0 =>
      rw [hl] at hres
      simp only [Except.map, Prod.mk.injEq, Except.ok.injEq,
        OperationPackage.associate.injEq] at hres
      obtain ⟨hp, -⟩ := hres
      subst hp
      exact associateLoop_names rel raw ctx.fields _ _ hl
  · intro fieldA fieldB hfields hmA htA hmB htB hne
    unfold processRecord
    simp only [hop, if_true, hrel, hfields, associateLoop, hA fieldA _ hmA htA,
      hB fieldB _ hmB htB hne]
    rfl

/-- Witness of C12, amended: `account` on side A and `contact` on side B. -/
theorem associate_sides_witness :
    processRecord envNoMatch
        (ctxAssociate relAccountContact
          [fieldSide "accountid" "account", fieldSide "contactid" "contact"])
        [("accountid", some "A1"), ("contactid", some "C1")] {}
      = (.ok (.associate (AssocPckg.mk "account" (.str "A1") "contact" (.str "C1")
          "account_contact")), {}) :=
  (associate_sides envNoMatch
    (ctxAssociate relAccountContact
      [fieldSide "accountid" "account", fieldSide "contactid" "contact"])
    [("accountid", some "A1"), ("contactid", some "C1")] {} relAccountContact rfl rfl).2.2.2
    (fieldSide "accountid" "account") (fieldSide "contactid" "contact") rfl rfl rfl rfl rfl
    (by decide)

/-- C12 as stated fails: in a relationship of an entity with itself the second entity
is also the first, so a Map mapping whose target is the second entity takes the case of
the first one; it overwrites `idA` and `idB` stays `null`. -/
theorem associate_self_relationship_side_b_empty :
    (fieldSide "accountidtwo" "account").mode = "Map" ∧
      (fieldSide "accountidtwo" "account").target = some relAccountAccount.Entity2LogicalName ∧
      processRecord envNoMatch
          (ctxAssociate relAccountAccount
            [fieldSide "accountidone" "account", fieldSide "accountidtwo" "account"])
          [("accountidone", some "A1"), ("accountidtwo", some "A2")] {}
        = (.ok (.associate (AssocPckg.mk "account" (.str "A2") "account" .null
            "account_account")), {}) :=
  ⟨rfl, rfl, rfl⟩

/-! ## Paged array source -/

/-- The loop of `ArrayReader.ReadAll`, entered with fewer than `k` items in `page`,
yields pages that concatenate to `page` and the items to visit; all pages but the last
hold `k` items, the last holds between 1 and `k`, and their number is the quotient,
rounded up, of the number of items by `k`. -/
theorem ReadAllLoop_pages {α : Type} (k : Nat) (hk : 1 ≤ k) (rest : List α) :
    ∀ page : List α, page.length < k →
      (ArrayReader.ReadAllLoop k rest page).flatten = page ++ rest ∧
      (∀ p ∈ (ArrayReader.ReadAllLoop k rest page).dropLast, p.length = k) ∧
      (∀ p ∈ (ArrayReader.ReadAllLoop k rest page).getLast?, 1 ≤ p.length ∧ p.length ≤ k) ∧
      (ArrayReader.ReadAllLoop k rest page).length = (page.length + rest.length + k - 1) / k := by
  induction rest with
  | nil =>
    intro page hpage
    unfold ArrayReader.ReadAllLoop
    by_cases h0 : page.length > 0
    · simp only [h0, if_true, List.flatten_cons, List.flatten_nil, List.append_nil,
        List.dropLast_single, List.not_mem_nil, false_implies, implies_true,
        List.getLast?_singleton, Option.mem_def, Option.some.injEq, List.length_singleton,
        List.length_nil, Nat.add_zero, true_and]
      refine ⟨?_, ?_⟩
      · intro p hp
        subst hp
        omega
      · symm
        apply Nat.div_eq_of_lt_le <;> omega
    · have hnil : page = [] := List.length_eq_zero.mp (by omega)
      subst hnil
      simp only [List.length_nil, gt_iff_lt, Nat.lt_irrefl, if_false, List.flatten_nil,
        List.append_nil, List.dropLast_nil, List.not_mem_nil, false_implies, implies_true,
        List.getLast?_nil, Option.mem_def, Nat.zero_add, true_and]
      refine ⟨fun p hp => (by cases hp), ?_⟩
      symm
      apply Nat.div_eq_of_lt
      omega
  | cons item rest ih =>
    intro page hpage
    unfold ArrayReader.ReadAllLoop
    by_cases hfull : (page ++ [item]).length = k
    · simp only [hfull, if_true]
      obtain ⟨h1, h2, h3, h4⟩ := ih [] (by simpa using hk)
      refine ⟨?_, ?_, ?_, ?_⟩
      · simp [h1]
      · intro p hp
        cases hr : ArrayReader.ReadAllLoop k rest [] with
        | nil =>
          rw [hr] at hp
          simp at hp
        | cons q qs =>
          rw [hr, List.dropLast_cons₂] at hp
          rcases List.mem_cons.mp hp with rfl | hp
          · exact hfull
          · exact h2 p (by rw [hr]; exact hp)
      · intro p hp
        cases hr : ArrayReader.ReadAllLoop k rest [] with
        | nil =>
          rw [hr] at hp
          simp only [List.getLast?_singleton, Option.mem_def, Option.some.injEq] at hp
          subst hp
          omega
        | cons q qs =>
          rw [hr, List.getLast?_cons_cons] at hp
          exact h3 p (by rw [hr]; exact hp)
      · rw [List.length_cons, h4]
        simp only [List.length_append, List.length_singleton, List.length_nil,
          List.length_cons] at hfull ⊢
        have : page.length + (rest.length + 1) + k - 1 = (0 + rest.length + k - 1) + k := by
          omega
        rw [this, Nat.add_div_right _ (by omega)]
    · simp only [hfull, if_false]
      have hlt : (page ++ [item]).length < k := by
        simp only [List.length_append, List.length_singleton] at hfull ⊢
        omega
      obtain ⟨h1, h2, h3, h4⟩ := ih (page ++ [item]) hlt
      refine ⟨by simp [h1], h2, h3, ?_⟩
      rw [h4]
      have e : (page ++ [item]).length + rest.length = page.length + (item :: rest).length := by
        rw [List.length_append, List.length_singleton, List.length_cons]
        omega
      rw [e]

/-- C13. For every array and every `pageSize = k ≥ 1`, `Count()` is the length of the
array and `ReadAll({pageSize: k})` yields the quotient, rounded up, of the length by
`k` pages, whose concatenation is the array; every page except the last holds exactly
`k` rows, the last holds between 1 and `k` rows, and an empty array yields no page. -/
theorem ArrayReader_paging {α : Type} (reader : ArrayReader α) (k : Nat) (hk : 1 ≤ k) :
    reader.Count = reader.array.length ∧
      (reader.ReadAll k).length = (reader.array.length + k - 1) / k ∧
      (reader.ReadAll k).flatten = reader.array ∧
      (∀ p ∈ (reader.ReadAll k).dropLast, p.length = k) ∧
      (∀ p ∈ (reader.ReadAll k).getLast?, 1 ≤ p.length ∧ p.length ≤ k) ∧
      (∀ p ∈ reader.ReadAll k, p ≠ []) ∧
      (reader.array = [] → reader.ReadAll k = []) := by
  obtain ⟨h1, h2, h3, h4⟩ := ReadAllLoop_pages k hk reader.array [] (by simpa using hk)
  refine ⟨rfl, ?_, ?_, h2, h3, ?_, ?_⟩
  · unfold ArrayReader.ReadAll
    rw [h4]
    simp
  · unfold ArrayReader.ReadAll
    simpa using h1
  · intro p hp hnil
    unfold ArrayReader.ReadAll at hp
    have hsplit := List.dropLast_append_getLast? (l := ArrayReader.ReadAllLoop k reader.array [])
    cases hl : (ArrayReader.ReadAllLoop k reader.array []).getLast? with
    | none =>
      rw [List.getLast?_eq_none_iff] at hl
      rw [hl] at hp
      cases hp
    | some q =>
      have hq := hsplit q hl
      rw [← hq] at hp
      rcases List.mem_append.mp hp with hp | hp
      · have := h2 p hp
        rw [hnil] at this
        simp at this
        omega
      · simp only [List.mem_singleton] at hp
        subst hp
        have := (h3 p hl).1
        rw [hnil] at this
        simp at this
  · intro ha
    unfold ArrayReader.ReadAll
    rw [ha]
    rfl

/-- Witness of C13: seven rows in pages of three. -/
theorem ArrayReader_paging_witness :
    (ArrayReader.mk [1, 2, 3, 4, 5, 6, 7]).ReadAll 3 = [[1, 2, 3], [4, 5, 6], [7]] ∧
      ((ArrayReader.mk [1, 2, 3, 4, 5, 6, 7]).ReadAll 3).length = (7 + 3 - 1) / 3 :=
  ⟨by decide, (ArrayReader_paging (ArrayReader.mk [1, 2, 3, 4, 5, 6, 7]) 3 (by decide)).2.1⟩

/-! ## Value coercion -/

/-- The text starts with `true` in any case exactly when it splits into a four-letter
text that equals `true` without regard to case and a rest. -/
theorem startsWithTrue_iff (cs : List Char) :
    startsWithTrue cs = true ↔
      ∃ t post, cs = t ++ post ∧ equalsIgnoreCase t ['t', 'r', 'u', 'e'] = true := by
  constructor
  · intro h
    match cs, h with
    | a :: b :: c :: d :: post, h =>
      refine ⟨[a, b, c, d], post, rfl, ?_⟩
      simp only [startsWithTrue, Bool.and_eq_true, Bool.or_eq_true, beq_iff_eq] at h
      obtain ⟨⟨⟨ha, hb⟩, hc⟩, hd⟩ := h
      simp only [equalsIgnoreCase, Bool.and_eq_true, Bool.or_eq_true, beq_iff_eq, and_true]
      refine ⟨?_, ?_, ?_, ?_⟩
      · rcases ha with h | h <;> rw [h] <;> decide
      · rcases hb with h | h <;> rw [h] <;> decide
      · rcases hc with h | h <;> rw [h] <;> decide
      · rcases hd with h | h <;> rw [h] <;> decide
  · rintro ⟨t, post, rfl, ht⟩
    match t, ht with
    | [], ht => simp [equalsIgnoreCase] at ht
    | [_], ht => simp [equalsIgnoreCase] at ht
    | [_, _], ht => simp [equalsIgnoreCase] at ht
    | [_, _, _], ht => simp [equalsIgnoreCase] at ht
    | _ :: _ :: _ :: _ :: _ :: _, ht => simp [equalsIgnoreCase] at ht
    | [a, b, c, d], ht =>
      simp only [equalsIgnoreCase, Bool.and_eq_true, Bool.or_eq_true, beq_iff_eq,
        and_true] at ht
      obtain ⟨ha, hb, hc, hd⟩ := ht
      have hT : 't'.toUpper = 'T' := by decide
      have hR : 'r'.toUpper = 'R' := by decide
      have hU : 'u'.toUpper = 'U' := by decide
      have hE : 'e'.toUpper = 'E' := by decide
      rw [hT] at ha
      rw [hR] at hb
      rw [hU] at hc
      rw [hE] at hd
      simp only [List.cons_append, List.nil_append, startsWithTrue, Bool.and_eq_true,
        Bool.or_eq_true, beq_iff_eq]
      exact ⟨⟨⟨ha, hb⟩, hc⟩, hd⟩

/-- The pattern `/true|1/i` matches a text exactly when the text holds, somewhere,
`true` in any case or the digit `1`. -/
theorem matchBoolean_iff (cs : List Char) :
    matchBoolean cs = true ↔
      ∃ pre t post, cs = pre ++ (t ++ post) ∧
        (equalsIgnoreCase t ['t', 'r', 'u', 'e'] = true ∨ t = ['1']) := by
  induction cs with
  | nil =>
    simp only [matchBoolean, Bool.false_eq_true, false_iff]
    rintro ⟨pre, t, post, h, ht⟩
    have hpre : pre = [] ∧ t ++ post = [] := List.append_eq_nil.mp h.symm
    have ht0 : t = [] := (List.append_eq_nil.mp hpre.2).1
    subst ht0
    rcases ht with ht | ht
    · simp [equalsIgnoreCase] at ht
    · cases ht
  | cons c cs ih =>
    simp only [matchBoolean, Bool.or_eq_true, beq_iff_eq]
    constructor
    · rintro ((h | h) | h)
      · obtain ⟨t, post, hcs, ht⟩ := (startsWithTrue_iff _).mp h
        exact ⟨[], t, post, hcs, Or.inl ht⟩
      · exact ⟨[], ['1'], cs, by rw [h]; rfl, Or.inr rfl⟩
      · obtain ⟨pre, t, post, hcs, ht⟩ := ih.mp h
        exact ⟨c :: pre, t, post, by rw [hcs]; rfl, ht⟩
    · rintro ⟨pre, t, post, hcs, ht⟩
      cases pre with
      | nil =>
        rcases ht with ht | ht
        · exact Or.inl (Or.inl ((startsWithTrue_iff _).mpr ⟨t, post, hcs, ht⟩))
        · subst ht
          simp only [List.nil_append, List.cons_append, List.cons.injEq] at hcs
          exact Or.inl (Or.inr hcs.1)
      | cons p pre =>
        simp only [List.cons_append, List.cons.injEq] at hcs
        exact Or.inr (ih.mpr ⟨pre, t, post, hcs.2, ht⟩)

/-- C18, amended. For every string `s`, `parseValue(s, 'Boolean')` is `true` if and only
if `s` holds, somewhere in it, the word `true` compared without regard to case or the
digit `1`; for every other string it is `false`. -/
theorem boolean_coercion (env : Env) (s : String) (attrMeta : Option AttributeMeta) :
    ∃ b : Bool, parseValue env (.str s) (some "Boolean") attrMeta = .ok (.bool b) ∧
      (b = true ↔ ∃ pre t post, s.data = pre ++ (t ++ post) ∧
        (equalsIgnoreCase t "true".data = true ∨ t = "1".data)) :=
  ⟨matchBoolean s.data, rfl, matchBoolean_iff s.data⟩

/-- C18 as stated fails: `10` equals neither `true` nor `1`, yet it holds a `1`, which
the pattern without anchors finds, so it is coerced to `true`. -/
theorem boolean_coercion_ten_is_true :
    equalsIgnoreCase "10".data "true".data = false ∧
      equalsIgnoreCase "10".data "1".data = false ∧
      parseValue envNoMatch (.str "10") (some "Boolean") none = .ok (.bool true) :=
  ⟨by decide, by decide, rfl⟩

/-- What `takeHex` takes is a head of the text of the asked length, all `[0-9a-f]`. -/
theorem takeHex_sound : ∀ (n : Nat) (cs h r : List Char), takeHex n cs = some (h, r) →
    cs = h ++ r ∧ h.length = n ∧ ∀ c ∈ h, isHexDigit c = true := by
  intro n
  induction n with
  | zero =>
    intro cs h r hx
    simp only [takeHex, Option.some.injEq, Prod.mk.injEq] at hx
    obtain ⟨rfl, rfl⟩ := hx
    simp
  | succ n ih =>
    intro cs h r hx
    cases cs with
    | nil => simp [takeHex] at hx
    | cons c cs =>
      simp only [takeHex] at hx
      by_cases hc : isHexDigit c = true
      · simp only [hc, if_true, Option.map_eq_some', Prod.mk.injEq, Prod.exists] at hx
        obtain ⟨h', r', hrec, rfl, rfl⟩ := hx
        obtain ⟨h1, h2, h3⟩ := ih cs h' r' hrec
        refine ⟨by rw [h1]; rfl, by simp [h2], ?_⟩
        intro d hd
        rcases List.mem_cons.mp hd with rfl | hd
        · exact hc
        · exact h3 d hd
      · simp [hc] at hx

/-- A head of `n` characters of `[0-9a-f]` is what `takeHex n` takes. -/
theorem takeHex_complete : ∀ (n : Nat) (h r : List Char), h.length = n →
    (∀ c ∈ h, isHexDigit c = true) → takeHex n (h ++ r) = some (h, r) := by
  intro n
  induction n with
  | zero =>
    intro h r hlen _
    have : h = [] := List.length_eq_zero.mp hlen
    subst this
    rfl
  | succ n ih =>
    intro h r hlen hall
    cases h with
    | nil => simp at hlen
    | cons c h =>
      have hc : isHexDigit c = true := hall c (List.mem_cons_self _ _)
      have := ih h r (by simpa using hlen) (fun d hd => hall d (List.mem_cons_of_mem _ hd))
      simp [takeHex, hc, this]

/-- What `takeChar` takes is the head of the text. -/
theorem takeChar_eq_some (c : Char) (cs r : List Char) :
    takeChar c cs = some r ↔ cs = c :: r := by
  cases cs with
  | nil => simp [takeChar]
  | cons d cs =>
    by_cases hd : d = c
    · simp [takeChar, hd]
    · simp [takeChar, hd]

/-- What `matchGuid` matches is a GUID, with or without braces, at the head of the text. -/
theorem matchGuid_sound (cs g : List Char) (h : matchGuid cs = some g) :
    IsBracedGuid g ∧ ∃ post, cs = g ++ post := by
  unfold matchGuid at h
  simp only [Option.bind_eq_some, Prod.exists] at h
  obtain ⟨g1, r1, h1, r1', c1, g2, r2, h2, r2', c2, g3, r3, h3, r3', c3, g4, r4, h4, r4', c4,
    g5, r5, h5, hg⟩ := h
  simp only [Option.some.injEq] at hg
  obtain ⟨e1, l1, x1⟩ := takeHex_sound _ _ _ _ h1
  obtain ⟨e2, l2, x2⟩ := takeHex_sound _ _ _ _ h2
  obtain ⟨e3, l3, x3⟩ := takeHex_sound _ _ _ _ h3
  obtain ⟨e4, l4, x4⟩ := takeHex_sound _ _ _ _ h4
  obtain ⟨e5, l5, x5⟩ := takeHex_sound _ _ _ _ h5
  rw [takeChar_eq_some] at c1 c2 c3 c4
  have hcore : IsGuid (g1 ++ '-' :: (g2 ++ '-' :: (g3 ++ '-' :: (g4 ++ '-' :: g5)))) := by
    refine ⟨g1, g2, g3, g4, g5, rfl, l1, l2, l3, l4, l5, ?_⟩
    intro c hc
    simp only [List.mem_append] at hc
    rcases hc with (((hc | hc) | hc) | hc) | hc
    · exact x1 c hc
    · exact x2 c hc
    · exact x3 c hc
    · exact x4 c hc
    · exact x5 c hc
  have hrest : (if cs.head? = some '{' then cs.tail else cs)
      = (g1 ++ '-' :: (g2 ++ '-' :: (g3 ++ '-' :: (g4 ++ '-' :: g5)))) ++ r5 := by
    rw [e1, c1, e2, c2, e3, c3, e4, c4, e5]
    simp
  by_cases hopen : cs.head? = some '{'
  · have hcs : cs = '{' :: cs.tail := by
      cases cs with
      | nil => simp at hopen
      | cons d ds =>
        simp only [List.head?_cons, Option.some.injEq] at hopen
        rw [hopen]
        rfl
    simp only [hopen, if_true] at hrest hg
    by_cases hclose : r5.head? = some '}'
    · have hr5 : r5 = '}' :: r5.tail := by
        cases r5 with
        | nil => simp at hclose
        | cons d ds =>
          simp only [List.head?_cons, Option.some.injEq] at hclose
          rw [hclose]
          rfl
      simp only [hclose, if_true] at hg
      refine ⟨⟨_, hcore, Or.inr (Or.inr (Or.inr ?_))⟩, r5.tail, ?_⟩
      · rw [← hg]
        simp
      · rw [hcs, hrest, ← hg, hr5]
        simp
    · simp only [hclose, if_false] at hg
      refine ⟨⟨_, hcore, Or.inr (Or.inl ?_)⟩, r5, ?_⟩
      · rw [← hg]
        simp
      · rw [hcs, hrest, ← hg]
        simp
  · simp only [hopen, if_false] at hrest hg
    by_cases hclose : r5.head? = some '}'
    · have hr5 : r5 = '}' :: r5.tail := by
        cases r5 with
        | nil => simp at hclose
        | cons d ds =>
          simp only [List.head?_cons, Option.some.injEq] at hclose
          rw [hclose]
          rfl
      simp only [hclose, if_true] at hg
      refine ⟨⟨_, hcore, Or.inr (Or.inr (Or.inl ?_))⟩, r5.tail, ?_⟩
      · rw [← hg]
        simp
      · rw [hrest, ← hg, hr5]
        simp
    · simp only [hclose, if_false] at hg
      refine ⟨⟨_, hcore, Or.inl ?_⟩, r5, ?_⟩
      · rw [← hg]
        simp
      · rw [hrest, ← hg]
        simp

/-- What `REGEX_LOOKUP` matches at the head of a text is an entity name, a colon and a
GUID, with or without braces. -/
theorem matchLookupAt_sound (cs : List Char) (a b : String)
    (h : matchLookupAt cs = some (a, b)) :
    IsEntityName a.data ∧ IsBracedGuid b.data ∧ ∃ post, cs = a.data ++ ':' :: (b.data ++ post) := by
  cases cs with
  | nil => simp [matchLookupAt] at h
  | cons c rest =>
    simp only [matchLookupAt] at h
    split at h
    · rename_i hcond
      simp only [Bool.and_eq_true, decide_eq_true_eq, beq_iff_eq] at hcond
      obtain ⟨⟨⟨hc, hlen1⟩, hlen2⟩, hlast⟩ := hcond
      simp only [Option.map_eq_some', Option.bind_eq_some, Prod.mk.injEq] at h
      obtain ⟨g, ⟨r, hcolon, hguid⟩, ha, hb⟩ := h
      rw [takeChar_eq_some] at hcolon
      obtain ⟨hbraced, post, hpost⟩ := matchGuid_sound r g hguid
      have hsplit : rest = rest.takeWhile isNameChar ++ rest.dropWhile isNameChar :=
        (List.takeWhile_append_dropWhile _ _).symm
      obtain ⟨l, hl, hlok⟩ : ∃ l, (rest.takeWhile isNameChar).getLast? = some l ∧
          (isLower l || isDigit l) = true := by
        cases hgl : (rest.takeWhile isNameChar).getLast? with
        | none => rw [hgl] at hlast; simp at hlast
        | some l =>
          rw [hgl] at hlast
          simp only [Option.map_some', Option.some.injEq] at hlast
          exact ⟨l, rfl, hlast⟩
      have hrun : (rest.takeWhile isNameChar).dropLast ++ [l] = rest.takeWhile isNameChar :=
        List.dropLast_append_getLast? _ hl
      subst ha
      subst hb
      refine ⟨⟨c, (rest.takeWhile isNameChar).dropLast, l, ?_, hc, ?_, ?_, hlok⟩, hbraced,
        post, ?_⟩
      · show c :: List.takeWhile isNameChar rest = _
        rw [hrun]
      · intro m hm
        exact (List.mem_takeWhile_imp (List.mem_of_mem_dropLast hm))
      · rw [List.length_dropLast]
        omega
      · show c :: rest = (c :: List.takeWhile isNameChar rest) ++ ':' :: (g ++ post)
        rw [List.cons_append, ← hpost, ← hcolon, ← hsplit]
    · cases h

/-- What `REGEX_LOOKUP.exec` finds is a composite token somewhere in the text. -/
theorem execLookup_sound (cs : List Char) (a b : String) (h : execLookup cs = some (a, b)) :
    IsEntityName a.data ∧ IsBracedGuid b.data ∧
      ∃ pre post, cs = pre ++ (a.data ++ ':' :: (b.data ++ post)) := by
  induction cs with
  | nil => simp [execLookup] at h
  | cons c cs ih =>
    simp only [execLookup] at h
    cases hm : matchLookupAt (c :: cs) with
    | some r =>
      rw [hm] at h
      simp only [Option.some.injEq] at h
      subst h
      obtain ⟨h1, h2, post, h3⟩ := matchLookupAt_sound _ _ _ hm
      exact ⟨h1, h2, [], post, h3⟩
    | none =>
      rw [hm] at h
      obtain ⟨h1, h2, pre, post, h3⟩ := ih h
      exact ⟨h1, h2, c :: pre, post, by rw [h3]; rfl⟩

/-- For the three lookup kinds the table entry is `parseLookup`. -/
theorem parseValue_lookup_kind (env : Env) (s : String) (attrMeta : Option AttributeMeta) :
    parseValue env (.str s) (some "Lookup") attrMeta = .ok (parseLookup s) ∧
      parseValue env (.str s) (some "Customer") attrMeta = .ok (parseLookup s) ∧
      parseValue env (.str s) (some "Owner") attrMeta = .ok (parseLookup s) :=
  ⟨rfl, rfl, rfl⟩

/-- C19, amended. For every string `s` that holds no composite token
`<entityName>:<guid>` anywhere in it (an entity logical name, a colon and a GUID, with or
without braces), `parseValue(s, 'Lookup')`, and likewise `'Customer'` and `'Owner'`,
yields `null`. -/
theorem lookup_rejects_non_tokens (env : Env) (s : String) (attrMeta : Option AttributeMeta)
    (hs : ¬ ContainsLookupToken s.data) :
    parseValue env (.str s) (some "Lookup") attrMeta = .ok .null ∧
      parseValue env (.str s) (some "Customer") attrMeta = .ok .null ∧
      parseValue env (.str s) (some "Owner") attrMeta = .ok .null := by
  have hnone : execLookup s.data = none := by
    cases he : execLookup s.data with
    | none => rfl
    | some r =>
      obtain ⟨a, b⟩ := r
      obtain ⟨h1, h2, pre, post, h3⟩ := execLookup_sound _ _ _ he
      exact absurd ⟨pre, a.data, b.data, post, h3, h1, h2⟩ hs
  have hnull : parseLookup s = .null := by
    unfold parseLookup
    rw [hnone]
  obtain ⟨h1, h2, h3⟩ := parseValue_lookup_kind env s attrMeta
  rw [h1, h2, h3, hnull]
  exact ⟨rfl, rfl, rfl⟩

/-- Witness of C19, amended: a text without a colon holds no token. -/
theorem lookup_rejects_non_tokens_witness :
    parseValue envNoMatch (.str "account") (some "Lookup") none = .ok .null ∧
      parseValue envNoMatch (.str "account") (some "Customer") none = .ok .null ∧
      parseValue envNoMatch (.str "account") (some "Owner") none = .ok .null :=
  lookup_rejects_non_tokens envNoMatch "account" none (by
    rintro ⟨pre, n, g, post, h, -, -⟩
    have hmem : ':' ∈ "account".data := by
      rw [h]
      simp
    revert hmem
    decide)

/-- C19 as stated fails: a text with a blank before the token is not, as a whole, a
composite token, yet the pattern without anchors finds the token in it. -/
theorem lookup_token_found_inside_text :
    ¬ IsLookupToken " account:0123abcd-0123-0123-0123-0123456789ab".data ∧
      parseValue envNoMatch (.str " account:0123abcd-0123-0123-0123-0123456789ab")
          (some "Lookup") none
        = .ok (.obj [("logicalName", .str "account"),
            ("id", .str "0123abcd-0123-0123-0123-0123456789ab")]) := by
  refine ⟨?_, rfl⟩
  rintro ⟨n, g, h, ⟨c, mid, l, hn, hc, -⟩, -⟩
  rw [hn] at h
  have hhead := congrArg List.head? h
  simp only [List.cons_append, List.head?_cons] at hhead
  have : c = ' ' := by
    have h2 : some ' ' = some c := hhead
    exact (Option.some.inj h2).symm
  rw [this] at hc
  revert hc
  decide

/-- A run of characters of a class, followed by one outside the class, is what
`takeWhile` takes and `dropWhile` leaves the rest. -/
theorem takeWhile_dropWhile_run (p : Char → Bool) (run : List Char) (b : Char)
    (r : List Char) (hrun : ∀ c ∈ run, p c = true) (hb : p b = false) :
    (run ++ b :: r).takeWhile p = run ∧ (run ++ b :: r).dropWhile p = b :: r := by
  induction run with
  | nil => simp [List.takeWhile, List.dropWhile, hb]
  | cons c cs ih =>
    have hc : p c = true := hrun c (List.mem_cons_self _ _)
    obtain ⟨h1, h2⟩ := ih (fun d hd => hrun d (List.mem_cons_of_mem _ hd))
    simp [List.takeWhile, List.dropWhile, hc, h1, h2]

/-- A bare GUID that ends the text is what `matchGuid` matches. -/
theorem matchGuid_complete (g : List Char) (hg : IsGuid g) : matchGuid g = some g := by
  obtain ⟨g1, g2, g3, g4, g5, rfl, l1, l2, l3, l4, l5, hall⟩ := hg
  have x1 : ∀ c ∈ g1, isHexDigit c = true := fun c hc => hall c (by simp [hc])
  have x2 : ∀ c ∈ g2, isHexDigit c = true := fun c hc => hall c (by simp [hc])
  have x3 : ∀ c ∈ g3, isHexDigit c = true := fun c hc => hall c (by simp [hc])
  have x4 : ∀ c ∈ g4, isHexDigit c = true := fun c hc => hall c (by simp [hc])
  have x5 : ∀ c ∈ g5, isHexDigit c = true := fun c hc => hall c (by simp [hc])
  have hhead : (g1 ++ '-' :: (g2 ++ '-' :: (g3 ++ '-' :: (g4 ++ '-' :: g5)))).head?
      ≠ some '{' := by
    cases g1 with
    | nil => simp at l1
    | cons c cs =>
      have hc := x1 c (List.mem_cons_self _ _)
      simp only [List.cons_append, List.head?_cons, ne_eq, Option.some.injEq]
      intro h
      rw [h] at hc
      revert hc
      decide
  have t5 : takeHex 12 g5 = some (g5, []) := by
    have := takeHex_complete 12 g5 [] l5 x5
    simpa using this
  unfold matchGuid
  simp only [hhead, if_false, takeHex_complete 8 g1 _ l1 x1, Option.some_bind, takeChar,
    if_true, takeHex_complete 4 g2 _ l2 x2, takeHex_complete 4 g3 _ l3 x3,
    takeHex_complete 4 g4 _ l4 x4, t5, List.head?_nil]
  simp

/-- C20. For every entity logical name `n` (a lower-case letter, at most 1022 characters
of `[a-z0-9_]`, a character of `[a-z0-9]`) and every GUID `g` (8-4-4-4-12 lower-case
hexadecimal digits), `parseValue(n + ':' + g, 'Lookup')` is `{logicalName: n, id: g}`. -/
theorem lookup_round_trip (env : Env) (n g : String) (attrMeta : Option AttributeMeta)
    (hn : IsEntityName n.data) (hg : IsGuid g.data) :
    parseValue env (.str (n ++ ":" ++ g)) (some "Lookup") attrMeta
      = .ok (.obj [("logicalName", .str n), ("id", .str g)]) := by
  rw [(parseValue_lookup_kind env _ attrMeta).1]
  obtain ⟨c, mid, l, hnd, hc, hmid, hlen, hl⟩ := hn
  have hdata : (n ++ ":" ++ g).data = c :: ((mid ++ [l]) ++ ':' :: g.data) := by
    rw [String.data_append, String.data_append, hnd]
    simp
  have hrun : ∀ d ∈ mid ++ [l], isNameChar d = true := by
    intro d hd
    rcases List.mem_append.mp hd with hd | hd
    · exact hmid d hd
    · simp only [List.mem_singleton] at hd
      subst hd
      simp only [Bool.or_eq_true] at hl
      rcases hl with hl | hl <;> simp [isNameChar, hl]
  obtain ⟨htake, hdrop⟩ := takeWhile_dropWhile_run isNameChar (mid ++ [l]) ':' g.data hrun
    (by decide)
  have hmatch : matchLookupAt (c :: ((mid ++ [l]) ++ ':' :: g.data))
      = some (String.mk (c :: (mid ++ [l])), String.mk g.data) := by
    simp only [matchLookupAt, htake, hdrop, hc, List.length_append, List.length_singleton,
      List.getLast?_append, List.getLast?_singleton, Option.or_some, Option.map_some', hl,
      takeChar, if_true, Option.some_bind, matchGuid_complete g.data hg, Bool.true_and,
      Bool.and_true]
    have h1 : decide (1 ≤ mid.length + 1) = true := by simp
    have h2 : decide (mid.length + 1 ≤ 1023) = true := by
      simp only [decide_eq_true_eq]
      omega
    simp [h1, h2, hlen]
  unfold parseLookup
  rw [hdata]
  simp only [execLookup, hmatch]
  rw [← hnd]

/-- Witness of C20: `account` and a GUID. -/
theorem lookup_round_trip_witness :
    parseValue envNoMatch (.str ("account" ++ ":" ++ "0123abcd-0123-0123-0123-0123456789ab"))
        (some "Lookup") none
      = .ok (.obj [("logicalName", .str "account"),
          ("id", .str "0123abcd-0123-0123-0123-0123456789ab")]) :=
  lookup_round_trip envNoMatch "account" "0123abcd-0123-0123-0123-0123456789ab" none
    ⟨'a', "ccoun".data, 't', rfl, by decide, by decide, by decide, by decide⟩
    ⟨"0123abcd".data, "0123".data, "0123".data, "0123".data, "0123456789ab".data, rfl,
      rfl, rfl, rfl, rfl, rfl, by decide⟩

/-! ## Export -/

/-- The projection of a page has one row per record. -/
theorem projectPage_length {Record Row : Type} (project : Record → Except String Row)
    (page : List Record) :
    ∀ rows, projectPage project page = .ok rows → rows.length = page.length := by
  induction page with
  | nil =>
    intro rows h
    simp only [projectPage, Except.ok.injEq] at h
    subst h
    rfl
  | cons r rs ih =>
    intro rows h
    simp only [projectPage] at h
    cases hp : project r with
    | error e => rw [hp] at h; cases h
    | ok row =>
      rw [hp] at h
      cases hr : projectPage project rs with
      | error e => rw [hr] at h; cases h
      | ok rows' =>
        rw [hr] at h
        simp only [Except.ok.injEq] at h
        subst h
        simp [ih rows' hr]

/-- Projected pages have the sizes of the pages. -/
theorem projectPages_lengths {Record Row : Type} (project : Record → Except String Row)
    (pages : List (List Record)) (rowss : List (List Row))
    (hall : List.Forall₂ (fun page rows => projectPage project page = .ok rows) pages rowss) :
    rowss.map List.length = pages.map List.length := by
  induction hall with
  | nil => rfl
  | cons h _ ih =>
    simp only [List.map_cons, List.cons.injEq]
    exact ⟨projectPage_length _ _ _ h, ih⟩

/-- The page loop of an uncancelled export through a target, when it does not throw,
adds one `AddRange` per page, in the order of the pages, each with the projection of
its page. -/
theorem exportPages_calls {Record Row : Type} (args : ExportArgs Record Row)
    (t : List (TargetCall Row) → TargetCall Row → Except String Unit)
    (htarget : args.target = some t) (hcancel : ∀ i, args.cancelled i = false)
    (pages : List (List Record)) :
    ∀ (i : Nat) (calls : List (TargetCall Row)) (results : List Row)
      (calls1 : List (TargetCall Row)) (results1 : List Row) (exit : LoopExit),
      exportPages args i pages calls results = (calls1, results1, exit) →
      (∀ e, exit ≠ .thrown e) →
      ∃ rowss : List (List Row),
        List.Forall₂ (fun page rows => projectPage args.project page = .ok rows) pages rowss ∧
        calls1 = calls ++ rowss.map TargetCall.AddRange := by
  induction pages with
  | nil =>
    intro i calls results calls1 results1 exit h _
    simp only [exportPages] at h
    cases hf : args.providerFailure with
    | some e =>
      rw [hf] at h
      simp only [Prod.mk.injEq] at h
      exact ⟨[], List.Forall₂.nil, by simp [h.1]⟩
    | none =>
      rw [hf] at h
      simp only [Prod.mk.injEq] at h
      exact ⟨[], List.Forall₂.nil, by simp [h.1]⟩
  | cons page rest ih =>
    intro i calls results calls1 results1 exit h hexit
    simp only [exportPages] at h
    cases hp : projectPage args.project page with
    | error e =>
      rw [hp] at h
      simp only [Prod.mk.injEq] at h
      exact absurd h.2.2.symm (hexit e)
    | ok rows =>
      rw [hp] at h
      simp only [callTarget, htarget] at h
      cases ht : t calls (TargetCall.AddRange rows) with
      | error e =>
        rw [ht] at h
        simp only [Prod.mk.injEq] at h
        exact absurd h.2.2.symm (hexit e)
      | ok u =>
        rw [ht] at h
        simp only [hcancel i, Bool.false_eq_true, if_false] at h
        obtain ⟨rowss, hall, hcalls⟩ := ih _ _ _ _ _ _ h hexit
        refine ⟨rows :: rowss, List.Forall₂.cons hp hall, ?_⟩
        rw [hcalls]
        simp

/-- A call on a target is recorded after the calls made before it. -/
theorem callTarget_calls {Row : Type}
    (t : List (TargetCall Row) → TargetCall Row → Except String Unit)
    (calls calls1 : List (TargetCall Row)) (call : TargetCall Row) (e : Option String)
    (h : callTarget (some t) calls call = (calls1, e)) : calls1 = calls ++ [call] := by
  simp only [callTarget] at h
  cases ht : t calls call with
  | ok u =>
    rw [ht] at h
    simp only [Prod.mk.injEq] at h
    exact h.1.symm
  | error m =>
    rw [ht] at h
    simp only [Prod.mk.injEq] at h
    exact h.1.symm

/-- C16. For every uncancelled export through an export target that does not fail,
`exportData` calls on the target, in this order, `Init` once, `Header` once with the
column list, `AddRange` once per page the provider yields, the i-th call with the
projected rows of page i (as many as the page has records), and `Finalize` once after
the last `AddRange`. -/
theorem export_call_order {Record Row : Type} (args : ExportArgs Record Row)
    (t : List (TargetCall Row) → TargetCall Row → Except String Unit)
    (outcome : ExportOutcome Row)
    (htarget : args.target = some t) (hcancel : ∀ i, args.cancelled i = false)
    (hresult : (exportData args).2 = .ok outcome) :
    ∃ rowss : List (List Row),
      List.Forall₂ (fun page rows => projectPage args.project page = .ok rows)
        args.pages rowss ∧
      rowss.map List.length = args.pages.map List.length ∧
      (exportData args).1
        = [TargetCall.Init args.filename,
            TargetCall.Header (if args.includeEtag then ["etag"] ++ args.fields
              else args.fields)]
          ++ rowss.map TargetCall.AddRange ++ [TargetCall.Finalize] := by
  unfold exportData at hresult ⊢
  by_cases hfmt : args.format = "csv" ∨ args.format = "json" ∨ args.format = "xlsx"
  · simp only [hfmt, if_true] at hresult ⊢
    cases hmeta : args.getEntity with
    | error e =>
      rw [hmeta] at hresult
      cases hresult
    | ok meta =>
      simp only [hmeta, htarget] at hresult ⊢
      generalize hI : callTarget (some t) [] (TargetCall.Init args.filename) = rI
        at hresult ⊢
      obtain ⟨calls1, e1⟩ := rI
      have hc1 := callTarget_calls t _ _ _ _ hI
      cases e1 with
      | some e => cases hresult
      | none =>
        simp only at hresult ⊢
        generalize hH : callTarget (some t) calls1 (TargetCall.Header
          (if args.includeEtag then ["etag"] ++ args.fields else args.fields)) = rH
          at hresult ⊢
        obtain ⟨calls2, e2⟩ := rH
        have hc2 := callTarget_calls t _ _ _ _ hH
        cases e2 with
        | some e => cases hresult
        | none =>
          simp only at hresult ⊢
          generalize hloop : exportPages args 0 args.pages calls2 [] = r at hresult ⊢
          obtain ⟨calls3, results, exit⟩ := r
          have hexit : ∀ e, exit ≠ .thrown e := by
            intro e he
            subst he
            cases hresult
          obtain ⟨rowss, hall, hcalls⟩ :=
            exportPages_calls args t htarget hcancel args.pages 0 _ _ _ _ _ hloop hexit
          refine ⟨rowss, hall, projectPages_lengths _ _ _ hall, ?_⟩
          have hfin : ∀ (calls4 : List (TargetCall Row)) (e4 : Option String),
              callTarget (some t) calls3 TargetCall.Finalize = (calls4, e4) →
              calls4 = [TargetCall.Init args.filename,
                TargetCall.Header (if args.includeEtag then ["etag"] ++ args.fields
                  else args.fields)]
                ++ rowss.map TargetCall.AddRange ++ [TargetCall.Finalize] := by
            intro calls4 e4 hF
            rw [callTarget_calls t _ _ _ _ hF, hcalls, hc2, hc1]
            simp
          cases exit with
          | thrown e => exact absurd rfl (hexit e)
          | exhausted =>
            simp only at hresult ⊢
            generalize hF : callTarget (some t) calls3 TargetCall.Finalize = rF at hresult ⊢
            obtain ⟨calls4, e4⟩ := rF
            cases e4 with
            | some e => cases hresult
            | none =>
              simp only
              split <;> exact hfin _ _ hF
          | cancelled =>
            simp only at hresult ⊢
            generalize hF : callTarget (some t) calls3 TargetCall.Finalize = rF at hresult ⊢
            obtain ⟨calls4, e4⟩ := rF
            cases e4 with
            | some e => cases hresult
            | none =>
              simp only
              split <;> exact hfin _ _ hF
  · simp only [hfmt, if_false] at hresult
    cases hresult

set_option maxRecDepth 100000 in
/-- Witness of C16: 1,250 rows delivered in pages of 500 give `Init`, `Header`,
`AddRange(500)`, `AddRange(500)`, `AddRange(250)`, `Finalize`. -/
theorem export_call_order_witness :
    (exportData exportThreePages).1.map TargetCall.shape
        = [("Init", 0), ("Header", 0), ("AddRange", 500), ("AddRange", 500),
            ("AddRange", 250), ("Finalize", 0)] ∧
      ∃ rowss : List (List Nat),
        List.Forall₂ (fun page rows => projectPage exportThreePages.project page = .ok rows)
          exportThreePages.pages rowss ∧
        rowss.map List.length = exportThreePages.pages.map List.length ∧
        (exportData exportThreePages).1
          = [TargetCall.Init exportThreePages.filename,
              TargetCall.Header (if exportThreePages.includeEtag
                then ["etag"] ++ exportThreePages.fields else exportThreePages.fields)]
            ++ rowss.map TargetCall.AddRange ++ [TargetCall.Finalize] :=
  ⟨by decide,
    export_call_order exportThreePages (fun _ _ => .ok ())
      (.finished []) rfl (fun _ => rfl) (by rfl)⟩

/-! ## Streaming parser -/

theorem batches_append {R : Type} (xs ys : List (WorkerMsg R)) :
    batches (xs ++ ys) = batches xs ++ batches ys := by
  induction xs with
  | nil => rfl
  | cons x xs ih =>
    cases x with
    | results page => simp [batches, ih]
    | done steps => simp [batches, ih]

theorem batchCount_append {R : Type} (xs ys : List (WorkerMsg R)) :
    batchCount (xs ++ ys) = batchCount xs + batchCount ys := by
  simp [batchCount, batches_append]

theorem batchCount_le_length {R : Type} (xs : List (WorkerMsg R)) :
    batchCount xs ≤ xs.length := by
  induction xs with
  | nil => simp [batchCount, batches]
  | cons x xs ih =>
    cases x with
    | results page => simp [batchCount, batches] at ih ⊢; omega
    | done steps => simp [batchCount, batches] at ih ⊢; omega

/-- The start state of the protocol satisfies the invariant. -/
theorem Stream.Inv_start {R : Type} (input : List R) (workerStepSize : Option Nat) :
    (parseInWorker input workerStepSize).Inv := by
  constructor <;> simp [parseInWorker, batchCount, batches]

/-- Every event of the protocol keeps the invariant. -/
theorem Stream.Inv_step {R : Type} (s s1 : Stream R) (hinv : s.Inv) (hstep : Stream.Step s s1) :
    s1.Inv := by
  have hcount := hinv.count
  cases hstep with
  | parseStep result rest hp hc hin =>
    obtain ⟨hq, hpend, hw, hab⟩ := hinv.running hc hp
    by_cases hfull : (s.worker.page ++ [result]).length = s.worker.pageSize
    · have e : s.worker.step result rest =
          ({ s.worker with input := rest, page := [], steps := s.worker.steps + 1, paused := true,
                           resumeParser := true, abortParser := true },
            [.results (s.worker.page ++ [result])]) := by
        simp only [StreamWorker.step, if_pos hfull]
      rw [e]
      refine ⟨?_, hinv.answers, ?_, ?_, ?_⟩
      · dsimp only
        simp only [batchCount_append]
        simp only [batchCount, batches, List.length_singleton, List.length_nil] at hcount ⊢
        omega
      · intro _ h
        cases h
      · intro _ _
        dsimp only
        refine ⟨rfl, rfl, rfl, ?_, ?_, fun _ => hab, ?_⟩
        · rw [hq, hpend, hw]
          rfl
        · rw [hq]
          rfl
        · intro signal rest1 h
          rw [hw] at h
          cases h
      · intro h
        dsimp only at h
        rw [hc] at h
        cases h
    · have e : s.worker.step result rest =
          ({ s.worker with input := rest, page := s.worker.page ++ [result],
                           steps := s.worker.steps + 1 }, []) := by
        simp only [StreamWorker.step, if_neg hfull]
      rw [e]
      refine ⟨?_, hinv.answers, ?_, ?_, ?_⟩
      · dsimp only
        rw [List.append_nil, List.append_nil]
        exact hcount
      · intro _ _
        dsimp only
        rw [List.append_nil]
        exact ⟨hq, hpend, hw, hab⟩
      · intro _ h
        dsimp only at h
        rw [hp] at h
        cases h
      · intro h
        dsimp only at h
        rw [hc] at h
        cases h
  | parseComplete hp hc hin =>
    obtain ⟨hq, hpend, hw, hab⟩ := hinv.running hc hp
    refine ⟨?_, hinv.answers, ?_, ?_, ?_⟩
    · dsimp only [StreamWorker.complete]
      simp only [batchCount_append]
      omega
    · intro h
      cases h
    · intro h
      cases h
    · intro _
      dsimp only [StreamWorker.complete]
      rw [hq, hpend, List.nil_append, batchCount_append]
      by_cases h0 : s.worker.page.length ≠ 0
      · rw [if_pos h0]
        simp [batchCount, batches]
      · rw [if_neg h0]
        simp [batchCount, batches]
  | workerReceives signal rest hc hq =>
    cases hpaused : s.worker.paused with
    | false =>
      obtain ⟨_, _, hw, _⟩ := hinv.running hc hpaused
      rw [hw] at hq
      cases hq
    | true =>
      obtain ⟨hpage, hres, habt, hone, hlen, _, hlast⟩ := hinv.paused hc hpaused
      obtain ⟨before, hsig, hbefore⟩ := hlast signal rest hq
      rw [hq] at hone
      simp only [List.length_cons] at hone
      have hq0 : batchCount s.toController = 0 := by omega
      have hp0 : s.controller.pending = 0 := by omega
      have hrest : rest = [] := List.length_eq_zero.mp (by omega)
      have hnil : s.toController = [] := List.length_eq_zero.mp (by omega)
      cases signal with
      | resume =>
        have e : s.worker.onmessage .resume = ({ s.worker with paused := false }, []) := by
          simp only [StreamWorker.onmessage, hres, if_true]
        rw [e]
        refine ⟨?_, hinv.answers, ?_, ?_, ?_⟩
        · dsimp only
          rw [List.append_nil, List.append_nil]
          exact hcount
        · intro _ _
          dsimp only
          rw [List.append_nil]
          refine ⟨hnil, hp0, hrest, ?_⟩
          rw [hsig]
          simp only [List.mem_append, List.mem_singleton, not_or]
          exact ⟨hbefore, by decide⟩
        · intro _ h
          cases h
        · intro h
          dsimp only at h
          rw [hc] at h
          cases h
      | abort =>
        have e : s.worker.onmessage .abort =
            ({ s.worker with closed := true }, [.done s.worker.steps]) := by
          simp only [StreamWorker.onmessage, habt, if_true, StreamWorker.complete, hpage,
            List.length_nil, ne_eq, not_true_eq_false, if_false, List.nil_append]
        rw [e]
        refine ⟨?_, hinv.answers, ?_, ?_, ?_⟩
        · dsimp only
          simp only [batchCount_append]
          simp only [batchCount, batches, List.length_nil] at hcount ⊢
          omega
        · intro h
          cases h
        · intro h
          cases h
        · intro _
          dsimp only
          rw [batchCount_append, hq0, hp0]
          simp [batchCount, batches]
  | workerClosed signal rest hc hq =>
    refine ⟨hcount, hinv.answers, ?_, ?_, hinv.closed⟩
    · intro h
      dsimp only at h
      rw [hc] at h
      cases h
    · intro h
      dsimp only at h
      rw [hc] at h
      cases h
  | controllerReceives msg rest response hq =>
    have hsplit : batchCount s.toController = batchCount [msg] + batchCount rest := by
      rw [hq]
      exact batchCount_append [msg] rest
    cases msg with
    | done steps =>
      have e : s.controller.onmessage response (WorkerMsg.done (R := R) steps) =
          ({ s.controller with resolved := some steps }, []) := rfl
      have h0 : batchCount [WorkerMsg.done (R := R) steps] = 0 := rfl
      rw [e]
      refine ⟨?_, ?_, ?_, ?_, ?_⟩
      · dsimp only
        rw [List.append_nil]
        omega
      · dsimp only
        rw [List.append_nil]
        exact hinv.answers
      · intro hc hp
        obtain ⟨hnil, _⟩ := hinv.running hc hp
        rw [hnil] at hq
        cases hq
      · intro hc hp
        obtain ⟨_, _, _, _, hlen, _⟩ := hinv.paused hc hp
        rw [hq] at hlen
        have := batchCount_le_length rest
        have e2 : batchCount (WorkerMsg.done steps :: rest) = batchCount rest := rfl
        rw [e2, List.length_cons] at hlen
        omega
      · intro hc
        have := hinv.closed hc
        dsimp only
        omega
    | results page =>
      have h1 : batchCount [WorkerMsg.results page] = 1 := rfl
      have hclosed : s.worker.closed = true → batchCount rest + s.controller.pending = 0 := by
        intro hc
        have := hinv.closed hc
        omega
      have hpaused : s.worker.closed = false → s.worker.paused = true →
          rest = [] ∧ s.controller.pending = 0 ∧ s.toWorker = [] ∧ Signal.abort ∉ s.signals ∧
          s.worker.page = [] ∧ s.worker.resumeParser = true ∧ s.worker.abortParser = true := by
        intro hc hp
        obtain ⟨hpage, hres, habt, hone, hlen, hno, _⟩ := hinv.paused hc hp
        have hb := batchCount_le_length rest
        rw [hsplit, h1] at hone
        rw [hsplit, h1, hq, List.length_cons] at hlen
        have hw : s.toWorker = [] := List.length_eq_zero.mp (by omega)
        exact ⟨List.length_eq_zero.mp (by omega), by omega, hw, hno hw, hpage, hres, habt⟩
      have hrunning : s.worker.closed = false → s.worker.paused = false → False := by
        intro hc hp
        obtain ⟨hnil, _⟩ := hinv.running hc hp
        rw [hnil] at hq
        cases hq
      cases response with
      | returned =>
        have e : s.controller.onmessage .returned (WorkerMsg.results page) =
            ({ s.controller with outcomes := s.controller.outcomes ++ [true] },
              [.resume]) := rfl
        rw [e]
        refine ⟨?_, ?_, ?_, ?_, ?_⟩
        · dsimp only
          rw [List.length_append, List.length_singleton]
          omega
        · dsimp only
          rw [List.map_append, hinv.answers]
          rfl
        · intro hc hp
          exact (hrunning hc hp).elim
        · intro hc hp
          obtain ⟨hrest, hp0, hw, hno, hpage, hres, habt⟩ := hpaused hc hp
          dsimp only
          refine ⟨hpage, hres, habt, ?_, ?_, ?_, ?_⟩
          · rw [hrest, hp0, hw]
            rfl
          · rw [hrest]
            rfl
          · intro h
            rw [hw] at h
            cases h
          · intro signal rest1 h
            rw [hw] at h
            cases h
            exact ⟨s.signals, rfl, hno⟩
        · intro hc
          have := hclosed hc
          dsimp only
          omega
      | threw =>
        have e : s.controller.onmessage .threw (WorkerMsg.results page) =
            ({ s.controller with outcomes := s.controller.outcomes ++ [false] },
              [.abort]) := rfl
        rw [e]
        refine ⟨?_, ?_, ?_, ?_, ?_⟩
        · dsimp only
          rw [List.length_append, List.length_singleton]
          omega
        · dsimp only
          rw [List.map_append, hinv.answers]
          rfl
        · intro hc hp
          exact (hrunning hc hp).elim
        · intro hc hp
          obtain ⟨hrest, hp0, hw, hno, hpage, hres, habt⟩ := hpaused hc hp
          dsimp only
          refine ⟨hpage, hres, habt, ?_, ?_, ?_, ?_⟩
          · rw [hrest, hp0, hw]
            rfl
          · rw [hrest]
            rfl
          · intro h
            rw [hw] at h
            cases h
          · intro signal rest1 h
            rw [hw] at h
            cases h
            exact ⟨s.signals, rfl, hno⟩
        · intro hc
          have := hclosed hc
          dsimp only
          omega
      | promise =>
        have e : s.controller.onmessage .promise (WorkerMsg.results page) =
            ({ s.controller with pending := s.controller.pending + 1 }, []) := rfl
        rw [e]
        refine ⟨?_, ?_, ?_, ?_, ?_⟩
        · dsimp only
          rw [List.append_nil]
          omega
        · dsimp only
          rw [List.append_nil]
          exact hinv.answers
        · intro hc hp
          exact (hrunning hc hp).elim
        · intro hc hp
          obtain ⟨hrest, hp0, hw, hno, hpage, hres, habt⟩ := hpaused hc hp
          dsimp only
          rw [List.append_nil, List.append_nil]
          refine ⟨hpage, hres, habt, ?_, ?_, fun _ => hno, ?_⟩
          · rw [hrest, hp0, hw]
            rfl
          · rw [hrest]
            rfl
          · intro signal rest1 h
            rw [hw] at h
            cases h
        · intro hc
          have := hclosed hc
          dsimp only
          omega
  | promiseSettles fulfilled hpend =>
    have e : s.controller.settle fulfilled =
        ({ s.controller with pending := s.controller.pending - 1,
                             outcomes := s.controller.outcomes ++ [fulfilled] },
          [signalOf fulfilled]) := rfl
    rw [e]
    refine ⟨?_, ?_, ?_, ?_, ?_⟩
    · dsimp only
      rw [List.length_append, List.length_singleton]
      omega
    · dsimp only
      rw [List.map_append, hinv.answers]
      rfl
    · intro hc hp
      obtain ⟨_, h0, _⟩ := hinv.running hc hp
      omega
    · intro hc hp
      obtain ⟨hpage, hres, habt, hone, hlen, hno, _⟩ := hinv.paused hc hp
      have hw : s.toWorker = [] := List.length_eq_zero.mp (by omega)
      dsimp only
      refine ⟨hpage, hres, habt, ?_, hlen, ?_, ?_⟩
      · rw [hw]
        simp only [List.nil_append, List.length_singleton]
        omega
      · intro h
        rw [hw] at h
        cases h
      · intro signal rest1 h
        rw [hw] at h
        cases h
        exact ⟨s.signals, rfl, hno hw⟩
    · intro hc
      have := hinv.closed hc
      dsimp only
      omega

/-- Every state a run of the protocol reaches satisfies the invariant. -/
theorem Stream.Reachable_inv {R : Type} (input : List R) (workerStepSize : Option Nat)
    (s : Stream R) (h : Stream.Reachable input workerStepSize s) : s.Inv := by
  induction h with
  | start => exact Stream.Inv_start input workerStepSize
  | next s s1 _ hstep ih => exact Stream.Inv_step s s1 ih hstep

/-- The start state of the protocol satisfies the invariant on the messages. -/
theorem Stream.Paging_start {R : Type} (input : List R) (workerStepSize : Option Nat) :
    (parseInWorker input workerStepSize).Paging input workerStepSize := by
  refine ⟨rfl, ?_, ?_⟩
  · intro _
    exact ⟨rfl, rfl, by simp [parseInWorker]⟩
  · intro h
    cases h

/-- Every event of the protocol keeps the invariant on the messages. -/
theorem Stream.Paging_step {R : Type} (input : List R) (workerStepSize : Option Nat)
    (s s1 : Stream R) (hinv : s.Inv) (hpg : s.Paging input workerStepSize)
    (hstep : Stream.Step s s1) : s1.Paging input workerStepSize := by
  cases hstep with
  | parseStep result rest hp hc hin =>
    obtain ⟨hpages, hposted, hsteps⟩ := hpg.running hc
    rw [hin] at hpages hsteps
    by_cases hfull : (s.worker.page ++ [result]).length = s.worker.pageSize
    · have e : s.worker.step result rest =
          ({ s.worker with input := rest, page := [], steps := s.worker.steps + 1, paused := true,
                           resumeParser := true, abortParser := true },
            [.results (s.worker.page ++ [result])]) := by
        simp only [StreamWorker.step, if_pos hfull]
      rw [e]
      refine ⟨hpg.size, ?_, ?_⟩
      · intro _
        dsimp only
        simp only [ArrayReader.ReadAllLoop, if_pos hfull] at hpages
        refine ⟨?_, ?_, ?_⟩
        · rw [batches_append, List.append_assoc]
          exact hpages
        · rw [batches_append, List.map_append, ← hposted]
          rfl
        · rw [List.length_cons] at hsteps
          omega
      · intro h
        dsimp only at h
        rw [hc] at h
        cases h
    · have e : s.worker.step result rest =
          ({ s.worker with input := rest, page := s.worker.page ++ [result],
                           steps := s.worker.steps + 1 }, []) := by
        simp only [StreamWorker.step, if_neg hfull]
      rw [e]
      refine ⟨hpg.size, ?_, ?_⟩
      · intro _
        dsimp only
        simp only [ArrayReader.ReadAllLoop, if_neg hfull] at hpages
        rw [List.append_nil]
        refine ⟨hpages, hposted, ?_⟩
        rw [List.length_cons] at hsteps
        omega
      · intro h
        dsimp only at h
        rw [hc] at h
        cases h
  | parseComplete hp hc hin =>
    obtain ⟨hpages, hposted, hsteps⟩ := hpg.running hc
    rw [hin] at hpages hsteps
    refine ⟨hpg.size, ?_, ?_⟩
    · intro h
      cases h
    · intro _ _
      dsimp only [StreamWorker.complete]
      rw [List.length_nil, Nat.add_zero] at hsteps
      refine ⟨?_, hsteps⟩
      rw [← hpages, hsteps, List.map_append, ← hposted, ← List.append_assoc]
      by_cases h0 : s.worker.page.length ≠ 0
      · have h1 : s.worker.page.length > 0 := by omega
        simp only [ArrayReader.ReadAllLoop, if_pos h0, if_pos h1, List.map_cons, List.map_nil]
      · have h1 : ¬ s.worker.page.length > 0 := by omega
        simp only [ArrayReader.ReadAllLoop, if_neg h0, if_neg h1, List.map_nil]
  | workerReceives signal rest hc hq =>
    cases hpaused : s.worker.paused with
    | false =>
      obtain ⟨_, _, hw, _⟩ := hinv.running hc hpaused
      rw [hw] at hq
      cases hq
    | true =>
      obtain ⟨hpage, hres, habt, _, _, _, hlast⟩ := hinv.paused hc hpaused
      obtain ⟨before, hsig, _⟩ := hlast signal rest hq
      cases signal with
      | resume =>
        have e : s.worker.onmessage .resume = ({ s.worker with paused := false }, []) := by
          simp only [StreamWorker.onmessage, hres, if_true]
        rw [e]
        refine ⟨hpg.size, ?_, ?_⟩
        · intro _
          dsimp only
          rw [List.append_nil]
          exact hpg.running hc
        · intro h
          dsimp only at h
          rw [hc] at h
          cases h
      | abort =>
        refine ⟨?_, ?_, ?_⟩
        · simp only [StreamWorker.onmessage, habt, if_true, StreamWorker.complete]
          exact hpg.size
        · intro h
          simp only [StreamWorker.onmessage, habt, if_true, StreamWorker.complete] at h
          cases h
        · intro _ hno
          dsimp only at hno
          rw [hsig] at hno
          simp at hno
  | workerClosed signal rest hc hq =>
    exact ⟨hpg.size, hpg.running, hpg.closed⟩
  | controllerReceives msg rest response hq =>
    refine ⟨hpg.size, hpg.running, ?_⟩
    intro hc hno
    dsimp only at hno
    exact hpg.closed hc (fun h => hno (List.mem_append_left _ h))
  | promiseSettles fulfilled hpend =>
    refine ⟨hpg.size, hpg.running, ?_⟩
    intro hc hno
    dsimp only at hno
    exact hpg.closed hc (fun h => hno (List.mem_append_left _ h))

/-- Every state a run of the protocol reaches satisfies the invariant on the messages. -/
theorem Stream.Reachable_paging {R : Type} (input : List R) (workerStepSize : Option Nat)
    (s : Stream R) (h : Stream.Reachable input workerStepSize s) :
    s.Paging input workerStepSize := by
  induction h with
  | start => exact Stream.Paging_start input workerStepSize
  | next s s1 hs hstep ih =>
    exact Stream.Paging_step input workerStepSize s s1
      (Stream.Reachable_inv input workerStepSize s hs) ih hstep

/-- From a state in which the parser runs and nothing waits, the protocol can run to
its end with a controller whose `step` callback returns after every micro-batch. -/
theorem Stream.Reachable_complete {R : Type} (input : List R) (workerStepSize : Option Nat) :
    ∀ (rest : List R) (s : Stream R), Stream.Reachable input workerStepSize s →
      s.worker.input = rest → s.worker.closed = false → s.worker.paused = false →
      s.toController = [] → s.toWorker = [] → Signal.abort ∉ s.signals →
      ∃ s1, Stream.Reachable input workerStepSize s1 ∧ s1.worker.closed = true ∧
        Signal.abort ∉ s1.signals ∧ s1.toController = [] ∧ s1.toWorker = [] ∧
        s1.controller.resolved = some s1.worker.steps := by
  intro rest
  induction rest with
  | nil =>
    intro s hs hin hc hp hq hw hno
    have r1 := Stream.Reachable.next _ _ hs (Stream.Step.parseComplete s hp hc hin)
    by_cases h0 : s.worker.page.length ≠ 0
    · have r2 := Stream.Reachable.next _ _ r1
        (Stream.Step.controllerReceives _ (.results s.worker.page) [.done s.worker.steps]
          .returned (by simp [StreamWorker.complete, hq, h0]))
      have r3 := Stream.Reachable.next _ _ r2
        (Stream.Step.controllerReceives _ (.done s.worker.steps) [] .returned rfl)
      have r4 := Stream.Reachable.next _ _ r3
        (Stream.Step.workerClosed _ .resume [] rfl (by simp [Controller.onmessage, hw]))
      refine ⟨_, r4, rfl, ?_, rfl, rfl, rfl⟩
      simp [Controller.onmessage, hno]
    · have r2 := Stream.Reachable.next _ _ r1
        (Stream.Step.controllerReceives _ (.done s.worker.steps) [] .returned
          (by simp [StreamWorker.complete, hq, h0]))
      refine ⟨_, r2, rfl, ?_, rfl, ?_, rfl⟩
      · simp [Controller.onmessage, hno]
      · simp [Controller.onmessage, hw]
  | cons result rest ih =>
    intro s hs hin hc hp hq hw hno
    have r1 := Stream.Reachable.next _ _ hs (Stream.Step.parseStep s result rest hp hc hin)
    by_cases hfull : (s.worker.page ++ [result]).length = s.worker.pageSize
    · have e : s.worker.step result rest =
          ({ s.worker with input := rest, page := [], steps := s.worker.steps + 1, paused := true,
                           resumeParser := true, abortParser := true },
            [.results (s.worker.page ++ [result])]) := by
        simp only [StreamWorker.step, if_pos hfull]
      rw [e] at r1
      have r2 := Stream.Reachable.next _ _ r1
        (Stream.Step.controllerReceives _ (.results (s.worker.page ++ [result])) []
          .returned (by simp [hq]))
      have r3 := Stream.Reachable.next _ _ r2
        (Stream.Step.workerReceives _ .resume [] hc (by simp [Controller.onmessage, hw]))
      refine ih _ r3 rfl hc rfl rfl rfl ?_
      simp [Controller.onmessage, hno]
    · have e : s.worker.step result rest =
          ({ s.worker with input := rest, page := s.worker.page ++ [result],
                           steps := s.worker.steps + 1 }, []) := by
        simp only [StreamWorker.step, if_neg hfull]
      rw [e] at r1
      refine ih _ r1 rfl hc hp ?_ hw hno
      simp [hq]

theorem not_abort_mem_iff (signals : List Signal) :
    Signal.abort ∉ signals ↔ signals = List.replicate signals.length Signal.resume := by
  induction signals with
  | nil => simp
  | cons x xs ih =>
    cases x with
    | resume =>
      simp only [List.mem_cons, not_or, List.length_cons, List.replicate_succ, List.cons.injEq,
        true_and]
      rw [← ih]
      simp
    | abort => simp [List.replicate_succ]

/-- An event of the protocol posts at most one micro-batch, and it posts one only while
the parser runs. -/
theorem Stream.Step_emits {R : Type} (s s1 : Stream R) (hinv : s.Inv)
    (hstep : Stream.Step s s1) :
    batchCount s1.posted = batchCount s.posted ∨
      (batchCount s1.posted = batchCount s.posted + 1 ∧ s.worker.closed = false ∧
        s.worker.paused = false) := by
  cases hstep with
  | parseStep result rest hp hc hin =>
    by_cases hfull : (s.worker.page ++ [result]).length = s.worker.pageSize
    · right
      simp only [StreamWorker.step, if_pos hfull, batchCount_append]
      exact ⟨rfl, hc, hp⟩
    · left
      simp only [StreamWorker.step, if_neg hfull, List.append_nil]
  | parseComplete hp hc hin =>
    by_cases h0 : s.worker.page.length ≠ 0
    · right
      simp only [StreamWorker.complete, if_pos h0, batchCount_append]
      exact ⟨rfl, hc, hp⟩
    · left
      simp only [StreamWorker.complete, if_neg h0, batchCount_append]
      rfl
  | workerReceives signal rest hc hq =>
    left
    cases hpaused : s.worker.paused with
    | false =>
      obtain ⟨_, _, hw, _⟩ := hinv.running hc hpaused
      rw [hw] at hq
      cases hq
    | true =>
      obtain ⟨hpage, hres, habt, _⟩ := hinv.paused hc hpaused
      cases signal with
      | resume => simp only [StreamWorker.onmessage, hres, if_true, List.append_nil]
      | abort =>
        simp only [StreamWorker.onmessage, habt, if_true, StreamWorker.complete, hpage,
          List.length_nil, ne_eq, not_true_eq_false, if_false, List.nil_append, batchCount_append]
        rfl
  | workerClosed signal rest hc hq => exact Or.inl rfl
  | controllerReceives msg rest response hq => exact Or.inl rfl
  | promiseSettles fulfilled hpend => exact Or.inl rfl

/-- C15. In every state a run of the worker and controller protocol reaches, at most
one micro-batch posted by the worker is not answered by a signal of the controller;
every micro-batch posted is waiting for the controller, being processed, or answered
by exactly one signal, which is resume when the processing succeeded and abort when
it failed; an event posts a micro-batch only when every earlier micro-batch was
answered by a resume that the worker has received; and once an abort is sent no event
posts a micro-batch. -/
theorem parser_backpressure {R : Type} (input : List R) (workerStepSize : Option Nat)
    (s : Stream R) (h : Stream.Reachable input workerStepSize s) :
    batchCount s.posted ≤ s.signals.length + 1 ∧
      batchCount s.posted =
        batchCount s.toController + s.controller.pending + s.signals.length ∧
      s.signals = s.controller.outcomes.map signalOf ∧
      (∀ s1, Stream.Step s s1 → batchCount s.posted < batchCount s1.posted →
        s.signals = List.replicate (batchCount s.posted) Signal.resume ∧ s.toWorker = []) ∧
      (Signal.abort ∈ s.signals →
        ∀ s1, Stream.Step s s1 → batchCount s1.posted = batchCount s.posted) := by
  have hinv := Stream.Reachable_inv input workerStepSize s h
  have hcount := hinv.count
  refine ⟨?_, hcount, hinv.answers, ?_, ?_⟩
  · cases hc : s.worker.closed with
    | true =>
      have := hinv.closed hc
      omega
    | false =>
      cases hp : s.worker.paused with
      | true =>
        obtain ⟨_, _, _, hone, _⟩ := hinv.paused hc hp
        omega
      | false =>
        obtain ⟨hq, hpend, _, _⟩ := hinv.running hc hp
        rw [hq, hpend] at hcount
        simp only [batchCount, batches, List.length_nil] at hcount ⊢
        omega
  · intro s1 hstep hlt
    rcases Stream.Step_emits s s1 hinv hstep with heq | ⟨_, hc, hp⟩
    · omega
    · obtain ⟨hq, hpend, hw, hno⟩ := hinv.running hc hp
      refine ⟨?_, hw⟩
      rw [hq, hpend] at hcount
      have hB : batchCount s.posted = s.signals.length := by
        simp only [batchCount, batches, List.length_nil] at hcount ⊢
        omega
      rw [hB]
      exact (not_abort_mem_iff s.signals).mp hno
  · intro hab s1 hstep
    rcases Stream.Step_emits s s1 hinv hstep with heq | ⟨_, hc, hp⟩
    · exact heq
    · exact ((hinv.running hc hp).2.2.2 hab).elim

/-- Witness of C15: results `[1, 2, 3]` in micro-batches of two, after the first
micro-batch was posted. -/
theorem parser_backpressure_witness :
    Stream.Reachable [1, 2, 3] (some 2) streamFirstBatch ∧
      batchCount streamFirstBatch.posted ≤ streamFirstBatch.signals.length + 1 ∧
      batchCount streamFirstBatch.posted = 1 ∧ streamFirstBatch.signals = [] :=
  have hreach : Stream.Reachable [1, 2, 3] (some 2) streamFirstBatch :=
    Stream.Reachable.next _ _
      (Stream.Reachable.next _ _ Stream.Reachable.start
        (Stream.Step.parseStep (parseInWorker [1, 2, 3] (some 2)) 1 [2, 3] rfl rfl rfl))
      (Stream.Step.parseStep _ 2 [3] rfl rfl rfl)
  ⟨hreach, (parser_backpressure [1, 2, 3] (some 2) streamFirstBatch hreach).1, rfl, rfl⟩

theorem flatten_length_of_forall {α : Type} (k : Nat) (pages : List (List α))
    (h : ∀ p ∈ pages, p.length = k) : pages.flatten.length = pages.length * k := by
  induction pages with
  | nil => simp
  | cons p ps ih =>
    have hp : p.length = k := h p (List.mem_cons_self _ _)
    have hps := ih (fun q hq => h q (List.mem_cons_of_mem _ hq))
    rw [List.flatten_cons, List.length_append, hps, hp, List.length_cons, Nat.succ_mul]
    omega

/-- When all pages but the last hold `k` items, the last holds between 1 and `k`, and
the number of items is no multiple of `k`, the last page holds the remainder. -/
theorem last_page_length {α : Type} (k : Nat) (pages : List (List α))
    (hfull : ∀ p ∈ pages.dropLast, p.length = k)
    (hlast : ∀ p ∈ pages.getLast?, 1 ≤ p.length ∧ p.length ≤ k)
    (hrem : pages.flatten.length % k ≠ 0) :
    ∀ p ∈ pages.getLast?, p.length = pages.flatten.length % k := by
  intro p hp
  have hsplit := List.dropLast_append_getLast? p hp
  obtain ⟨h1, h2⟩ := hlast p hp
  obtain ⟨pre, hpre⟩ : ∃ pre, pages = pre ++ [p] := ⟨pages.dropLast, hsplit.symm⟩
  subst hpre
  rw [List.dropLast_concat] at hfull
  have htotal : (pre ++ [p]).flatten.length = k * pre.length + p.length := by
    rw [List.flatten_append, List.length_append, flatten_length_of_forall k pre hfull,
      Nat.mul_comm]
    simp
  rw [htotal] at hrem ⊢
  rw [Nat.mul_add_mod] at hrem ⊢
  by_cases hk : p.length = k
  · rw [hk, Nat.mod_self] at hrem
    exact (hrem rfl).elim
  · exact (Nat.mod_eq_of_lt (by omega)).symm

/-- C14. For results `input` and a micro-batch size `s ≥ 1`, which is 500 when none is
configured, there are micro-batches whose concatenation is `input`, all but the last
of `s` results, the last of between 1 and `s` results and of the remainder of the
number of results by `s` when that is not zero, such that: a run of the protocol in
which the controller resumes after every micro-batch closes the worker and resolves
with `steps` the number of results; and in every run in which no abort is sent the
messages of the worker are the beginning of these micro-batches followed by one
completion message with `steps` the number of results, and are all of them once the
worker is closed. -/
theorem parser_micro_batches {R : Type} (input : List R) (workerStepSize : Option Nat)
    (hs : 1 ≤ workerStepSize.getD 500) :
    (parseInWorker input workerStepSize).worker.pageSize = workerStepSize.getD 500 ∧
    ∃ pages : List (List R),
      pages.flatten = input ∧
      (∀ p ∈ pages.dropLast, p.length = workerStepSize.getD 500) ∧
      (∀ p ∈ pages.getLast?, 1 ≤ p.length ∧ p.length ≤ workerStepSize.getD 500) ∧
      (input.length % workerStepSize.getD 500 ≠ 0 →
        ∀ p ∈ pages.getLast?, p.length = input.length % workerStepSize.getD 500) ∧
      (∃ s, Stream.Reachable input workerStepSize s ∧ s.worker.closed = true ∧
        Signal.abort ∉ s.signals ∧ s.toController = [] ∧
        s.controller.resolved = some input.length) ∧
      (∀ s, Stream.Reachable input workerStepSize s → Signal.abort ∉ s.signals →
        (∃ later, s.posted ++ later =
          pages.map WorkerMsg.results ++ [WorkerMsg.done input.length]) ∧
        (s.worker.closed = true →
          s.posted = pages.map WorkerMsg.results ++ [WorkerMsg.done input.length])) := by
  refine ⟨rfl, ArrayReader.ReadAllLoop (workerStepSize.getD 500) input [], ?_⟩
  obtain ⟨h1, h2, h3, _⟩ :=
    ReadAllLoop_pages (workerStepSize.getD 500) hs input [] (by simpa using hs)
  rw [List.nil_append] at h1
  refine ⟨h1, h2, h3, ?_, ?_, ?_⟩
  · intro hrem
    have := last_page_length (workerStepSize.getD 500) _ h2 h3 (by rw [h1]; exact hrem)
    rw [h1] at this
    exact this
  · obtain ⟨s, hreach, hc, hno, hq, _, hres⟩ :=
      Stream.Reachable_complete input workerStepSize input (parseInWorker input workerStepSize)
        Stream.Reachable.start rfl rfl rfl rfl rfl (by simp [parseInWorker])
    refine ⟨s, hreach, hc, hno, hq, ?_⟩
    rw [hres, ((Stream.Reachable_paging input workerStepSize s hreach).closed hc hno).2]
  · intro s hreach hno
    have hpg := Stream.Reachable_paging input workerStepSize s hreach
    have hsize := hpg.size
    constructor
    · cases hc : s.worker.closed with
      | true =>
        refine ⟨[], ?_⟩
        rw [List.append_nil, (hpg.closed hc hno).1, hsize]
      | false =>
        obtain ⟨hpages, hposted, _⟩ := hpg.running hc
        rw [hsize] at hpages
        refine ⟨(ArrayReader.ReadAllLoop (workerStepSize.getD 500) s.worker.input
          s.worker.page).map WorkerMsg.results ++ [WorkerMsg.done input.length], ?_⟩
        rw [← hpages, List.map_append, ← hposted, List.append_assoc]
    · intro hc
      rw [(hpg.closed hc hno).1, hsize]

/-- Witness of C14: seven results in micro-batches of three. -/
theorem parser_micro_batches_witness :
    1 ≤ (some 3 : Option Nat).getD 500 ∧
      ∃ pages : List (List Nat),
        pages.flatten = [1, 2, 3, 4, 5, 6, 7] ∧
        (∃ s, Stream.Reachable [1, 2, 3, 4, 5, 6, 7] (some 3) s ∧ s.worker.closed = true ∧
          s.posted = pages.map WorkerMsg.results ++ [WorkerMsg.done 7]) :=
  ⟨by decide,
    match parser_micro_batches [1, 2, 3, 4, 5, 6, 7] (some 3) (by decide) with
    | ⟨_, pages, hflat, _, _, _, ⟨s, hreach, hc, hno, _⟩, hall⟩ =>
      ⟨pages, hflat, s, hreach, hc, (hall s hreach hno).2 hc⟩⟩

/-! ## Import run -/

theorem successesOf_append {Row P : Type} (xs ys : List (ImportEvent Row P)) :
    successesOf (xs ++ ys) = successesOf xs + successesOf ys := by
  induction xs with
  | nil => simp [successesOf]
  | cons x xs ih =>
    rcases x with (_|_) | (_|_) | ⟨_, (_|_)⟩ | ⟨_, (_|_)⟩ | ⟨_, (_|⟨_, _⟩)⟩ | ⟨_, (_|_)⟩ | _ <;>
      simp [successesOf, ih, Nat.add_assoc]

theorem failuresOf_append {Row P : Type} (xs ys : List (ImportEvent Row P)) :
    failuresOf (xs ++ ys) = failuresOf xs + failuresOf ys := by
  induction xs with
  | nil => simp [failuresOf]
  | cons x xs ih =>
    rcases x with (_|_) | (_|_) | ⟨_, (_|_)⟩ | ⟨_, (_|_)⟩ | ⟨_, (_|⟨_, _⟩)⟩ | ⟨_, (_|_)⟩ | _ <;>
      simp [failuresOf, ih, Nat.add_assoc]

theorem enqueuedOf_append {Row P : Type} (xs ys : List (ImportEvent Row P)) :
    enqueuedOf (xs ++ ys) = enqueuedOf xs + enqueuedOf ys := by
  induction xs with
  | nil => simp [enqueuedOf]
  | cons x xs ih =>
    rcases x with (_|_) | (_|_) | ⟨_, (_|_)⟩ | ⟨_, (_|_)⟩ | ⟨_, (_|⟨_, _⟩)⟩ | ⟨_, (_|_)⟩ | _ <;>
      simp [enqueuedOf, ih, Nat.add_assoc]

theorem eventsAfterCancel_append_of_any {Row P : Type} (xs ys : List (ImportEvent Row P))
    (h : xs.any ImportEvent.isCancel = true) :
    eventsAfterCancel (xs ++ ys) = eventsAfterCancel xs ++ ys := by
  induction xs with
  | nil => simp at h
  | cons x xs ih =>
    cases hx : x.isCancel with
    | true => simp [eventsAfterCancel, List.dropWhile, hx]
    | false =>
      have hxs : xs.any ImportEvent.isCancel = true := by simpa [hx] using h
      have := ih hxs
      simp only [eventsAfterCancel, List.cons_append, List.dropWhile, hx, Bool.not_false] at this ⊢
      exact this

theorem eventsAfterCancel_append_of_not_any {Row P : Type} (xs ys : List (ImportEvent Row P))
    (h : xs.any ImportEvent.isCancel = false) :
    eventsAfterCancel (xs ++ ys) = eventsAfterCancel ys := by
  induction xs with
  | nil => rfl
  | cons x xs ih =>
    have hx : x.isCancel = false := by
      cases hx : x.isCancel with
      | true => simp [hx] at h
      | false => rfl
    have hxs : xs.any ImportEvent.isCancel = false := by simpa [hx] using h
    have := ih hxs
    simp only [eventsAfterCancel, List.cons_append, List.dropWhile, hx, Bool.not_false] at this ⊢
    exact this

theorem eventsAfterCancel_of_not_any {Row P : Type} (xs : List (ImportEvent Row P))
    (h : xs.any ImportEvent.isCancel = false) : eventsAfterCancel xs = [] := by
  have := eventsAfterCancel_append_of_not_any xs [] h
  rw [List.append_nil] at this
  rw [this]
  rfl

/-- A wait appends its event, and the setting of `cancelled` when Cancel is clicked
for the first time; it changes nothing else. -/
theorem ImportRun.await_cases {Row P W : Type} (clicked : Nat → Bool) (r : ImportRun Row P W)
    (e : ImportEvent Row P) :
    (((r.await clicked e).events = r.events ++ [e] ∧
        (r.await clicked e).cancelled = r.cancelled) ∨
      (r.cancelled = false ∧ (r.await clicked e).events = r.events ++ [e] ++ [.cancelSet] ∧
        (r.await clicked e).cancelled = true)) ∧
      (r.await clicked e).counts = r.counts ∧ (r.await clicked e).error = r.error := by
  unfold ImportRun.await
  by_cases h : (clicked r.awaits && !r.cancelled) = true
  · rw [if_pos h]
    refine ⟨Or.inr ⟨?_, ?_, rfl⟩, rfl, rfl⟩
    · cases hr : r.cancelled with
      | false => rfl
      | true => simp [hr] at h
    · simp
  · rw [if_neg h]
    exact ⟨Or.inl ⟨rfl, rfl⟩, rfl, rfl⟩

/-- A wait followed by the update of the counts for its event keeps the invariant;
when `cancelled` was set before, the events after it were none that submits or
transforms and the event is none that submits. -/
theorem ImportRun.Inv_await {Row P W : Type} (c0 : Counts) (clicked : Nat → Bool)
    (r r1 : ImportRun Row P W) (e : ImportEvent Row P) (hinv : r.Inv c0)
    (he : e.isCancel = false)
    (hev : r1.events = (r.await clicked e).events)
    (hc : r1.cancelled = (r.await clicked e).cancelled)
    (hS : r1.counts.Success = r.counts.Success + successesOf [e])
    (hF : r1.counts.Failed = r.counts.Failed + failuresOf [e])
    (hQ : r1.counts.Enqueued = r.counts.Enqueued + enqueuedOf [e])
    (hN : r1.counts.New = r.counts.New ∧ r1.counts.Checked = r.counts.Checked)
    (herr : r1.error = true → r.error = true ∨ e.isFailure = true)
    (hpre : r.cancelled = true → r.Clean ∧ e.isSubmission = false) :
    r1.Inv c0 ∧ (e.isTransform = false → r1.Clean) ∧
      (r.cancelled = false → eventsAfterCancel r1.events = []) := by
  have hsingle : eventsAfterCancel [e] = [] :=
    eventsAfterCancel_of_not_any [e] (by simp [he])
  have hcancel : eventsAfterCancel ([e] ++ [ImportEvent.cancelSet]) = [] := by
    rw [eventsAfterCancel_append_of_not_any [e] _ (by simp [he])]
    rfl
  have hS0 : successesOf [(ImportEvent.cancelSet : ImportEvent Row P)] = 0 := rfl
  have hF0 : failuresOf [(ImportEvent.cancelSet : ImportEvent Row P)] = 0 := rfl
  have hQ0 : enqueuedOf [(ImportEvent.cancelSet : ImportEvent Row P)] = 0 := rfl
  have herror : r1.error = true → ∃ x ∈ r.events ++ [e], x.isFailure = true := by
    intro h
    rcases herr h with h1 | h1
    · obtain ⟨x, hx, hf⟩ := hinv.error h1
      exact ⟨x, List.mem_append_left _ hx, hf⟩
    · exact ⟨e, by simp, h1⟩
  obtain ⟨hcases, _, _⟩ := ImportRun.await_cases clicked r e
  rcases hcases with ⟨hev1, hc1⟩ | ⟨hno, hev1, hc1⟩
  · rw [hev1] at hev
    rw [hc1] at hc
    have hafter : eventsAfterCancel r1.events =
        if r.cancelled = true then eventsAfterCancel r.events ++ [e] else [] := by
      rw [hev]
      cases hflag : r.cancelled with
      | true =>
        rw [eventsAfterCancel_append_of_any _ _ (by rw [← hinv.flag]; exact hflag)]
        rfl
      | false =>
        rw [eventsAfterCancel_append_of_not_any _ _ (by rw [← hinv.flag]; exact hflag), hsingle]
        rfl
    refine ⟨⟨?_, ?_, ?_, ?_, ?_, ?_, ?_, ?_⟩, ?_, ?_⟩
    · rw [hc, hev, hinv.flag]
      simp [he]
    · rw [hS, hev, successesOf_append, hinv.success, Nat.add_assoc]
    · rw [hF, hev, failuresOf_append, hinv.failed, Nat.add_assoc]
    · rw [hQ, hev, enqueuedOf_append, hinv.enqueued, Nat.add_assoc]
    · exact ⟨hN.1.trans hinv.unchanged.1, hN.2.trans hinv.unchanged.2⟩
    · rw [hev]
      exact herror
    · rw [hafter]
      cases hflag : r.cancelled with
      | true =>
        intro x hx
        rw [if_pos rfl] at hx
        rcases List.mem_append.mp hx with hx | hx
        · exact hinv.quiet x hx
        · rw [List.mem_singleton.mp hx]
          exact (hpre hflag).2
      | false =>
        intro x hx
        simp at hx
    · rw [hafter]
      cases hflag : r.cancelled with
      | true =>
        rw [if_pos rfl, List.countP_append]
        have h0 : (eventsAfterCancel r.events).countP ImportEvent.isTransform = 0 := by
          rw [List.countP_eq_zero]
          intro x hx
          rw [((hpre hflag).1 x hx).2]
          simp
        rw [h0]
        have hle : List.countP ImportEvent.isTransform [e] ≤ [e].length :=
          List.countP_le_length _
        simp only [List.length_singleton] at hle
        omega
      | false => simp
    · intro ht x hx
      rw [hafter] at hx
      cases hflag : r.cancelled with
      | true =>
        rw [hflag, if_pos rfl] at hx
        rcases List.mem_append.mp hx with hx | hx
        · exact (hpre hflag).1 x hx
        · rw [List.mem_singleton.mp hx]
          exact ⟨(hpre hflag).2, ht⟩
      | false =>
        rw [hflag] at hx
        simp at hx
    · intro hflag
      rw [hafter, hflag]
      rfl
  · rw [hev1] at hev
    rw [hc1] at hc
    have hafter : eventsAfterCancel r1.events = [] := by
      rw [hev, List.append_assoc,
        eventsAfterCancel_append_of_not_any _ _ (by rw [← hinv.flag]; exact hno), hcancel]
    refine ⟨⟨?_, ?_, ?_, ?_, ?_, ?_, ?_, ?_⟩, ?_, ?_⟩
    · rw [hc, hev]
      simp [ImportEvent.isCancel]
    · rw [hS, hev, successesOf_append, successesOf_append, hinv.success, hS0]
      omega
    · rw [hF, hev, failuresOf_append, failuresOf_append, hinv.failed, hF0]
      omega
    · rw [hQ, hev, enqueuedOf_append, enqueuedOf_append, hinv.enqueued, hQ0]
      omega
    · exact ⟨hN.1.trans hinv.unchanged.1, hN.2.trans hinv.unchanged.2⟩
    · rw [hev]
      intro h
      obtain ⟨x, hx, hf⟩ := herror h
      exact ⟨x, List.mem_append_left _ hx, hf⟩
    · rw [hafter]
      intro x hx
      cases hx
    · rw [hafter]
      simp
    · intro _ x hx
      rw [hafter] at hx
      cases hx
    · intro _
      exact hafter

theorem ImportRun.Clean_of_not_cancelled {Row P W : Type} (c0 : Counts)
    (r : ImportRun Row P W) (hinv : r.Inv c0) (h : r.cancelled = false) : r.Clean := by
  intro x hx
  rw [eventsAfterCancel_of_not_any _ (by rw [← hinv.flag]; exact h)] at hx
  cases hx

/-- The loop over the records of a page keeps the invariant. -/
theorem transformRows_inv {Row P W : Type} (c0 : Counts) (env : ImportEnv Row P W) :
    ∀ (rows : List Row) (pckgs : List P) (r : ImportRun Row P W), r.Inv c0 → r.Clean →
      (transformRows env rows pckgs r).2.Inv c0 := by
  intro rows
  induction rows with
  | nil =>
    intro pckgs r hinv _
    exact hinv
  | cons record rest ih =>
    intro pckgs r hinv hclean
    have hcounts := (ImportRun.await_cases env.clicked r (.transform record true)).2
    have hcounts2 := (ImportRun.await_cases env.clicked r (.transform record false)).2
    unfold transformRows
    rcases h : env.processRecord record r.world with ⟨res, w⟩
    cases res with
    | ok pckg =>
      dsimp only
      have h1 := (ImportRun.Inv_await c0 env.clicked r
        { r.await env.clicked (.transform record true) with world := w }
        (.transform record true) hinv rfl rfl rfl
        (by rw [show successesOf [ImportEvent.transform (P := P) record true] = 0 from rfl,
              Nat.add_zero]; exact congrArg Counts.Success hcounts.1)
        (by rw [show failuresOf [ImportEvent.transform (P := P) record true] = 0 from rfl,
              Nat.add_zero]; exact congrArg Counts.Failed hcounts.1)
        (by rw [show enqueuedOf [ImportEvent.transform (P := P) record true] = 0 from rfl,
              Nat.add_zero]; exact congrArg Counts.Enqueued hcounts.1)
        ⟨congrArg Counts.New hcounts.1, congrArg Counts.Checked hcounts.1⟩
        (fun herr => Or.inl (hcounts.2 ▸ herr))
        (fun _ => ⟨hclean, rfl⟩)).1
      split
      · exact h1
      · rename_i hnot
        exact ih _ _ h1 (ImportRun.Clean_of_not_cancelled c0 _ h1 (by simpa using hnot))
    | error msg =>
      dsimp only
      have h1 := (ImportRun.Inv_await c0 env.clicked r
        ({ r.await env.clicked (.transform record false) with world := w }.failed 1)
        (.transform record false) hinv rfl rfl rfl
        (by simp [ImportRun.failed, successesOf, hcounts2.1])
        (by simp [ImportRun.failed, failuresOf, hcounts2.1])
        (by simp [ImportRun.failed, enqueuedOf, hcounts2.1])
        (by simp [ImportRun.failed, hcounts2.1])
        (fun herr => Or.inl (hcounts2.2 ▸ herr))
        (fun _ => ⟨hclean, rfl⟩)).1
      split
      · exact h1
      · rename_i hnot
        exact ih _ _ h1 (ImportRun.Clean_of_not_cancelled c0 _ h1 (by simpa using hnot))

/-- One `Service.execute` with the update of the counts, started while `cancelled` is
not set, keeps the invariant, and no event follows the setting of `cancelled`. -/
theorem ImportRun.Inv_execute {Row P W : Type} (c0 : Counts) (clicked : Nat → Bool)
    (r : ImportRun Row P W) (pckg : P) (ok : Bool) (hinv : r.Inv c0)
    (hno : r.cancelled = false) :
    (if ok = true then (r.await clicked (.execute pckg ok)).succeeded 1
      else (r.await clicked (.execute pckg ok)).failed 1).Inv c0 ∧
    (if ok = true then (r.await clicked (.execute pckg ok)).succeeded 1
      else (r.await clicked (.execute pckg ok)).failed 1).Clean := by
  have hpre : r.cancelled = true →
      r.Clean ∧ (ImportEvent.execute pckg ok : ImportEvent Row P).isSubmission = false := by
    intro h
    rw [hno] at h
    cases h
  cases ok with
  | true =>
    have hcounts := (ImportRun.await_cases clicked r (.execute pckg true)).2
    have h1 := ImportRun.Inv_await c0 clicked r
      ((r.await clicked (.execute pckg true)).succeeded 1) (.execute pckg true) hinv rfl rfl rfl
      (by simp [ImportRun.succeeded, successesOf, hcounts.1])
      (by simp [ImportRun.succeeded, failuresOf, hcounts.1])
      (by simp [ImportRun.succeeded, enqueuedOf, hcounts.1])
      (by simp [ImportRun.succeeded, hcounts.1])
      (fun herr => Or.inl (hcounts.2 ▸ herr)) hpre
    exact ⟨h1.1, h1.2.1 rfl⟩
  | false =>
    have hcounts := (ImportRun.await_cases clicked r (.execute pckg false)).2
    have h1 := ImportRun.Inv_await c0 clicked r
      ((r.await clicked (.execute pckg false)).failed 1) (.execute pckg false) hinv rfl rfl rfl
      (by simp [ImportRun.failed, successesOf, hcounts.1])
      (by simp [ImportRun.failed, failuresOf, hcounts.1])
      (by simp [ImportRun.failed, enqueuedOf, hcounts.1])
      (by simp [ImportRun.failed, hcounts.1])
      (fun herr => Or.inl (hcounts.2 ▸ herr)) hpre
    exact ⟨h1.1, h1.2.1 rfl⟩

/-- The loop that executes the packages one by one, entered while `cancelled` is not
set, keeps the invariant, and no event follows the setting of `cancelled`. -/
theorem executeAll_inv {Row P W : Type} (c0 : Counts) (env : ImportEnv Row P W) :
    ∀ (pckgs : List P) (r : ImportRun Row P W), r.Inv c0 → r.cancelled = false →
      (executeAll env pckgs r).Inv c0 ∧ (executeAll env pckgs r).Clean := by
  intro pckgs
  induction pckgs with
  | nil =>
    intro r hinv hno
    exact ⟨hinv, ImportRun.Clean_of_not_cancelled c0 r hinv hno⟩
  | cons pckg rest ih =>
    intro r hinv hno
    unfold executeAll
    dsimp only
    have h1 := ImportRun.Inv_execute c0 env.clicked r pckg (env.execute r.awaits pckg) hinv hno
    generalize (if env.execute r.awaits pckg = true then
        (r.await env.clicked (.execute pckg (env.execute r.awaits pckg))).succeeded 1
      else (r.await env.clicked (.execute pckg (env.execute r.awaits pckg))).failed 1) = r2
      at h1 ⊢
    by_cases hc : r2.cancelled = true
    · rw [if_pos hc]
      exact h1
    · rw [if_neg hc]
      exact ih _ h1.1 (by simpa using hc)

/-- One `OpsQueue.pushRange` with the update of the counts, started while `cancelled`
is not set, keeps the invariant, and no event follows the setting of `cancelled`. -/
theorem ImportRun.Inv_pushRange {Row P W : Type} (c0 : Counts) (clicked : Nat → Bool)
    (r : ImportRun Row P W) (pckgs : List P) (ok : Bool) (hinv : r.Inv c0)
    (hno : r.cancelled = false) :
    (if ok = true then (r.await clicked (.pushRange pckgs ok)).enqueued pckgs.length
      else r.await clicked (.pushRange pckgs ok)).Inv c0 ∧
    (if ok = true then (r.await clicked (.pushRange pckgs ok)).enqueued pckgs.length
      else r.await clicked (.pushRange pckgs ok)).Clean := by
  have hpre : r.cancelled = true →
      r.Clean ∧ (ImportEvent.pushRange pckgs ok : ImportEvent Row P).isSubmission = false := by
    intro h
    rw [hno] at h
    cases h
  cases ok with
  | true =>
    have hcounts := (ImportRun.await_cases clicked r (.pushRange pckgs true)).2
    have h1 := ImportRun.Inv_await c0 clicked r
      ((r.await clicked (.pushRange pckgs true)).enqueued pckgs.length) (.pushRange pckgs true)
      hinv rfl rfl rfl
      (by simp [ImportRun.enqueued, successesOf, hcounts.1])
      (by simp [ImportRun.enqueued, failuresOf, hcounts.1])
      (by simp [ImportRun.enqueued, enqueuedOf, hcounts.1])
      (by simp [ImportRun.enqueued, hcounts.1])
      (fun herr => Or.inl (hcounts.2 ▸ herr)) hpre
    exact ⟨h1.1, h1.2.1 rfl⟩
  | false =>
    have hcounts := (ImportRun.await_cases clicked r (.pushRange pckgs false)).2
    have h1 := ImportRun.Inv_await c0 clicked r
      (r.await clicked (.pushRange pckgs false)) (.pushRange pckgs false) hinv rfl rfl rfl
      (by simp [successesOf, hcounts.1])
      (by simp [failuresOf, hcounts.1])
      (by simp [enqueuedOf, hcounts.1])
      (by simp [hcounts.1])
      (fun herr => Or.inl (hcounts.2 ▸ herr)) hpre
    exact ⟨h1.1, h1.2.1 rfl⟩

/-- One `batch` with the update of the counts, started while `cancelled` is not set,
keeps the invariant, and no event follows the setting of `cancelled`. -/
theorem ImportRun.Inv_batch {Row P W : Type} (c0 : Counts) (clicked : Nat → Bool)
    (r : ImportRun Row P W) (pckgs : List P) (successes failures : Nat) (hinv : r.Inv c0)
    (hno : r.cancelled = false) :
    (((r.await clicked (.batch pckgs (some (successes, failures)))).succeeded
        successes).failed failures).Inv c0 ∧
    (((r.await clicked (.batch pckgs (some (successes, failures)))).succeeded
        successes).failed failures).Clean := by
  have hcounts := (ImportRun.await_cases clicked r
    (.batch pckgs (some (successes, failures)))).2
  have h1 := ImportRun.Inv_await c0 clicked r
    (((r.await clicked (.batch pckgs (some (successes, failures)))).succeeded
        successes).failed failures) (.batch pckgs (some (successes, failures)))
    hinv rfl rfl rfl
    (by simp [ImportRun.failed, ImportRun.succeeded, successesOf, hcounts.1])
    (by simp [ImportRun.failed, ImportRun.succeeded, failuresOf, hcounts.1])
    (by simp [ImportRun.failed, ImportRun.succeeded, enqueuedOf, hcounts.1])
    (by simp [ImportRun.failed, ImportRun.succeeded, hcounts.1])
    (fun herr => Or.inl (hcounts.2 ▸ herr))
    (by
      intro h
      rw [hno] at h
      cases h)
  exact ⟨h1.1, h1.2.1 rfl⟩

/-- A wait for an event that changes no count and is neither a submission nor a
transformation keeps the invariant, also when the exception of a failed event is
reported, and afterwards no submission and no transformation follows the setting of
`cancelled`. -/
theorem ImportRun.Inv_wait {Row P W : Type} (c0 : Counts) (clicked : Nat → Bool)
    (r : ImportRun Row P W) (e : ImportEvent Row P) (report : Bool) (hinv : r.Inv c0)
    (hclean : r.Clean) (he : e.isCancel = false) (hsub : e.isSubmission = false ∨ r.cancelled = false)
    (htr : e.isTransform = false) (hS : successesOf [e] = 0) (hF : failuresOf [e] = 0)
    (hQ : enqueuedOf [e] = 0) (hrep : report = true → e.isFailure = true) :
    ({ r.await clicked e with error := report || r.error }).Inv c0 ∧
    ({ r.await clicked e with error := report || r.error }).Clean := by
  have hcounts := (ImportRun.await_cases clicked r e).2
  have h1 := ImportRun.Inv_await c0 clicked r
    { r.await clicked e with error := report || r.error } e hinv he rfl rfl
    (by rw [hS]; exact congrArg Counts.Success hcounts.1)
    (by rw [hF]; exact congrArg Counts.Failed hcounts.1)
    (by rw [hQ]; exact congrArg Counts.Enqueued hcounts.1)
    ⟨congrArg Counts.New hcounts.1, congrArg Counts.Checked hcounts.1⟩
    (by
      intro herr
      cases hr : report with
      | true => exact Or.inr (hrep hr)
      | false =>
        left
        simpa [hr] using herr)
    (by
      intro h
      refine ⟨hclean, ?_⟩
      rcases hsub with hsub | hsub
      · exact hsub
      · rw [hsub] at h
        cases h)
  exact ⟨h1.1, h1.2.1 htr⟩

/-- The loop over the pages keeps the invariant. -/
theorem importPages_inv {Row P W : Type} (c0 : Counts) (env : ImportEnv Row P W) :
    ∀ (pages : List (Except String (List Row))) (r : ImportRun Row P W), r.Inv c0 → r.Clean →
      (importPages env pages r).Inv c0 := by
  intro pages
  induction pages with
  | nil =>
    intro r hinv hclean
    have h := ImportRun.Inv_wait c0 env.clicked r (.read true) false hinv hclean rfl (Or.inl rfl)
      rfl rfl rfl rfl (by simp)
    have e : r.error = (r.await env.clicked (.read true)).error :=
      (ImportRun.await_cases env.clicked r (.read true)).2.2.symm
    simp only [Bool.false_or] at h
    rw [e] at h
    exact h.1
  | cons page rest ih =>
    intro r hinv hclean
    cases page with
    | error msg =>
      have h := ImportRun.Inv_wait c0 env.clicked r (.read false) true hinv hclean rfl
        (Or.inl rfl) rfl rfl rfl rfl (fun _ => rfl)
      exact h.1
    | ok page =>
      have h := ImportRun.Inv_wait c0 env.clicked r (.read true) false hinv hclean rfl
        (Or.inl rfl) rfl rfl rfl rfl (by simp)
      have e : r.error = (r.await env.clicked (.read true)).error :=
        (ImportRun.await_cases env.clicked r (.read true)).2.2.symm
      simp only [Bool.false_or] at h
      rw [e] at h
      have h2 := transformRows_inv c0 env page [] _ h.1 h.2
      unfold importPages
      rcases htr : transformRows env page [] (r.await env.clicked (.read true)) with ⟨pckgs, r2⟩
      rw [htr] at h2
      dsimp only at h2 ⊢
      by_cases hc : r2.cancelled = true
      · rw [if_pos hc]
        exact h2
      · rw [if_neg hc]
        have hno : r2.cancelled = false := by simpa using hc
        by_cases hq : env.useOpsQueue = true
        · rw [if_pos hq]
          have h3 := ImportRun.Inv_pushRange c0 env.clicked r2 pckgs
            (env.pushRange r2.awaits pckgs) h2 hno
          exact ih _ h3.1 h3.2
        · rw [if_neg hq]
          by_cases hb : env.useBatch = true
          · rw [if_pos hb]
            cases hres : env.batch r2.awaits pckgs with
            | none =>
              have h3 := ImportRun.Inv_wait c0 env.clicked r2 (.batch pckgs none) true h2
                (ImportRun.Clean_of_not_cancelled c0 r2 h2 hno) rfl (Or.inr hno) rfl rfl rfl rfl
                (fun _ => rfl)
              exact h3.1
            | some result =>
              obtain ⟨successes, failures⟩ := result
              have h3 := ImportRun.Inv_batch c0 env.clicked r2 pckgs successes failures h2 hno
              exact ih _ h3.1 h3.2
          · rw [if_neg hb]
            have h3 := executeAll_inv c0 env pckgs r2 h2 hno
            exact ih _ h3.1 h3.2


/-- The loop of `ArrayReader.ReadAll` yields the items that fill the page as one page
and goes on with an empty page. -/
theorem ReadAllLoop_fill {α : Type} (k : Nat) (rest : List α) :
    ∀ (xs page : List α), xs ≠ [] → page.length + xs.length = k →
      ArrayReader.ReadAllLoop k (xs ++ rest) page =
        (page ++ xs) :: ArrayReader.ReadAllLoop k rest [] := by
  intro xs
  induction xs with
  | nil =>
    intro page h
    exact (h rfl).elim
  | cons x xs ih =>
    intro page _ hlen
    have e : ArrayReader.ReadAllLoop k (x :: xs ++ rest) page =
        if (page ++ [x]).length = k then (page ++ [x]) :: ArrayReader.ReadAllLoop k (xs ++ rest) []
        else ArrayReader.ReadAllLoop k (xs ++ rest) (page ++ [x]) := rfl
    rw [e]
    rw [List.length_cons] at hlen
    by_cases hxs : xs = []
    · subst hxs
      rw [if_pos (by rw [List.length_append, List.length_singleton]; simpa using hlen)]
      rfl
    · rw [if_neg (by
        rw [List.length_append, List.length_singleton]
        have : 0 < xs.length := List.length_pos.mpr hxs
        omega)]
      rw [ih (page ++ [x]) hxs (by rw [List.length_append, List.length_singleton]; omega)]
      simp

/-- The loop over the records of a page, when every transformation succeeds and Cancel
is not clicked meanwhile: every record gives a package and an event. -/
theorem transformRows_all_ok {Row P W : Type} (env : ImportEnv Row P W) (f : Row → P) :
    ∀ (rows : List Row) (pckgs : List P) (r : ImportRun Row P W),
      (∀ row ∈ rows, ∀ w, env.processRecord row w = (.ok (f row), w)) →
      (∀ i, r.awaits ≤ i → i < r.awaits + rows.length → env.clicked i = false) →
      r.cancelled = false →
      transformRows env rows pckgs r =
        (pckgs ++ rows.map f,
          { r with events := r.events ++ rows.map (fun row => .transform row true),
                   awaits := r.awaits + rows.length }) := by
  intro rows
  induction rows with
  | nil =>
    intro pckgs r _ _ _
    simp [transformRows]
  | cons row rest ih =>
    intro pckgs r hproc hclick hno
    have hc : env.clicked r.awaits = false := hclick r.awaits (Nat.le_refl _) (by simp)
    have hawait : r.await env.clicked (.transform row true) =
        { r with events := r.events ++ [.transform row true], awaits := r.awaits + 1 } := by
      simp [ImportRun.await, hc]
    unfold transformRows
    rw [hproc row (List.mem_cons_self _ _) r.world]
    dsimp only
    rw [hawait]
    dsimp only
    rw [if_neg (by simp [hno])]
    have hrest := ih (pckgs ++ [f row])
      { r with events := r.events ++ [.transform row true], awaits := r.awaits + 1 }
      (fun x hx => hproc x (List.mem_cons_of_mem _ hx))
      (fun i h1 h2 => hclick i (by dsimp only at h1; omega)
        (by dsimp only at h2; simp only [List.length_cons]; omega)) hno
    rw [hrest]
    simp [Nat.add_assoc, Nat.add_comm 1]

theorem transform_events_no_cancel {Row P : Type} (rows : List Row) :
    (rows.map (fun row => ImportEvent.transform (P := P) row true)).any ImportEvent.isCancel =
      false := by
  induction rows with
  | nil => rfl
  | cons row rest ih => simp [ImportEvent.isCancel]

theorem transform_events_no_failure {Row P : Type} (rows : List Row) :
    failuresOf (rows.map (fun row => ImportEvent.transform (P := P) row true)) = 0 := by
  induction rows with
  | nil => rfl
  | cons row rest ih => simpa [failuresOf] using ih

theorem transform_events_no_success {Row P : Type} (rows : List Row) :
    successesOf (rows.map (fun row => ImportEvent.transform (P := P) row true)) = 0 := by
  induction rows with
  | nil => rfl
  | cons row rest ih => simpa [successesOf] using ih

theorem eventsUntilCancel_append {Row P : Type} (xs ys : List (ImportEvent Row P))
    (h : xs.any ImportEvent.isCancel = false) :
    eventsUntilCancel (xs ++ ImportEvent.cancelSet :: ys) = xs := by
  induction xs with
  | nil => rfl
  | cons x xs ih =>
    have hx : x.isCancel = false := by
      cases hx : x.isCancel with
      | true => simp [hx] at h
      | false => rfl
    have hxs : xs.any ImportEvent.isCancel = false := by simpa [hx] using h
    have := ih hxs
    simp only [eventsUntilCancel, List.cons_append, List.takeWhile, hx, Bool.not_false] at this ⊢
    exact congrArg _ this

set_option maxRecDepth 100000 in
/-- The run of the import cancelled during the push of the first page. -/
theorem importCancelledDuringPush_run :
    importData importCancelledDuringPush {} () =
      { events := ([.count true, .read true] ++
            (List.range 500).map (fun row => ImportEvent.transform row true) ++
            [.pushRange (List.range 500) true]) ++
          ImportEvent.cancelSet :: [.read true, .transform 500 false],
        counts := { Enqueued := 500, Failed := 1 },
        cancelled := false,
        awaits := 505,
        world := (),
        error := false } := by
  have hrows := transformRows_all_ok importCancelledDuringPush id (List.range 500) []
    (ImportRun.mk [.count true, .read true] {} false 2 () false)
    (by
      intro row hrow w
      have hlt : row < 500 := List.mem_range.mp hrow
      show ((if row < 500 then Except.ok row else Except.error "failed", w) :
        Except String Nat × Unit) = (Except.ok row, w)
      rw [if_pos hlt])
    (by
      intro i h1 h2
      simp only [List.length_range] at h2
      have hne : i ≠ 502 := by
        dsimp only at h1 h2
        omega
      show (i == 502) = false
      simpa using hne)
    rfl
  have hcount : (ImportRun.mk ([] : List (ImportEvent Nat Nat)) {} false 0 () false).await
      importCancelledDuringPush.clicked (.count true) =
      ImportRun.mk [.count true] {} false 1 () false := rfl
  have hread : (ImportRun.mk ([.count true] : List (ImportEvent Nat Nat)) {} false 1 ()
      false).await importCancelledDuringPush.clicked (.read true) =
      ImportRun.mk [.count true, .read true] {} false 2 () false := rfl
  have hpages : importCancelledDuringPush.pages = [.ok (List.range 500), .ok [500]] := rfl
  have hq : importCancelledDuringPush.useOpsQueue = true := rfl
  have hc : importCancelledDuringPush.count = .ok 501 := rfl
  unfold importData
  simp only [hc, hcount, hpages]
  unfold importPages
  simp only [hread, hrows, List.map_id, List.nil_append, hq, if_true, Bool.false_eq_true,
    if_false]
  rfl

theorem successesOf_split {Row P : Type} (events : List (ImportEvent Row P)) :
    successesOf events =
      successesOf (eventsUntilCancel events) + successesOf (eventsAfterCancel events) := by
  induction events with
  | nil => rfl
  | cons x xs ih =>
    rcases x with (_|_) | (_|_) | ⟨_, (_|_)⟩ | ⟨_, (_|_)⟩ | ⟨_, (_|⟨_, _⟩)⟩ | ⟨_, (_|_)⟩ | _ <;>
      simp [eventsUntilCancel, eventsAfterCancel, List.takeWhile, List.dropWhile,
        ImportEvent.isCancel, successesOf, Nat.add_assoc] at ih ⊢ <;> exact ih

theorem failuresOf_split {Row P : Type} (events : List (ImportEvent Row P)) :
    failuresOf events =
      failuresOf (eventsUntilCancel events) + failuresOf (eventsAfterCancel events) := by
  induction events with
  | nil => rfl
  | cons x xs ih =>
    rcases x with (_|_) | (_|_) | ⟨_, (_|_)⟩ | ⟨_, (_|_)⟩ | ⟨_, (_|⟨_, _⟩)⟩ | ⟨_, (_|_)⟩ | _ <;>
      simp [eventsUntilCancel, eventsAfterCancel, List.takeWhile, List.dropWhile,
        ImportEvent.isCancel, failuresOf, Nat.add_assoc] at ih ⊢ <;> exact ih

theorem enqueuedOf_split {Row P : Type} (events : List (ImportEvent Row P)) :
    enqueuedOf events =
      enqueuedOf (eventsUntilCancel events) + enqueuedOf (eventsAfterCancel events) := by
  induction events with
  | nil => rfl
  | cons x xs ih =>
    rcases x with (_|_) | (_|_) | ⟨_, (_|_)⟩ | ⟨_, (_|_)⟩ | ⟨_, (_|⟨_, _⟩)⟩ | ⟨_, (_|_)⟩ | _ <;>
      simp [eventsUntilCancel, eventsAfterCancel, List.takeWhile, List.dropWhile,
        ImportEvent.isCancel, enqueuedOf, Nat.add_assoc] at ih ⊢ <;> exact ih

/-- Events none of which submits packages add nothing to `Success` and `Enqueued`, and
to `Failed` at most one for each transformation. -/
theorem counts_of_no_submission {Row P : Type} (events : List (ImportEvent Row P))
    (h : ∀ e ∈ events, e.isSubmission = false) :
    successesOf events = 0 ∧ enqueuedOf events = 0 ∧
      failuresOf events ≤ events.countP ImportEvent.isTransform := by
  induction events with
  | nil => simp [successesOf, enqueuedOf, failuresOf]
  | cons x xs ih =>
    have hx := h x (List.mem_cons_self _ _)
    obtain ⟨h1, h2, h3⟩ := ih (fun e he => h e (List.mem_cons_of_mem _ he))
    rcases x with (_|_) | (_|_) | ⟨_, (_|_)⟩ | ⟨_, (_|_)⟩ | ⟨_, (_|⟨_, _⟩)⟩ | ⟨_, (_|_)⟩ | _ <;>
      simp [ImportEvent.isSubmission] at hx <;>
      simp [successesOf, enqueuedOf, failuresOf, List.countP_cons, ImportEvent.isTransform,
        h1, h2] <;> omega

/-- The run of `importData` before its `finally` satisfies the invariant. -/
theorem importData_inv {Row P W : Type} (env : ImportEnv Row P W) (counts : Counts)
    (world : W) :
    ∃ r : ImportRun Row P W, r.Inv counts ∧
      importData env counts world = { r with cancelled := false } := by
  have h0 : (ImportRun.mk ([] : List (ImportEvent Row P)) counts false 0 world false).Inv
      counts := by
    constructor <;> simp [successesOf, failuresOf, enqueuedOf, eventsAfterCancel]
  have hclean : (ImportRun.mk ([] : List (ImportEvent Row P)) counts false 0 world
      false).Clean := ImportRun.Clean_of_not_cancelled counts _ h0 rfl
  have key : ∀ r0 : ImportRun Row P W, r0.Inv counts → r0.Clean →
      (r0.await env.clicked (.count true)).Inv counts ∧
        (r0.await env.clicked (.count true)).Clean := by
    intro r0 hr0 hc0
    have h := ImportRun.Inv_wait counts env.clicked r0 (.count true) false hr0 hc0 rfl
      (Or.inl rfl) rfl rfl rfl rfl (by simp)
    have e : r0.error = (r0.await env.clicked (.count true)).error :=
      (ImportRun.await_cases env.clicked r0 (.count true)).2.2.symm
    simp only [Bool.false_or] at h
    rw [e] at h
    exact h
  unfold importData
  cases hc : env.count with
  | error msg =>
    have h := ImportRun.Inv_wait counts env.clicked _ (.count false) true h0 hclean rfl
      (Or.inl rfl) rfl rfl rfl rfl (fun _ => rfl)
    exact ⟨_, h.1, rfl⟩
  | ok n =>
    have h := key _ h0 hclean
    exact ⟨_, importPages_inv counts env env.pages _ h.1 h.2, rfl⟩

/-- C17, amended. In every run of `importData`, whatever the reader, the
transformation, the submission mode, the outcomes and the moment of the click on
Cancel: after `cancelled` was set no submission is started, neither a push to the
queue nor a batch nor an execute, so that the packages made of the page in
transformation are not submitted; at most one more record is transformed; `Success`
and `Enqueued` end as the counts at the start plus what the operations started before
`cancelled` was set add, and `Failed` ends as that or one more; and an error is
reported only when the reader or the batch has failed. -/
theorem import_cancellation {Row P W : Type} (env : ImportEnv Row P W) (counts : Counts)
    (world : W) :
    (∀ e ∈ eventsAfterCancel (importData env counts world).events, e.isSubmission = false) ∧
      (eventsAfterCancel (importData env counts world).events).countP
        ImportEvent.isTransform ≤ 1 ∧
      (importData env counts world).counts.Success =
        counts.Success + successesOf (eventsUntilCancel (importData env counts world).events) ∧
      (importData env counts world).counts.Enqueued =
        counts.Enqueued + enqueuedOf (eventsUntilCancel (importData env counts world).events) ∧
      counts.Failed + failuresOf (eventsUntilCancel (importData env counts world).events) ≤
        (importData env counts world).counts.Failed ∧
      (importData env counts world).counts.Failed ≤
        counts.Failed + failuresOf (eventsUntilCancel (importData env counts world).events) + 1 ∧
      ((importData env counts world).error = true →
        ∃ e ∈ (importData env counts world).events, e.isFailure = true) := by
  obtain ⟨r, hinv, hr⟩ := importData_inv env counts world
  rw [hr]
  dsimp only
  obtain ⟨h1, h2, h3⟩ := counts_of_no_submission _ hinv.quiet
  have hs := successesOf_split r.events
  have hf := failuresOf_split r.events
  have hq := enqueuedOf_split r.events
  have hsingle := hinv.single
  refine ⟨hinv.quiet, hsingle, ?_, ?_, ?_, ?_, hinv.error⟩
  · rw [hinv.success, hs, h1]
    rfl
  · rw [hinv.enqueued, hq, h2]
    rfl
  · rw [hinv.failed, hf]
    omega
  · rw [hinv.failed, hf]
    omega

/-- Counterexample to C17 as stated: 501 records in the two pages of
`ReadAll({pageSize: 500})`, and Cancel is clicked while the first page of 500 packages
is pushed to the queue. The operations started before have added nothing to `Failed`;
the run still reads the second page and transforms its record, which fails, and ends
with `Failed = 1`. -/
theorem import_cancel_then_failed_row :
    importCancelledDuringPush.pages =
        ((ArrayReader.mk (List.range 501)).ReadAll 500).map Except.ok ∧
      eventsAfterCancel (importData importCancelledDuringPush {} ()).events =
        [.read true, .transform 500 false] ∧
      failuresOf (eventsUntilCancel (importData importCancelledDuringPush {} ()).events) = 0 ∧
      successesOf (eventsUntilCancel (importData importCancelledDuringPush {} ()).events) = 0 ∧
      (importData importCancelledDuringPush {} ()).counts.Failed = 1 ∧
      (importData importCancelledDuringPush {} ()).counts.Enqueued = 500 ∧
      (importData importCancelledDuringPush {} ()).error = false := by
  have hpre : (([.count true, .read true] ++
      (List.range 500).map (fun row => ImportEvent.transform (P := Nat) row true) ++
      [.pushRange (List.range 500) true]) : List (ImportEvent Nat Nat)).any
        ImportEvent.isCancel = false := by
    rw [List.any_append, List.any_append, transform_events_no_cancel]
    rfl
  rw [importCancelledDuringPush_run]
  dsimp only
  refine ⟨?_, ?_, ?_, ?_, rfl, rfl, rfl⟩
  · have h := ReadAllLoop_fill 500 [500] (List.range 500) [] (by simp) (by simp)
    rw [← List.range_succ, List.nil_append] at h
    unfold ArrayReader.ReadAll
    rw [h]
    rfl
  · rw [eventsAfterCancel_append_of_not_any _ _ hpre]
    rfl
  · rw [eventsUntilCancel_append _ _ hpre, failuresOf_append, failuresOf_append,
      transform_events_no_failure]
    rfl
  · rw [eventsUntilCancel_append _ _ hpre, successesOf_append, successesOf_append,
      transform_events_no_success]
    rfl

/-! ## Export field list -/

theorem indexOf_get {α : Type} [DecidableEq α] (fields : List α) (hnodup : fields.Nodup)
    (i : Nat) (hi : i < fields.length) : indexOf fields (fields.get ⟨i, hi⟩) = (i : Int) := by
  have hmem : fields.get ⟨i, hi⟩ ∈ fields := List.get_mem _ _ _
  unfold indexOf
  rw [if_pos hmem]
  congr 1
  exact List.get_indexOf hnodup ⟨i, hi⟩

/-- The button with the arrow down changes nothing: the field taken out at index `i`
is put back at index `i`. -/
theorem moveDown_unchanged {α : Type} [DecidableEq α] (fields : List α)
    (hnodup : fields.Nodup) (i : Nat) : moveDown fields i = fields := by
  unfold moveDown
  cases hget : fields.get? i with
  | none => rfl
  | some f =>
    dsimp only
    split
    · rfl
    · rename_i hlt
      have hi : i < fields.length := by omega
      have hf : f = fields.get ⟨i, hi⟩ := by
        rw [List.get?_eq_get hi] at hget
        exact (Option.some.inj hget).symm
      have hidx := indexOf_get fields hnodup i hi
      rw [← hf] at hidx
      unfold moveFieldTo
      rw [hidx]
      have h1 : ((i : Int) > -1) := by omega
      have h2 : ¬ ((i : Int) + 1 < (i : Int)) := by omega
      simp only [h1, if_true, h2, if_false]
      have hrem : splice fields (i : Int) 1 [] = fields.take i ++ fields.drop (i + 1) := by
        unfold splice
        have h3 : ¬ ((i : Int) < 0) := by omega
        simp only [h3, if_false, Int.toNat_ofNat, List.append_nil]
        rw [Nat.min_eq_left (Nat.le_of_lt hi)]
      rw [hrem]
      unfold splice
      have h3 : ¬ ((i : Int) + 1 - 1 < 0) := by omega
      have h4 : ((i : Int) + 1 - 1).toNat = i := by omega
      have hlen : (fields.take i ++ fields.drop (i + 1)).length = fields.length - 1 := by
        rw [List.length_append, List.length_take, List.length_drop]
        omega
      simp only [h3, if_false, h4, hlen]
      rw [Nat.min_eq_left (by omega), Nat.add_zero]
      rw [List.take_append_of_le_length (by rw [List.length_take]; omega),
        List.take_take, Nat.min_self]
      rw [List.drop_append_of_le_length (by rw [List.length_take]; omega)]
      rw [List.drop_take]
      simp only [Nat.add_zero, Nat.sub_self, List.take_zero, List.nil_append, List.append_assoc,
        List.singleton_append]
      rw [hf]
      show fields.take i ++ fields[i] :: fields.drop (i + 1) = fields
      rw [List.getElem_cons_drop]
      exact List.take_append_drop i fields

/-- C30. Evaluation at the first row of three fields: the button with the arrow down,
`moveFieldTo(f, i + 1)` with `i = 0`, leaves the list as it is, while the button with
the arrow up on the second row swaps the two fields. -/
theorem moveFieldTo_down_leaves_list :
    moveFieldTo ["name", "accountnumber", "telephone1"] "name" 1 =
        ["name", "accountnumber", "telephone1"] ∧
      moveDown ["name", "accountnumber", "telephone1"] 0 =
        ["name", "accountnumber", "telephone1"] ∧
      moveUp ["name", "accountnumber", "telephone1"] 1 =
        ["accountnumber", "name", "telephone1"] ∧
      moveFieldTo ["name", "accountnumber", "telephone1"] "telephone1" 2 =
        ["name", "telephone1", "accountnumber"] := by
  decide

/-! ## Option-set coercion -/

/-- The matcher of `REGEX_MOSV` after a digit accepts a possibly empty run of digits
followed by groups of a comma and digits; at the start or after a comma the run must
not be empty. -/
theorem matchMOSV_iff (cs : List Char) :
    (matchMOSV true cs = true ↔
      ∃ first : List Char, ∃ more : List (List Char),
        first.all isDigit = true ∧ (∀ g ∈ more, g ≠ [] ∧ g.all isDigit = true) ∧
          cs = first ++ (more.map (fun g => ',' :: g)).flatten) ∧
    (matchMOSV false cs = true ↔ IsIntegerList cs) := by
  induction cs with
  | nil =>
    constructor
    · constructor
      · intro _
        exact ⟨[], [], rfl, (fun g hg => by cases hg), rfl⟩
      · intro _
        rfl
    · constructor
      · intro h
        simp [matchMOSV] at h
      · rintro ⟨first, more, hne, _, _, heq⟩
        cases first with
        | nil => exact (hne rfl).elim
        | cons c cs => simp at heq
  | cons c rest ih =>
    obtain ⟨ihT, ihF⟩ := ih
    by_cases hd : isDigit c = true
    · have hcomma : c ≠ ',' := by
        intro h
        rw [h] at hd
        exact absurd hd (by decide)
      have key : ∀ b, matchMOSV b (c :: rest) = matchMOSV true rest := by
        intro b
        simp [matchMOSV, hd]
      constructor
      · rw [key, ihT]
        constructor
        · rintro ⟨first, more, hall, hmore, heq⟩
          exact ⟨c :: first, more, by simp [hd, hall], hmore, by rw [heq]; rfl⟩
        · rintro ⟨first, more, hall, hmore, heq⟩
          cases first with
          | nil =>
            cases more with
            | nil => simp at heq
            | cons g gs =>
              simp only [List.nil_append, List.map_cons, List.flatten_cons, List.cons_append,
                List.cons.injEq] at heq
              exact (hcomma heq.1).elim
          | cons c1 first1 =>
            simp only [List.cons_append, List.cons.injEq] at heq
            simp only [List.all_cons, Bool.and_eq_true] at hall
            exact ⟨first1, more, hall.2, hmore, heq.2⟩
      · rw [key, ihT]
        constructor
        · rintro ⟨first, more, hall, hmore, heq⟩
          exact ⟨c :: first, more, by simp, by simp [hd, hall], hmore, by rw [heq]; rfl⟩
        · rintro ⟨first, more, hne, hall, hmore, heq⟩
          cases first with
          | nil => exact (hne rfl).elim
          | cons c1 first1 =>
            simp only [List.cons_append, List.cons.injEq] at heq
            simp only [List.all_cons, Bool.and_eq_true] at hall
            exact ⟨first1, more, hall.2, hmore, heq.2⟩
    · have hfirst : ∀ (first : List Char) (tail : List Char), first.all isDigit = true →
          c :: rest = first ++ tail → first = [] := by
        intro first tail hall heq
        cases first with
        | nil => rfl
        | cons c1 first1 =>
          simp only [List.cons_append, List.cons.injEq] at heq
          simp only [List.all_cons, Bool.and_eq_true] at hall
          rw [← heq.1] at hall
          exact (hd hall.1).elim
      constructor
      · have key : matchMOSV true (c :: rest) = (c == ',' && matchMOSV false rest) := by
          by_cases hc : c = ','
          · subst hc
            simp [matchMOSV, show isDigit ',' = false by decide]
          · simp [matchMOSV, hd, hc]
        rw [key]
        constructor
        · intro h
          simp only [Bool.and_eq_true, beq_iff_eq] at h
          obtain ⟨g, more, hne, hall, hmore, heq⟩ := ihF.mp h.2
          refine ⟨[], g :: more, rfl, ?_, ?_⟩
          · intro x hx
            rcases List.mem_cons.mp hx with hx | hx
            · rw [hx]
              exact ⟨hne, hall⟩
            · exact hmore x hx
          · rw [h.1, heq]
            simp
        · rintro ⟨first, more, hall, hmore, heq⟩
          have hnil := hfirst first _ hall heq
          subst hnil
          cases more with
          | nil => simp at heq
          | cons g gs =>
            simp only [List.nil_append, List.map_cons, List.flatten_cons, List.cons_append,
              List.cons.injEq] at heq
            have hg := hmore g (List.mem_cons_self _ _)
            simp only [Bool.and_eq_true, beq_iff_eq]
            refine ⟨heq.1, ihF.mpr ⟨g, gs, hg.1, hg.2, ?_, heq.2⟩⟩
            intro x hx
            exact hmore x (List.mem_cons_of_mem _ hx)
      · have key : matchMOSV false (c :: rest) = false := by
          simp [matchMOSV, hd]
        rw [key]
        constructor
        · intro h
          cases h
        · rintro ⟨first, more, hne, hall, hmore, heq⟩
          exact (hne (hfirst first _ hall heq)).elim

/-- C23, amended. For every non-empty string, a `MultiSelectPicklist` value is the
string itself when it is a list of one or more runs of digits separated by commas, and
the coercion fails otherwise; the empty string gives `null`. -/
theorem multiselect_coercion (env : Env) (s : String) (attrMeta : Option AttributeMeta) :
    (IsIntegerList s.data →
      parseValue env (.str s) (some "MultiSelectPicklist") attrMeta = .ok (.str s)) ∧
    (¬ IsIntegerList s.data → s ≠ "" →
      ∃ e, parseValue env (.str s) (some "MultiSelectPicklist") attrMeta = .error e) ∧
    parseValue env (.str "") (some "MultiSelectPicklist") attrMeta = .ok .null := by
  have hpv : ∀ v : String,
      parseValue env (.str v) (some "MultiSelectPicklist") attrMeta = parseMOSV v := fun _ => rfl
  refine ⟨?_, ?_, ?_⟩
  · intro h
    have hre : REGEX_MOSV s = true := (matchMOSV_iff s.data).2.mpr h
    have hne : s ≠ "" := by
      intro h0
      rw [h0] at hre
      exact absurd hre (by decide)
    rw [hpv]
    unfold parseMOSV
    rw [if_neg hne, if_pos hre]
  · intro h hne
    have hre : ¬ REGEX_MOSV s = true := fun hre => h ((matchMOSV_iff s.data).2.mp hre)
    rw [hpv]
    unfold parseMOSV
    rw [if_neg hne, if_neg hre]
    exact ⟨_, rfl⟩
  · rw [hpv]
    rfl

/-- Counterexample to C23 as stated: the empty string is no list of integers, yet its
coercion does not fail and gives `null`. -/
theorem multiselect_empty_is_null :
    ¬ IsIntegerList "".data ∧
      parseValue envNoMatch (.str "") (some "MultiSelectPicklist") none = .ok .null := by
  refine ⟨?_, rfl⟩
  intro h
  have := (matchMOSV_iff "".data).2.mpr h
  exact absurd this (by decide)

/-! ## Scalar coercion -/

theorem digitChar_isDigit : ∀ d : Nat, d < 10 →
    isDigit (Nat.digitChar d) = true ∧ (Nat.digitChar d).toNat - '0'.toNat = d := by
  decide

theorem foldl_decimal (cs : List Char) (a : Nat) :
    cs.foldl (fun acc c => acc * 10 + (c.toNat - '0'.toNat)) a =
      a * 10 ^ cs.length + decimalValue cs := by
  induction cs generalizing a with
  | nil => simp [decimalValue]
  | cons c cs ih =>
    unfold decimalValue
    rw [List.foldl_cons, List.foldl_cons, ih, ih (0 * 10 + (c.toNat - '0'.toNat))]
    rw [List.length_cons, Nat.pow_succ]
    ring

/-- The digits `Nat.toDigitsCore` puts before the digits it was given are decimal
digits, at least one, and write the number. -/
theorem toDigitsCore_spec : ∀ (fuel n : Nat) (acc : List Char), n < fuel →
    acc.all isDigit = true →
    (Nat.toDigitsCore 10 fuel n acc).all isDigit = true ∧
    Nat.toDigitsCore 10 fuel n acc ≠ [] ∧
    decimalValue (Nat.toDigitsCore 10 fuel n acc) = n * 10 ^ acc.length + decimalValue acc := by
  intro fuel
  induction fuel with
  | zero =>
    intro n acc h
    omega
  | succ fuel ih =>
    intro n acc hn hacc
    have hd := digitChar_isDigit (n % 10) (Nat.mod_lt _ (by decide))
    have hval : decimalValue (Nat.digitChar (n % 10) :: acc) =
        (n % 10) * 10 ^ acc.length + decimalValue acc := by
      unfold decimalValue
      rw [List.foldl_cons, foldl_decimal, hd.2]
      simp [decimalValue]
    unfold Nat.toDigitsCore
    dsimp only
    by_cases h0 : n / 10 = 0
    · rw [if_pos h0]
      refine ⟨by simp [hd.1, hacc], by simp, ?_⟩
      rw [hval]
      have : n % 10 = n := by omega
      rw [this]
    · rw [if_neg h0]
      have h := ih (n / 10) (Nat.digitChar (n % 10) :: acc) (by omega) (by simp [hd.1, hacc])
      refine ⟨h.1, h.2.1, ?_⟩
      rw [h.2.2, hval, List.length_cons, Nat.pow_succ]
      have hn10 := Nat.div_add_mod n 10
      calc n / 10 * (10 ^ acc.length * 10) + (n % 10 * 10 ^ acc.length + decimalValue acc)
          = (10 * (n / 10) + n % 10) * 10 ^ acc.length + decimalValue acc := by ring
        _ = n * 10 ^ acc.length + decimalValue acc := by rw [hn10]

/-- The decimal text of a natural number is a non-empty run of digits that writes
it. -/
theorem toString_nat_spec (n : Nat) :
    (toString n).data.all isDigit = true ∧ (toString n).data ≠ [] ∧
      decimalValue (toString n).data = n := by
  have h := toDigitsCore_spec (n + 1) n [] (by omega) rfl
  simpa [decimalValue] using h

theorem isDigit_toNat (c : Char) (h : isDigit c = true) : 48 ≤ c.toNat ∧ c.toNat ≤ 57 := by
  simp only [isDigit, Bool.and_eq_true, decide_eq_true_eq] at h
  exact h

theorem isDigit_facts (c : Char) (h : isDigit c = true) :
    isStrWhiteSpace c = false ∧ c ≠ '-' ∧ c ≠ '+' ∧ c ≠ 'x' ∧ c ≠ 'X' ∧
      digitValue 10 c = some (c.toNat - '0'.toNat) := by
  have hb := isDigit_toNat c h
  refine ⟨?_, ?_, ?_, ?_, ?_, ?_⟩
  · unfold isStrWhiteSpace
    simp
    omega
  · intro e
    rw [e] at h
    exact absurd h (by decide)
  · intro e
    rw [e] at h
    exact absurd h (by decide)
  · intro e
    rw [e] at h
    exact absurd h (by decide)
  · intro e
    rw [e] at h
    exact absurd h (by decide)
  · simp [digitValue, h]

theorem leadingDigits_digits (cs : List Char) (h : cs.all isDigit = true) :
    leadingDigits 10 cs = cs.map (fun c => c.toNat - '0'.toNat) := by
  induction cs with
  | nil => rfl
  | cons c cs ih =>
    simp only [List.all_cons, Bool.and_eq_true] at h
    simp only [leadingDigits, (isDigit_facts c h.1).2.2.2.2.2, ih h.2, List.map_cons]

/-- A natural number up to 2^53 is its own Number value. -/
theorem numberValue_exact (n : Nat) (h : n ≤ 2 ^ 53) : numberValue n = some n := by
  unfold numberValue
  rw [if_pos h]

/-- `parseInt` of a non-empty run of decimal digits, with or without a minus sign
before it, is the Number value for the number the run writes, and `REGEX_INTEGER`
accepts both texts. -/
theorem parseInt_digits (cs : List Char) (hne : cs ≠ []) (h : cs.all isDigit = true) :
    parseInt (String.mk cs) = signedNumber false (numberValue (decimalValue cs)) ∧
      parseInt (String.mk ('-' :: cs)) = signedNumber true (numberValue (decimalValue cs)) ∧
      REGEX_INTEGER (String.mk cs) = true ∧ REGEX_INTEGER (String.mk ('-' :: cs)) = true := by
  obtain ⟨c, rest, rfl⟩ : ∃ c rest, cs = c :: rest := by
    cases cs with
    | nil => exact (hne rfl).elim
    | cons c rest => exact ⟨c, rest, rfl⟩
  have hc : isDigit c = true := by
    simp only [List.all_cons, Bool.and_eq_true] at h
    exact h.1
  obtain ⟨hws, hminus, hplus, hx, hX, _⟩ := isDigit_facts c hc
  have hhex : (match c :: rest with
      | '0' :: 'x' :: _ => true
      | '0' :: 'X' :: _ => true
      | _ => false) = false := by
    cases rest with
    | nil => split <;> simp_all
    | cons c2 rest2 =>
      have hc2 : isDigit c2 = true := by
        simp only [List.all_cons, Bool.and_eq_true] at h
        exact h.2.1
      obtain ⟨_, _, _, hx2, hX2, _⟩ := isDigit_facts c2 hc2
      split
      · rename_i heq
        simp only [List.cons.injEq] at heq
        exact (hx2 heq.2.1).elim
      · rename_i heq
        simp only [List.cons.injEq] at heq
        exact (hX2 heq.2.1).elim
      · rfl
  have hfold : (List.foldl (fun acc d => acc * 10 + d) 0 (leadingDigits 10 (c :: rest))) =
      decimalValue (c :: rest) := by
    rw [leadingDigits_digits _ h, List.foldl_map]
    rfl
  have hempty : (leadingDigits 10 (c :: rest)).isEmpty = false := by
    rw [leadingDigits_digits _ h]
    rfl
  refine ⟨?_, ?_, ?_, ?_⟩
  · unfold parseInt
    simp only [List.dropWhile, hws, List.head?_cons, Option.some.injEq, hminus, hplus, or_self,
      if_false, decide_False]
    split
    · rename_i hyes
      exact Bool.noConfusion (hhex.symm.trans hyes)
    · rw [hempty, hfold]
      rfl
  · unfold parseInt
    have hm : isStrWhiteSpace '-' = false := by decide
    simp only [List.dropWhile, hm, List.head?_cons, true_or, if_true, List.tail_cons,
      decide_True]
    split
    · rename_i hyes
      exact Bool.noConfusion (hhex.symm.trans hyes)
    · rw [hempty, hfold]
      rfl
  · unfold REGEX_INTEGER matchInteger
    split
    · rename_i heq
      simp only [List.cons.injEq] at heq
      exact (hminus heq.1).elim
    · simp [h]
  · unfold REGEX_INTEGER matchInteger
    simp only
    simpa using h

/-- `parseInt` reads the decimal text of every integer that a Number holds exactly
back, and `REGEX_INTEGER` accepts the text. -/
theorem parseInt_toString (n : Int) (hlo : -9007199254740992 ≤ n) (hhi : n ≤ 9007199254740992) :
    parseInt (toString n) = .num n ∧ REGEX_INTEGER (toString n) = true := by
  cases n with
  | ofNat m =>
    obtain ⟨hall, hne, hval⟩ := toString_nat_spec m
    obtain ⟨h1, _, h3, _⟩ := parseInt_digits (toString m).data hne hall
    have hm : m ≤ 2 ^ 53 := by
      have : (m : Int) ≤ 9007199254740992 := hhi
      norm_num
      omega
    rw [hval, numberValue_exact m hm] at h1
    exact ⟨h1, h3⟩
  | negSucc m =>
    obtain ⟨hall, hne, hval⟩ := toString_nat_spec (m + 1)
    obtain ⟨_, h2, _, h4⟩ := parseInt_digits (toString (m + 1)).data hne hall
    have hm : m + 1 ≤ 2 ^ 53 := by
      have : -9007199254740992 ≤ Int.negSucc m := hlo
      rw [Int.negSucc_eq] at this
      norm_num
      omega
    rw [hval, numberValue_exact (m + 1) hm] at h2
    have e : toString (Int.negSucc m) = String.mk ('-' :: (toString (m + 1)).data) := rfl
    rw [e]
    exact ⟨h2, h4⟩

/-- C21. The text of a boolean is coerced back to the boolean; the decimal text of an
integer that a number holds exactly is coerced back to the integer; and the decimal
text of an epoch-millisecond value of a timestamp is coerced to the timestamp with
that value. -/
theorem scalar_round_trip (env : Env) (attrMeta : Option AttributeMeta) :
    (∀ b : Bool, parseValue env (.str (toString b)) (some "Boolean") attrMeta = .ok (.bool b)) ∧
    (∀ n : Int, -9007199254740992 ≤ n → n ≤ 9007199254740992 →
      parseValue env (.str (toString n)) (some "Integer") attrMeta = .ok (.num n)) ∧
    (∀ t : Int, -8640000000000000 ≤ t → t ≤ 8640000000000000 →
      parseValue env (.str (toString t)) (some "DateTime") attrMeta = .ok (.date t)) := by
  refine ⟨?_, ?_, ?_⟩
  · intro b
    cases b <;> rfl
  · intro n h1 h2
    show Except.ok (parseInt (toString n)) = _
    rw [(parseInt_toString n h1 h2).1]
  · intro t h1 h2
    have hlo : -9007199254740992 ≤ t := by omega
    have hhi : t ≤ 9007199254740992 := by omega
    show Except.ok (parseDateTime env (toString t)) = _
    unfold parseDateTime
    rw [(parseInt_toString t hlo hhi).2, (parseInt_toString t hlo hhi).1]
    simp [h1, h2]

/-- Witness of C21: the integer `-42` and the epoch-millisecond value
`1700000000000`. -/
theorem scalar_round_trip_witness :
    parseValue envNoMatch (.str "-42") (some "Integer") none = .ok (.num (-42)) ∧
      parseValue envNoMatch (.str "1700000000000") (some "DateTime") none =
        .ok (.date 1700000000000) :=
  ⟨(scalar_round_trip envNoMatch none).2.1 (-42) (by decide) (by decide),
    (scalar_round_trip envNoMatch none).2.2 1700000000000 (by decide) (by decide)⟩


/-- The matcher of `REGEX_INTEGER` accepts exactly the decimal integers. -/
theorem matchInteger_iff (cs : List Char) :
    matchInteger cs = true ↔ ∃ n, IsDecimalInteger cs n := by
  constructor
  · intro h
    unfold matchInteger at h
    split at h
    · rename_i rest
      simp only [Bool.and_eq_true, Bool.not_eq_true', List.isEmpty_eq_false] at h
      exact ⟨_, rest, h.1, h.2, Or.inr ⟨rfl, rfl⟩⟩
    · simp only [Bool.and_eq_true, Bool.not_eq_true', List.isEmpty_eq_false] at h
      exact ⟨_, cs, h.1, h.2, Or.inl ⟨rfl, rfl⟩⟩
  · rintro ⟨n, digits, hne, hall, ⟨hcs, _⟩ | ⟨hcs, _⟩⟩
    · rw [hcs]
      exact (parseInt_digits digits hne hall).2.2.1
    · rw [hcs]
      exact (parseInt_digits digits hne hall).2.2.2

theorem lookup_of_mem {α : Type} (label : String) (code : α) :
    ∀ options : List (String × α), (label, code) ∈ options →
      (∀ other, (label, other) ∈ options → other = code) → options.lookup label = some code := by
  intro options
  induction options with
  | nil =>
    intro h
    cases h
  | cons o rest ih =>
    intro hmem huniq
    obtain ⟨text, value⟩ := o
    by_cases ht : label = text
    · subst ht
      have := huniq value (List.mem_cons_self _ _)
      simp [List.lookup, this]
    · have hne : (label == text) = false := by simpa using ht
      simp only [List.lookup, hne]
      apply ih
      · rcases List.mem_cons.mp hmem with h | h
        · simp only [Prod.mk.injEq] at h
          exact (ht h.1).elim
        · exact h
      · intro other ho
        exact huniq other (List.mem_cons_of_mem _ ho)

theorem lookup_of_not_mem {α : Type} (label : String) :
    ∀ options : List (String × α), (∀ o ∈ options, o.1 ≠ label) → options.lookup label = none := by
  intro options
  induction options with
  | nil =>
    intro _
    rfl
  | cons o rest ih =>
    intro h
    obtain ⟨text, value⟩ := o
    have ht : label ≠ text := fun e => h (text, value) (List.mem_cons_self _ _) e.symm
    have hne : (label == text) = false := by simpa using ht
    simp only [List.lookup, hne]
    exact ih (fun x hx => h x (List.mem_cons_of_mem _ hx))

/-- C22, amended. For the declared types `Picklist`, `State` and `Status`: a text that
is a decimal integer of magnitude at most 2^53, with or without a minus sign, is coerced
to that integer whatever the metadata, also without metadata; any other non-empty text
that is the label of an option whose code is the integer `n` of magnitude at most 2^53
is coerced to `n`; and any other non-empty text that is no label fails. -/
theorem option_coercion (env : Env) (s : String) (m : AttributeMeta) (t : String)
    (ht : t = "Picklist" ∨ t = "State" ∨ t = "Status") :
    (∀ n, IsDecimalInteger s.data n → -9007199254740992 ≤ n → n ≤ 9007199254740992 →
      ∀ attrMeta, parseValue env (.str s) (some t) attrMeta = .ok (.num n)) ∧
    ((¬ ∃ n, IsDecimalInteger s.data n) → s ≠ "" →
      ∀ n : Int, -9007199254740992 ≤ n → n ≤ 9007199254740992 →
        (s, toString n) ∈ m.options →
        (∀ code, (s, code) ∈ m.options → code = toString n) →
        parseValue env (.str s) (some t) (some m) = .ok (.num n)) ∧
    ((¬ ∃ n, IsDecimalInteger s.data n) → s ≠ "" → (∀ o ∈ m.options, o.1 ≠ s) →
      ∃ e, parseValue env (.str s) (some t) (some m) = .error e) := by
  have hpv : ∀ attrMeta, parseValue env (.str s) (some t) attrMeta = parseOSV s attrMeta := by
    intro attrMeta
    rcases ht with rfl | rfl | rfl <;> rfl
  refine ⟨?_, ?_, ?_⟩
  · rintro n ⟨digits, hne, hall, ⟨hs, rfl⟩ | ⟨hs, rfl⟩⟩ hlo hhi attrMeta
    · have e : s = String.mk digits := by rw [← hs]
      obtain ⟨h1, _, h3, _⟩ := parseInt_digits digits hne hall
      have hm : decimalValue digits ≤ 2 ^ 53 := by
        norm_num
        omega
      rw [numberValue_exact _ hm] at h1
      rw [hpv, e]
      unfold parseOSV
      rw [if_neg (by intro h0; rw [h0] at h3; exact absurd h3 (by decide)), if_pos h3, h1]
      rfl
    · have e : s = String.mk ('-' :: digits) := by rw [← hs]
      obtain ⟨_, h2, _, h4⟩ := parseInt_digits digits hne hall
      have hm : decimalValue digits ≤ 2 ^ 53 := by
        norm_num
        omega
      rw [numberValue_exact _ hm] at h2
      rw [hpv, e]
      unfold parseOSV
      rw [if_neg (by intro h0; exact absurd (congrArg String.data h0) (by simp)), if_pos h4, h2]
      rfl
  · intro hnot hne n hlo hhi hmem huniq
    have hre : ¬ REGEX_INTEGER s = true := fun h => hnot ((matchInteger_iff s.data).mp h)
    have hlook : m.options.reverse.lookup s = some (toString n) :=
      lookup_of_mem s (toString n) _ (List.mem_reverse.mpr hmem)
        (fun other ho => huniq other (List.mem_reverse.mp ho))
    rw [hpv]
    unfold parseOSV getOSVByLabel
    rw [if_neg hne, if_neg hre]
    simp only [hlook, Option.map_some', (parseInt_toString n hlo hhi).1]
  · intro hnot hne hnone
    have hre : ¬ REGEX_INTEGER s = true := fun h => hnot ((matchInteger_iff s.data).mp h)
    have hlook : m.options.reverse.lookup s = none :=
      lookup_of_not_mem s _ (fun o ho => hnone o (List.mem_reverse.mp ho))
    rw [hpv]
    unfold parseOSV getOSVByLabel
    rw [if_neg hne, if_neg hre]
    simp only [hlook, Option.map_none']
    exact ⟨_, rfl⟩

/-- Witness of C22, amended: the options `Hot = 1` and `Cold = 3`, the label `Cold`, and
the text `-7` without metadata. -/
theorem option_coercion_witness :
    parseValue envNoMatch (.str "Cold") (some "Picklist")
        (some { type := "Picklist", options := [("Hot", "1"), ("Cold", "3")] }) = .ok (.num 3) ∧
      parseValue envNoMatch (.str "-7") (some "Status") none = .ok (.num (-7)) :=
  ⟨(option_coercion envNoMatch "Cold"
      { type := "Picklist", options := [("Hot", "1"), ("Cold", "3")] } "Picklist" (Or.inl rfl)).2.1
      (by
        rintro ⟨n, h⟩
        exact absurd ((matchInteger_iff "Cold".data).mpr ⟨n, h⟩) (by decide))
      (by decide) 3 (by decide) (by decide) (by decide)
      (by
        intro code h
        simp at h
        rw [h]
        rfl),
    (option_coercion envNoMatch "-7" { type := "Status" } "Status" (Or.inr (Or.inr rfl))).1 (-7)
      ⟨['7'], by decide, by decide, Or.inr ⟨rfl, rfl⟩⟩ (by decide) (by decide) none⟩

/-- C22 as stated fails: the text `9007199254740993` is a decimal integer, and its
coercion is the Number `parseInt` returns for it, 9007199254740992, the nearest the
type holds, not that integer. -/
theorem option_coercion_rounds_beyond_exact_range :
    IsDecimalInteger "9007199254740993".data 9007199254740993 ∧
      parseValue envNoMatch (.str "9007199254740993") (some "Picklist") none
        = .ok (.num 9007199254740992) ∧
      parseValue envNoMatch (.str "9007199254740993") (some "Picklist") none
        ≠ .ok (.num 9007199254740993) := by
  have hval : parseValue envNoMatch (.str "9007199254740993") (some "Picklist") none
      = .ok (.num 9007199254740992) := by
    rfl
  refine ⟨⟨"9007199254740993".data, by decide, by decide, Or.inl ⟨rfl, by rfl⟩⟩, hval, ?_⟩
  rw [hval]
  intro h
  have h1 : (9007199254740992 : Int) = 9007199254740993 := by
    injection h with h0
    injection h0
  exact absurd h1 (by decide)

/-! ## Mappings under Update and mappings without a coercion function -/

/-- While `id` is `null`, an iteration that is not a Map to the primary identifier
leaves it `null`. -/
theorem processRecordStep_null_id (env : Env) (ctx : Ctx) (raw : RawRow) (field : Field)
    (pckg p : Pckg) (w w1 : World) (hnull : pckg.id = .null)
    (hfield : field.mode = "Map" → field.to_ ≠ some ctx.meta.primaryIdAttribute)
    (hstep : processRecordStep env ctx raw field pckg w = (.ok p, w1)) : p.id = .null := by
  by_cases hmap : field.mode = "Map"
  · by_cases hkey : isKeyMember ctx.key field.to_ = true
    · exfalso
      unfold processRecordStep at hstep
      simp only [hmap, hfield hmap, hkey, hnull, show ("Map" : String) ≠ "Ignore" by decide,
        show ("Map" : String) ≠ "ETag" by decide, if_false, if_true] at hstep
      split at hstep <;> simp at hstep
    · have h := processRecordStep_id env ctx raw field pckg p w w1
        (fun _ => ⟨hfield hmap, by simpa using hkey⟩) hstep
      rw [h.1, hnull]
  · have h := processRecordStep_id env ctx raw field pckg p w w1
      (fun hm => (hmap hm).elim) hstep
    rw [h.1, hnull]

/-- While `id` is `null`, a Map to a member of the selected key fails the row. -/
theorem processRecordStep_key_null (env : Env) (ctx : Ctx) (raw : RawRow) (field : Field)
    (pckg : Pckg) (w : World) (hnull : pckg.id = .null) (hmode : field.mode = "Map")
    (hid : field.to_ ≠ some ctx.meta.primaryIdAttribute)
    (hkey : isKeyMember ctx.key field.to_ = true) :
    ∃ e, processRecordStep env ctx raw field pckg w = (.error e, w) := by
  unfold processRecordStep
  simp only [hmode, hid, hkey, hnull, show ("Map" : String) ≠ "Ignore" by decide,
    show ("Map" : String) ≠ "ETag" by decide, if_false, if_true]
  split
  · exact ⟨_, rfl⟩
  · exact ⟨_, rfl⟩

theorem processRecordLoop_key_null (env : Env) (ctx : Ctx) (raw : RawRow) (field : Field)
    (hmode : field.mode = "Map") (hid : field.to_ ≠ some ctx.meta.primaryIdAttribute)
    (hkey : isKeyMember ctx.key field.to_ = true) :
    ∀ (fields : List Field) (pckg : Pckg) (w : World), field ∈ fields →
      (∀ f ∈ fields, f.mode = "Map" → f.to_ ≠ some ctx.meta.primaryIdAttribute) →
      pckg.id = .null → ∃ e w1, processRecordLoop env ctx raw fields pckg w = (.error e, w1) := by
  intro fields
  induction fields with
  | nil =>
    intro pckg w h
    cases h
  | cons f rest ih =>
    intro pckg w hmem hnoid hnull
    unfold processRecordLoop
    rcases hs : processRecordStep env ctx raw f pckg w with ⟨res, w0⟩
    cases res with
    | error e => exact ⟨e, w0, rfl⟩
    | ok p =>
      dsimp only
      rcases List.mem_cons.mp hmem with hf | hf
      · subst hf
        obtain ⟨e, he⟩ := processRecordStep_key_null env ctx raw field pckg w hnull hmode hid hkey
        rw [he] at hs
        cases hs
      · exact ih p w0 hf (fun g hg => hnoid g (List.mem_cons_of_mem _ hg))
          (processRecordStep_null_id env ctx raw f pckg p w w0 hnull
            (hnoid f (List.mem_cons_self _ _)) hs)

/-- C27. With operation kind Update and an alternate key selected, the package starts
with `id = null`, and `processRecord` fails every row when the mappings hold no Map to
the primary identifier and hold a Map to a member attribute of the selected key. -/
theorem update_by_key_fails (env : Env) (ctx : Ctx) (raw : RawRow) (w : World)
    (key : AlternateKey) (field : Field) (attr : String)
    (hop : ctx.operation = .UpdateRequest) (hkey : ctx.key = some key)
    (hmem : field ∈ ctx.fields) (hmode : field.mode = "Map") (hto : field.to_ = some attr)
    (hattr : attr ∈ key.KeyAttributes)
    (hnoid : ∀ f ∈ ctx.fields, f.mode = "Map" → f.to_ ≠ some ctx.meta.primaryIdAttribute) :
    (initialPckg env ctx w).1.id = .null ∧
      ∃ e w1, processRecord env ctx raw w = (.error e, w1) := by
  have hinit : initialPckg env ctx w =
      ({ logicalName := ctx.entity, id := .null, etag := .null, entity := [] }, w) := by
    unfold initialPckg
    rw [if_pos hop]
  have hmember : isKeyMember ctx.key field.to_ = true := by
    rw [hkey, hto]
    simpa [isKeyMember] using hattr
  refine ⟨by rw [hinit], ?_⟩
  obtain ⟨e, w1, h⟩ := processRecordLoop_key_null env ctx raw field hmode
    (hnoid field hmem hmode) hmember ctx.fields (initialPckg env ctx w).1
    (initialPckg env ctx w).2 hmem hnoid (by rw [hinit])
  refine ⟨e, w1, ?_⟩
  unfold processRecord
  rw [if_neg (by rw [hop]; decide), h]

/-- Witness of C27: Update on `account` by the key on `accountnumber`, with the
mapping of the column `number` to it. -/
theorem update_by_key_fails_witness :
    (initialPckg envNoMatch ctxUpdateByNumber {}).1.id = .null ∧
      ∃ e w1, processRecord envNoMatch ctxUpdateByNumber [("number", some "A-1")] {} =
        (.error e, w1) :=
  update_by_key_fails envNoMatch ctxUpdateByNumber [("number", some "A-1")] {} keyAccountNumber
    fieldAccountNumber "accountnumber" rfl rfl (by simp [ctxUpdateByNumber]) rfl rfl
    (by simp [keyAccountNumber])
    (by
      intro f hf _
      simp only [ctxUpdateByNumber, List.mem_singleton] at hf
      rw [hf]
      decide)

theorem getProp_setProp (k : String) (v : Value) (props : List (String × Value)) :
    getProp k (setProp k v props) = v := by
  induction props with
  | nil => simp [setProp, getProp, List.lookup]
  | cons p rest ih =>
    obtain ⟨k1, v1⟩ := p
    unfold setProp
    by_cases h : k1 = k
    · rw [if_pos h]
      simp [getProp, List.lookup]
    · rw [if_neg h]
      have hne : (k == k1) = false := by simpa using fun e => h e.symm
      unfold getProp at ih ⊢
      simp only [List.lookup, hne]
      exact ih

/-- A declared type without an entry in `Parsers` is none of the lookup types. -/
theorem isLookup_of_no_coercion (env : Env) (field : Field) (h : Parsers env field.type = none) :
    isLookup field = false := by
  unfold isLookup
  cases ht : field.type with
  | none => rfl
  | some t =>
    rw [ht] at h
    simp only [LOOKUPTYPES, List.contains_cons, List.contains_nil, Bool.or_false,
      Bool.or_eq_false_iff, beq_eq_false_iff_ne, ne_eq]
    refine ⟨?_, ?_, ?_⟩ <;> intro e <;> rw [e] at h <;> cases h

/-- C28, amended. In the loop for create, update and upsert, a Map mapping whose
declared type has no coercion function and whose destination is not the primary
identifier fails the row whenever the raw value is a string. When the raw value is not
a string, `null` is written for the destination, and into the natural-key map too when
the destination is a member of the selected key; the row then fails only when that map
is `null`, as under Update. -/
theorem map_without_coercion (env : Env) (ctx : Ctx) (raw : RawRow) (field : Field)
    (pckg : Pckg) (w : World) (hmode : field.mode = "Map")
    (hid : field.to_ ≠ some ctx.meta.primaryIdAttribute)
    (hnone : Parsers env field.type = none)
    (_hown : ∀ t, field.type = some t → t ∉ inheritedNames) :
    (∀ s, raw.get field.from_ = .str s →
      (∃ e, processRecordStep env ctx raw field pckg w = (.error e, w)) ∧
      (ctx.operation ≠ .AssociateRequest → ctx.fields = [field] →
        ∃ e w1, processRecord env ctx raw w = (.error e, w1))) ∧
    ((∀ s, raw.get field.from_ ≠ .str s) →
      (isKeyMember ctx.key field.to_ = false →
        processRecordStep env ctx raw field pckg w =
          (.ok (pckg.setField field.to_ .null), w)) ∧
      (isKeyMember ctx.key field.to_ = true → ∀ props, pckg.id = .obj props →
        processRecordStep env ctx raw field pckg w =
          (.ok ({ pckg with id := .obj (setProp (keyOf field.to_) .null props) }.setField
            field.to_ .null), w)) ∧
      (isKeyMember ctx.key field.to_ = true → pckg.id = .null →
        ∃ e, processRecordStep env ctx raw field pckg w = (.error e, w)) ∧
      (ctx.operation ≠ .AssociateRequest → ctx.fields = [field] →
        ¬ (ctx.operation = .UpdateRequest ∧ isKeyMember ctx.key field.to_ = true) →
        ∃ p w1, processRecord env ctx raw w = (.ok (.record p), w1) ∧
          getProp (keyOf field.to_) p.entity = .null)) := by
  have hlookup := isLookup_of_no_coercion env field hnone
  have hstr : ∀ s attrMeta, parseValue env (.str s) field.type attrMeta = .error "TypeError" := by
    intro s attrMeta
    unfold parseValue
    simp only [hnone]
  have hother : ∀ attrMeta, (∀ s, raw.get field.from_ ≠ .str s) →
      parseValue env (raw.get field.from_) field.type attrMeta = .ok .null := by
    intro attrMeta h
    unfold parseValue
    cases hc : raw.get field.from_ with
    | undefined => rfl
    | null => rfl
    | str s => exact (h s hc).elim
  have hstep_str : ∀ s (p : Pckg) (w0 : World), raw.get field.from_ = .str s →
      ∃ e, processRecordStep env ctx raw field p w0 = (.error e, w0) := by
    intro s p w0 hs
    unfold processRecordStep
    simp only [hmode, hid, hlookup, hs, hstr, show ("Map" : String) ≠ "Ignore" by decide,
      show ("Map" : String) ≠ "ETag" by decide, Bool.false_eq_true, if_false, if_true]
    split <;> exact ⟨_, rfl⟩
  have hstep_plain : ∀ (p : Pckg) (w0 : World), (∀ s, raw.get field.from_ ≠ .str s) →
      isKeyMember ctx.key field.to_ = false →
      processRecordStep env ctx raw field p w0 = (.ok (p.setField field.to_ .null), w0) := by
    intro p w0 h hkey
    unfold processRecordStep
    simp only [hmode, hid, hlookup, hkey, hother _ h, show ("Map" : String) ≠ "Ignore" by decide,
      show ("Map" : String) ≠ "ETag" by decide, Bool.false_eq_true, if_false, if_true]
  have hstep_key : ∀ (p : Pckg) (w0 : World) props, (∀ s, raw.get field.from_ ≠ .str s) →
      isKeyMember ctx.key field.to_ = true → p.id = .obj props →
      processRecordStep env ctx raw field p w0 =
        (.ok ({ p with id := .obj (setProp (keyOf field.to_) .null props) }.setField
          field.to_ .null), w0) := by
    intro p w0 props h hkey hobj
    unfold processRecordStep
    simp only [hmode, hid, hkey, hobj, hother _ h, show ("Map" : String) ≠ "Ignore" by decide,
      show ("Map" : String) ≠ "ETag" by decide, if_false, if_true]
  refine ⟨?_, ?_⟩
  · intro s hs
    refine ⟨hstep_str s pckg w hs, ?_⟩
    intro hop hfields
    obtain ⟨e, he⟩ := hstep_str s (initialPckg env ctx w).1 (initialPckg env ctx w).2 hs
    exact ⟨e, _, processRecord_single_error env ctx raw w _ field e hop hfields he⟩
  · intro h
    refine ⟨hstep_plain pckg w h, fun hkey props hobj => hstep_key pckg w props h hkey hobj,
      fun hkey hnull => processRecordStep_key_null env ctx raw field pckg w hnull hmode hid hkey,
      ?_⟩
    intro hop hfields hnot
    cases hkey : isKeyMember ctx.key field.to_ with
    | false =>
      refine ⟨_, _, processRecord_single_ok env ctx raw w _ field _ hop hfields
        (hstep_plain _ _ h hkey), ?_⟩
      exact getProp_setProp _ _ _
    | true =>
      have hupd : ctx.operation ≠ .UpdateRequest := fun e => hnot ⟨e, hkey⟩
      have hsome : ctx.key.isSome = true := by
        cases hk : ctx.key with
        | none =>
          rw [hk] at hkey
          simp [isKeyMember] at hkey
        | some k => rfl
      have hinit : (initialPckg env ctx w).1.id = .obj [] := by
        unfold initialPckg
        rw [if_neg hupd, if_pos hsome]
      refine ⟨_, _, processRecord_single_ok env ctx raw w _ field _ hop hfields
        (hstep_key _ _ [] h hkey hinit), ?_⟩
      exact getProp_setProp _ _ _

/-- Witness of C28: a column that matches no attribute, with a text and with `null`. -/
theorem map_without_coercion_witness :
    (∃ e w1, processRecord envNoMatch
        { entity := "account", meta := metaAccount, operation := .CreateRequest,
          fields := [fieldUnmatched] } [("remark", some "n/a")] {} = (.error e, w1)) ∧
      (∃ p w1, processRecord envNoMatch
        { entity := "account", meta := metaAccount, operation := .CreateRequest,
          fields := [fieldUnmatched] } [("remark", none)] {} = (.ok (.record p), w1) ∧
        getProp "null" p.entity = .null) :=
  ⟨((map_without_coercion envNoMatch
      { entity := "account", meta := metaAccount, operation := .CreateRequest,
        fields := [fieldUnmatched] } [("remark", some "n/a")] fieldUnmatched
      (initialPckg envNoMatch ctxCreateName {}).1 {} rfl (by decide) rfl
      (by intro t ht; cases ht)).1 "n/a" rfl).2 (by decide) rfl,
    ((map_without_coercion envNoMatch
      { entity := "account", meta := metaAccount, operation := .CreateRequest,
        fields := [fieldUnmatched] } [("remark", none)] fieldUnmatched
      (initialPckg envNoMatch ctxCreateName {}).1 {} rfl (by decide) rfl
      (by intro t ht; cases ht)).2 (by intro s hs; cases hs)).2.2.2 (by decide) rfl
      (by rintro ⟨h, _⟩; cases h)⟩

/-- Counterexample to C28 as stated: Update by the alternate key on `accountnumber`, a
Map to that attribute with the type `Double`, which has no coercion function, and a raw
value that is `null`, not a string: the row fails. -/
theorem map_without_coercion_null_fails_under_update :
    Parsers envNoMatch fieldNumberDouble.type = none ∧
      RawRow.get [("number", none)] fieldNumberDouble.from_ = .null ∧
      processRecord envNoMatch
        { entity := "account", meta := metaAccount, key := some keyAccountNumber,
          operation := .UpdateRequest, fields := [fieldNumberDouble] } [("number", none)] {} =
        (.error "TypeError", {}) := by
  refine ⟨rfl, rfl, rfl⟩

/-! ## Import run without cancellation -/

theorem executedOf_append {Row P : Type} (xs ys : List (ImportEvent Row P)) :
    executedOf (xs ++ ys) = executedOf xs ++ executedOf ys := by
  induction xs with
  | nil => rfl
  | cons x xs ih => cases x <;> simp [executedOf, ih]

theorem transformedOf_append {Row P : Type} (xs ys : List (ImportEvent Row P)) :
    transformedOf (xs ++ ys) = transformedOf xs ++ transformedOf ys := by
  induction xs with
  | nil => rfl
  | cons x xs ih => cases x <;> simp [transformedOf, ih]

theorem transformedPackages_append {Row P W : Type} (env : ImportEnv Row P W) (ys : List Row) :
    ∀ (xs : List Row) (w : W),
      transformedPackages env (xs ++ ys) w =
        transformedPackages env xs w ++ transformedPackages env ys (worldAfterRows env xs w) := by
  intro xs
  induction xs with
  | nil =>
    intro w
    rfl
  | cons x xs ih =>
    intro w
    simp only [List.cons_append, transformedPackages, worldAfterRows]
    rcases h : env.processRecord x w with ⟨res, w1⟩
    cases res <;> simp [ih]

theorem worldAfterRows_append {Row P W : Type} (env : ImportEnv Row P W) (ys : List Row) :
    ∀ (xs : List Row) (w : W),
      worldAfterRows env (xs ++ ys) w = worldAfterRows env ys (worldAfterRows env xs w) := by
  intro xs
  induction xs with
  | nil =>
    intro w
    rfl
  | cons x xs ih =>
    intro w
    exact ih (env.processRecord x w).2

/-- A wait during which Cancel is not clicked appends its event and changes nothing
else. -/
theorem ImportRun.await_of_not_clicked {Row P W : Type} (clicked : Nat → Bool)
    (r : ImportRun Row P W) (e : ImportEvent Row P) (h : clicked r.awaits = false) :
    r.await clicked e = { r with events := r.events ++ [e], awaits := r.awaits + 1 } := by
  simp [ImportRun.await, h]

/-- The loop over the records of a page when Cancel is never clicked: every record is
transformed, the packages are those of the records transformed successfully, and every
record that fails adds one to `Failed`. -/
theorem transformRows_of_not_clicked {Row P W : Type} (env : ImportEnv Row P W)
    (hclick : ∀ i, env.clicked i = false) :
    ∀ (rows : List Row) (pckgs : List P) (r : ImportRun Row P W), r.cancelled = false →
      (transformRows env rows pckgs r).1 = pckgs ++ transformedPackages env rows r.world ∧
      (transformRows env rows pckgs r).2.cancelled = false ∧
      (transformRows env rows pckgs r).2.error = r.error ∧
      (transformRows env rows pckgs r).2.world = worldAfterRows env rows r.world ∧
      executedOf (transformRows env rows pckgs r).2.events = executedOf r.events ∧
      transformedOf (transformRows env rows pckgs r).2.events = transformedOf r.events ++ rows ∧
      (transformRows env rows pckgs r).2.counts.Success = r.counts.Success ∧
      (transformRows env rows pckgs r).2.counts.Failed +
          (transformedPackages env rows r.world).length = r.counts.Failed + rows.length := by
  intro rows
  induction rows with
  | nil =>
    intro pckgs r hno
    simp [transformRows, transformedPackages, worldAfterRows, hno]
  | cons row rest ih =>
    intro pckgs r hno
    unfold transformRows
    rcases h : env.processRecord row r.world with ⟨res, w1⟩
    cases res with
    | ok pckg =>
      dsimp only
      rw [ImportRun.await_of_not_clicked _ _ _ (hclick _)]
      dsimp only
      rw [if_neg (by simp [hno])]
      have hrest := ih (pckgs ++ [pckg])
        { events := r.events ++ [.transform row true], counts := r.counts,
          cancelled := r.cancelled, awaits := r.awaits + 1, world := w1, error := r.error } hno
      dsimp only at hrest
      obtain ⟨h1, h2, h3, h4, h5, h6, h7, h8⟩ := hrest
      simp only [transformedPackages, worldAfterRows, h]
      refine ⟨by rw [h1]; simp, h2, h3, h4, ?_, ?_, h7, ?_⟩
      · rw [h5, executedOf_append]
        simp [executedOf]
      · rw [h6, transformedOf_append]
        simp [transformedOf]
      · simp only [List.length_cons]
        omega
    | error msg =>
      dsimp only
      rw [ImportRun.await_of_not_clicked _ _ _ (hclick _)]
      simp only [ImportRun.failed]
      rw [if_neg (by simp [hno])]
      have hrest := ih pckgs
        { events := r.events ++ [.transform row false],
          counts := { r.counts with Failed := r.counts.Failed + 1 },
          cancelled := r.cancelled, awaits := r.awaits + 1, world := w1, error := r.error } hno
      dsimp only at hrest
      obtain ⟨h1, h2, h3, h4, h5, h6, h7, h8⟩ := hrest
      simp only [transformedPackages, worldAfterRows, h]
      refine ⟨h1, h2, h3, h4, ?_, ?_, h7, ?_⟩
      · rw [h5, executedOf_append]
        simp [executedOf]
      · rw [h6, transformedOf_append]
        simp [transformedOf]
      · simp only [List.length_cons]
        omega

/-- The loop that executes the packages one by one when Cancel is never clicked: every
package is executed, in order, and adds one to `Success` or to `Failed`. -/
theorem executeAll_of_not_clicked {Row P W : Type} (env : ImportEnv Row P W)
    (hclick : ∀ i, env.clicked i = false) :
    ∀ (pckgs : List P) (r : ImportRun Row P W), r.cancelled = false →
      (executeAll env pckgs r).cancelled = false ∧
      (executeAll env pckgs r).error = r.error ∧
      (executeAll env pckgs r).world = r.world ∧
      executedOf (executeAll env pckgs r).events = executedOf r.events ++ pckgs ∧
      transformedOf (executeAll env pckgs r).events = transformedOf r.events ∧
      (executeAll env pckgs r).counts.Success + (executeAll env pckgs r).counts.Failed =
        r.counts.Success + r.counts.Failed + pckgs.length := by
  intro pckgs
  induction pckgs with
  | nil =>
    intro r hno
    simp [executeAll, hno]
  | cons pckg rest ih =>
    intro r hno
    unfold executeAll
    dsimp only
    rw [ImportRun.await_of_not_clicked _ _ _ (hclick _)]
    cases hok : env.execute r.awaits pckg with
    | true =>
      simp only [if_true, ImportRun.succeeded]
      rw [if_neg (by simp [hno])]
      have hrest := ih
        { events := r.events ++ [.execute pckg true],
          counts := { r.counts with Success := r.counts.Success + 1 },
          cancelled := r.cancelled, awaits := r.awaits + 1, world := r.world,
          error := r.error } hno
      dsimp only at hrest
      obtain ⟨h1, h2, h3, h4, h5, h6⟩ := hrest
      refine ⟨h1, h2, h3, ?_, ?_, ?_⟩
      · rw [h4, executedOf_append]
        simp [executedOf]
      · rw [h5, transformedOf_append]
        simp [transformedOf]
      · simp only [List.length_cons]
        omega
    | false =>
      simp only [Bool.false_eq_true, if_false, ImportRun.failed]
      rw [if_neg (by simp [hno])]
      have hrest := ih
        { events := r.events ++ [.execute pckg false],
          counts := { r.counts with Failed := r.counts.Failed + 1 },
          cancelled := r.cancelled, awaits := r.awaits + 1, world := r.world,
          error := r.error } hno
      dsimp only at hrest
      obtain ⟨h1, h2, h3, h4, h5, h6⟩ := hrest
      refine ⟨h1, h2, h3, ?_, ?_, ?_⟩
      · rw [h4, executedOf_append]
        simp [executedOf]
      · rw [h5, transformedOf_append]
        simp [transformedOf]
      · simp only [List.length_cons]
        omega

/-- The loop over the pages in the mode that executes one by one, when the reader does
not fail and Cancel is never clicked. -/
theorem importPages_direct {Row P W : Type} (env : ImportEnv Row P W)
    (hq : env.useOpsQueue = false) (hb : env.useBatch = false)
    (hclick : ∀ i, env.clicked i = false) :
    ∀ (pages : List (List Row)) (r : ImportRun Row P W), r.cancelled = false →
      (importPages env (pages.map Except.ok) r).error = r.error ∧
      executedOf (importPages env (pages.map Except.ok) r).events =
        executedOf r.events ++ transformedPackages env pages.flatten r.world ∧
      transformedOf (importPages env (pages.map Except.ok) r).events =
        transformedOf r.events ++ pages.flatten ∧
      (importPages env (pages.map Except.ok) r).counts.Success +
          (importPages env (pages.map Except.ok) r).counts.Failed =
        r.counts.Success + r.counts.Failed + pages.flatten.length := by
  intro pages
  induction pages with
  | nil =>
    intro r hno
    simp only [List.map_nil, importPages]
    rw [ImportRun.await_of_not_clicked _ _ _ (hclick _)]
    simp [executedOf_append, transformedOf_append, executedOf, transformedOf,
      transformedPackages]
  | cons page rest ih =>
    intro r hno
    simp only [List.map_cons]
    unfold importPages
    rw [ImportRun.await_of_not_clicked _ _ _ (hclick _)]
    have ht := transformRows_of_not_clicked env hclick page []
      { events := r.events ++ [.read true], counts := r.counts, cancelled := r.cancelled,
        awaits := r.awaits + 1, world := r.world, error := r.error } hno
    rcases htr : transformRows env page []
      { events := r.events ++ [.read true], counts := r.counts, cancelled := r.cancelled,
        awaits := r.awaits + 1, world := r.world, error := r.error } with ⟨pckgs, r2⟩
    rw [htr] at ht
    dsimp only at ht ⊢
    obtain ⟨t1, t2, t3, t4, t5, t6, t7, t8⟩ := ht
    rw [if_neg (by simp [t2]), if_neg (by simp [hq]), if_neg (by simp [hb])]
    obtain ⟨e2, e3, e4, e5, e6, e7⟩ := executeAll_of_not_clicked env hclick pckgs r2 t2
    obtain ⟨i1, i2, i3, i4⟩ := ih (executeAll env pckgs r2) e2
    rw [List.nil_append] at t1
    refine ⟨?_, ?_, ?_, ?_⟩
    · rw [i1, e3, t3]
    · rw [i2, e5, t5, e4, t4, t1, executedOf_append, List.flatten_cons,
        transformedPackages_append]
      simp [executedOf]
    · rw [i3, e6, t6, transformedOf_append, List.flatten_cons]
      simp [transformedOf]
    · rw [i4, e7, t7, t1, List.flatten_cons, List.length_append]
      omega

/-- C25. In the mode that executes the packages one by one, when the reader does not
fail and Cancel is never clicked: every row of the source is given to `processRecord`,
in source order; the packages given to `Service.execute` are exactly the packages of the
rows transformed successfully, in source order; `Failed` grows by one for every row
whose transformation fails and every package whose execution fails, `Success` by one
for every other row; `Success + Failed` grows by exactly the number of rows; and no
error is reported. -/
theorem import_rows_isolated {Row P W : Type} (env : ImportEnv Row P W) (counts : Counts)
    (world : W) (pages : List (List Row)) (n : Nat) (hcount : env.count = .ok n)
    (hpages : env.pages = pages.map Except.ok) (hq : env.useOpsQueue = false)
    (hb : env.useBatch = false) (hclick : ∀ i, env.clicked i = false) :
    transformedOf (importData env counts world).events = pages.flatten ∧
      executedOf (importData env counts world).events =
        transformedPackages env pages.flatten world ∧
      (importData env counts world).counts.Failed =
        counts.Failed + failuresOf (importData env counts world).events ∧
      (importData env counts world).counts.Success =
        counts.Success + successesOf (importData env counts world).events ∧
      (importData env counts world).counts.Success + (importData env counts world).counts.Failed =
        counts.Success + counts.Failed + pages.flatten.length ∧
      (importData env counts world).error = false := by
  obtain ⟨r, hinv, hr⟩ := importData_inv env counts world
  have hrun : importData env counts world =
      { importPages env (pages.map Except.ok)
          { events := [.count true], counts := counts, cancelled := false, awaits := 1,
            world := world, error := false } with cancelled := false } := by
    unfold importData
    simp only [hcount, hpages]
    rw [ImportRun.await_of_not_clicked _ _ _ (hclick _)]
    rfl
  obtain ⟨i1, i2, i3, i4⟩ := importPages_direct env hq hb hclick pages
    { events := [.count true], counts := counts, cancelled := false, awaits := 1,
      world := world, error := false } rfl
  refine ⟨?_, ?_, ?_, ?_, ?_, ?_⟩
  · rw [hrun]
    exact i3
  · rw [hrun]
    exact i2
  · rw [hr]
    exact hinv.failed
  · rw [hr]
    exact hinv.success
  · rw [hrun]
    exact i4
  · rw [hrun]
    exact i1

/-- Witness of C25: the three example rows in two pages under Update; the second row
fails in the transformation and the execution of the third package fails. -/
theorem import_rows_isolated_witness :
    transformedOf (importData importThreeRowsDirect {} {}).events = pagesThreeRows.flatten ∧
      (importData importThreeRowsDirect {} {}).counts.Success +
          (importData importThreeRowsDirect {} {}).counts.Failed = 3 ∧
      (importData importThreeRowsDirect {} {}).counts.Failed = 2 ∧
      (importData importThreeRowsDirect {} {}).counts.Success = 1 :=
  have h := import_rows_isolated importThreeRowsDirect {} {} pagesThreeRows 3 rfl rfl rfl rfl
    (fun _ => rfl)
  ⟨h.1, h.2.2.2.2.1, by decide, by decide⟩

/-! ## Import run with a failing source -/

/-- The pages that would follow a page at which the reader fails have no part in the
run. -/
theorem importPages_stops_at_failure {Row P W : Type} (env : ImportEnv Row P W) (msg : String)
    (rest : List (Except String (List Row))) :
    ∀ (before : List (Except String (List Row))) (r : ImportRun Row P W),
      importPages env (before ++ .error msg :: rest) r =
        importPages env (before ++ [.error msg]) r := by
  intro before
  induction before with
  | nil =>
    intro r
    rfl
  | cons page more ih =>
    intro r
    cases page with
    | error e => rfl
    | ok rows =>
      simp only [List.cons_append]
      unfold importPages
      rcases transformRows env rows [] (r.await env.clicked (.read true)) with ⟨pckgs, r2⟩
      dsimp only
      split
      · rfl
      · split
        · exact ih _
        · split
          · split
            · rfl
            · exact ih _
          · exact ih _

theorem ImportRun.await_no_failed_read {Row P W : Type} (clicked : Nat → Bool)
    (r : ImportRun Row P W) (e : ImportEvent Row P) (he : e.isFailedRead = false)
    (h : ∀ x ∈ r.events, x.isFailedRead = false) :
    ∀ x ∈ (r.await clicked e).events, x.isFailedRead = false := by
  intro x hx
  rcases (ImportRun.await_cases clicked r e).1 with ⟨hev, _⟩ | ⟨_, hev, _⟩
  · rw [hev] at hx
    rcases List.mem_append.mp hx with hx | hx
    · exact h x hx
    · rw [List.mem_singleton.mp hx]
      exact he
  · rw [hev] at hx
    rcases List.mem_append.mp hx with hx | hx
    · rcases List.mem_append.mp hx with hx | hx
      · exact h x hx
      · rw [List.mem_singleton.mp hx]
        exact he
    · rw [List.mem_singleton.mp hx]
      rfl

theorem transformRows_no_failed_read {Row P W : Type} (env : ImportEnv Row P W) :
    ∀ (rows : List Row) (pckgs : List P) (r : ImportRun Row P W),
      (∀ x ∈ r.events, x.isFailedRead = false) →
      ∀ x ∈ (transformRows env rows pckgs r).2.events, x.isFailedRead = false := by
  intro rows
  induction rows with
  | nil =>
    intro pckgs r h
    exact h
  | cons row rest ih =>
    intro pckgs r h
    unfold transformRows
    rcases env.processRecord row r.world with ⟨res, w1⟩
    cases res with
    | ok pckg =>
      dsimp only
      have h1 := ImportRun.await_no_failed_read env.clicked r (.transform row true) rfl h
      split
      · exact h1
      · exact ih _ _ h1
    | error e =>
      dsimp only
      have h1 := ImportRun.await_no_failed_read env.clicked r (.transform row false) rfl h
      split
      · exact h1
      · exact ih _ _ h1

theorem executeAll_no_failed_read {Row P W : Type} (env : ImportEnv Row P W) :
    ∀ (pckgs : List P) (r : ImportRun Row P W),
      (∀ x ∈ r.events, x.isFailedRead = false) →
      ∀ x ∈ (executeAll env pckgs r).events, x.isFailedRead = false := by
  intro pckgs
  induction pckgs with
  | nil =>
    intro r h
    exact h
  | cons pckg rest ih =>
    intro r h
    unfold executeAll
    dsimp only
    have h1 := ImportRun.await_no_failed_read env.clicked r
      (.execute pckg (env.execute r.awaits pckg)) rfl h
    have h2 : ∀ x ∈ (if env.execute r.awaits pckg = true then
        (r.await env.clicked (.execute pckg (env.execute r.awaits pckg))).succeeded 1
        else (r.await env.clicked (.execute pckg (env.execute r.awaits pckg))).failed 1).events,
        x.isFailedRead = false := by
      split <;> exact h1
    generalize (if env.execute r.awaits pckg = true then
        (r.await env.clicked (.execute pckg (env.execute r.awaits pckg))).succeeded 1
        else (r.await env.clicked (.execute pckg (env.execute r.awaits pckg))).failed 1) = r2
      at h2 ⊢
    split
    · exact h2
    · exact ih _ h2

/-- The loop over the pages either meets no failing read, or ends with the failing read
as its last event, followed at most by the setting of `cancelled`, and reports the
error. -/
theorem importPages_failed_read {Row P W : Type} (env : ImportEnv Row P W) :
    ∀ (pages : List (Except String (List Row))) (r : ImportRun Row P W),
      (∀ x ∈ r.events, x.isFailedRead = false) →
      (∀ x ∈ (importPages env pages r).events, x.isFailedRead = false) ∨
      ((importPages env pages r).error = true ∧
        ∃ before, (∀ x ∈ before, x.isFailedRead = false) ∧
          ((importPages env pages r).events = before ++ [.read false] ∨
            (importPages env pages r).events = before ++ [.read false] ++ [.cancelSet])) := by
  intro pages
  induction pages with
  | nil =>
    intro r h
    left
    exact ImportRun.await_no_failed_read env.clicked r (.read true) rfl h
  | cons page rest ih =>
    intro r h
    cases page with
    | error e =>
      right
      refine ⟨rfl, r.events, h, ?_⟩
      rcases (ImportRun.await_cases env.clicked r (.read false)).1 with ⟨hev, _⟩ | ⟨_, hev, _⟩
      · exact Or.inl hev
      · exact Or.inr hev
    | ok rows =>
      have h1 := ImportRun.await_no_failed_read env.clicked r (.read true) rfl h
      have h2 := transformRows_no_failed_read env rows [] _ h1
      unfold importPages
      rcases htr : transformRows env rows [] (r.await env.clicked (.read true)) with ⟨pckgs, r2⟩
      rw [htr] at h2
      dsimp only at h2 ⊢
      split
      · exact Or.inl h2
      · split
        · apply ih
          have h3 := ImportRun.await_no_failed_read env.clicked r2
            (.pushRange pckgs (env.pushRange r2.awaits pckgs)) rfl h2
          split <;> exact h3
        · split
          · split
            · left
              exact ImportRun.await_no_failed_read env.clicked r2 (.batch pckgs none) rfl h2
            · apply ih
              exact ImportRun.await_no_failed_read env.clicked r2 _ rfl h2
          · exact ih _ (executeAll_no_failed_read env pckgs r2 h2)

/-- C26, amended. If the reader fails while producing a page, the run ends there: the
failing read is its last event, followed at most by a click on Cancel during it; the
error is reported; no count changes afterwards, since nothing follows; and the loop
over the pages runs as if no page came after the failing one. -/
theorem import_page_failure_ends_run {Row P W : Type} (env : ImportEnv Row P W)
    (counts : Counts) (world : W) :
    ((∃ x ∈ (importData env counts world).events, x.isFailedRead = true) →
      (importData env counts world).error = true ∧
        ∃ before, (∀ x ∈ before, x.isFailedRead = false) ∧
          ((importData env counts world).events = before ++ [.read false] ∨
            (importData env counts world).events = before ++ [.read false] ++ [.cancelSet])) ∧
    (∀ before msg rest, env.pages = before ++ .error msg :: rest →
      ∀ r, importPages env env.pages r = importPages env (before ++ [.error msg]) r) := by
  constructor
  · rintro ⟨x, hx, hfail⟩
    unfold importData at hx ⊢
    dsimp only at hx ⊢
    cases hc : env.count with
    | error e =>
      rw [hc] at hx
      dsimp only at hx
      rcases (ImportRun.await_cases env.clicked
        (ImportRun.mk ([] : List (ImportEvent Row P)) counts false 0 world false)
        (.count false)).1 with ⟨hev, _⟩ | ⟨_, hev, _⟩
      · rw [hev] at hx
        simp at hx
        rw [hx] at hfail
        cases hfail
      · rw [hev] at hx
        simp at hx
        rcases hx with hx | hx <;> rw [hx] at hfail <;> cases hfail
    | ok n =>
      rw [hc] at hx
      dsimp only at hx ⊢
      have h0 : ∀ y ∈ ((ImportRun.mk ([] : List (ImportEvent Row P)) counts false 0 world
          false).await env.clicked (.count true)).events, y.isFailedRead = false :=
        ImportRun.await_no_failed_read env.clicked _ (.count true) rfl
          (fun y hy => by cases hy)
      rcases importPages_failed_read env env.pages _ h0 with hnone | hsome
      · rw [hnone x hx] at hfail
        cases hfail
      · exact hsome
  · intro before msg rest hpages r
    rw [hpages, importPages_stops_at_failure]

/-- Counterexample to C26 as stated: the reader fails at the first page and a second
page would follow; the run reports the error and ends after the failing read, and the
second page is neither read nor processed. -/
theorem import_page_failure_aborts :
    (importData importFirstPageFails {} ()).events = [.count true, .read false] ∧
      (importData importFirstPageFails {} ()).error = true ∧
      transformedOf (importData importFirstPageFails {} ()).events = [] ∧
      (importData importFirstPageFails {} ()).counts = {} := by
  decide


/-! ## Completion of the streaming parser -/

/-- C29. Evaluation on a file of one result with a `step` callback that returns a
promise: the worker posts the rest of the page and the completion message one after the
other; after the controller has handled both, the promise of `parseInWorker` is
resolved although the promise of `step` for the micro-batch is still pending and no
processing has ended. -/
theorem parseInWorker_resolves_before_last_batch :
    Stream.Reachable [1] none streamResolvedEarly ∧
      streamResolvedEarly.controller.resolved = some 1 ∧
      streamResolvedEarly.controller.pending = 1 ∧
      streamResolvedEarly.controller.outcomes = [] ∧
      batchCount streamResolvedEarly.posted = 1 :=
  have hreach : Stream.Reachable [1] none streamResolvedEarly :=
    Stream.Reachable.next _ _
      (Stream.Reachable.next _ _
        (Stream.Reachable.next _ _
          (Stream.Reachable.next _ _ Stream.Reachable.start
            (Stream.Step.parseStep (parseInWorker [1] none) 1 [] rfl rfl rfl))
          (Stream.Step.parseComplete _ rfl rfl rfl))
        (Stream.Step.controllerReceives _ (.results [1]) [.done 1] .promise rfl))
      (Stream.Step.controllerReceives _ (.done 1) [] .returned rfl)
  ⟨hreach, rfl, rfl, rfl, rfl⟩

/-! ## Batch executor -/

/-- The loop of `List.toChunks` hands out every element once, in order. -/
theorem toChunks_go_flatten {α : Type} (n : Nat) (xs : List α) (acc₁ : Array α)
    (acc₂ : Array (List α)) :
    (List.toChunks.go n xs acc₁ acc₂).flatten = acc₂.toList.flatten ++ acc₁.toList ++ xs := by
  induction xs generalizing acc₁ acc₂ with
  | nil => simp [List.toChunks.go]
  | cons x xs ih =>
    unfold List.toChunks.go
    split
    · rw [ih]
      simp
    · rw [ih]
      simp

/-- The sub-batches hold the packages, each once and in their order. -/
theorem subBatches_flatten {P : Type} (batchsize : Nat) (requests : List P) :
    (subBatches batchsize requests).flatten = requests := by
  unfold subBatches
  cases requests with
  | nil => simp [List.toChunks]
  | cons x xs =>
    cases batchsize with
    | zero => simp [List.toChunks]
    | succ n =>
      simp only [List.toChunks]
      rw [toChunks_go_flatten]
      simp

/-- Every state of the executor carries the bound it was started with. -/
theorem BatchExecutor.Reachable_parallel {P : Type} (requests : List P)
    (parallel batchsize : Nat) (s : BatchExecutor P)
    (h : BatchExecutor.Reachable requests parallel batchsize s) :
    s.parallel = parallel := by
  induction h with
  | start => rfl
  | next s s1 _ hstep ih =>
    cases hstep with
    | dispatch subBatch rest _ _ _ => exact ih
    | complete i subBatch outcome _ _ => exact ih
    | cancel => exact ih

/-- From a state without sub-batches in flight whose bound is at least one, the
executor reaches the end by dispatching and completing the waiting sub-batches one
after the other, collecting one result for each package. -/
theorem BatchExecutor.Reachable_drain {P : Type} (requests : List P)
    (parallel batchsize : Nat) (waiting : List (List P)) :
    ∀ s : BatchExecutor P, BatchExecutor.Reachable requests parallel batchsize s →
      s.waiting = waiting → s.inFlight = [] → s.cancelled = false → 1 ≤ s.parallel →
      ∃ s1, BatchExecutor.Reachable requests parallel batchsize s1 ∧ s1.waiting = [] ∧
        s1.inFlight = [] ∧ s1.results.length = s.results.length + waiting.flatten.length := by
  induction waiting with
  | nil =>
    intro s hs hw hf _ _
    exact ⟨s, hs, hw, hf, by simp⟩
  | cons subBatch rest ih =>
    intro s hs hw hf hc hp
    have h1 := BatchExecutor.Reachable.next _ _ hs
      (BatchExecutor.Step.dispatch s subBatch rest hc hw (by rw [hf]; exact hp))
    have h2 := BatchExecutor.Reachable.next _ _ h1
      (BatchExecutor.Step.complete _ 0 subBatch (List.replicate subBatch.length true)
        (by simp [hf]) (by simp))
    obtain ⟨s1, hs1, hw1, hf1, hr1⟩ := ih _ h2 rfl (by simp [hf]) hc hp
    refine ⟨s1, hs1, hw1, hf1, ?_⟩
    rw [hr1]
    simp
    omega

/-- C24. For every queue of operation packages, every sub-batch size and every
`parallel ≥ 1`, in every state a run of `batch({requests, parallel, batchsize})` reaches
at most `parallel` sub-batches await remote completion; and under that bound a run
reaches the end, where no sub-batch waits or is in flight and one result is collected
for each package. -/
theorem batch_concurrency_bound {P : Type} (requests : List P) (parallel batchsize : Nat)
    (hparallel : 1 ≤ parallel) :
    (∀ s : BatchExecutor P, BatchExecutor.Reachable requests parallel batchsize s →
      s.inFlight.length ≤ parallel) ∧
    (∃ s : BatchExecutor P, BatchExecutor.Reachable requests parallel batchsize s ∧
      s.waiting = [] ∧ s.inFlight = [] ∧ s.results.length = requests.length) := by
  constructor
  · intro s h
    induction h with
    | start => simp [batch]
    | next s s1 hs hstep ih =>
      have hp := BatchExecutor.Reachable_parallel requests parallel batchsize s hs
      cases hstep with
      | dispatch subBatch rest _ _ hfree =>
        simp only [List.length_append, List.length_singleton]
        omega
      | complete i subBatch outcome _ _ =>
        exact Nat.le_trans (List.length_eraseIdx_le _ _) ih
      | cancel => exact ih
  · obtain ⟨s1, hs1, hw1, hf1, hr1⟩ := BatchExecutor.Reachable_drain requests parallel batchsize
      (subBatches batchsize requests) _ BatchExecutor.Reachable.start rfl rfl rfl hparallel
    refine ⟨s1, hs1, hw1, hf1, ?_⟩
    rw [hr1, subBatches_flatten]
    simp [batch]

/-- Witness of C24: five packages in sub-batches of two under the bound two, after two
sub-batches were dispatched. -/
theorem batch_concurrency_bound_witness :
    BatchExecutor.Reachable [1, 2, 3, 4, 5] 2 2
        { parallel := 2, waiting := [[5]], inFlight := [[1, 2], [3, 4]], results := [],
          cancelled := false } ∧
      ({ parallel := 2, waiting := [[5]], inFlight := [[1, 2], [3, 4]], results := [],
         cancelled := false } : BatchExecutor Nat).inFlight.length ≤ 2 :=
  have hreach : BatchExecutor.Reachable [1, 2, 3, 4, 5] 2 2
      { parallel := 2, waiting := [[5]], inFlight := [[1, 2], [3, 4]], results := [],
        cancelled := false } :=
    BatchExecutor.Reachable.next _ _
      (BatchExecutor.Reachable.next _ _ BatchExecutor.Reachable.start
        (BatchExecutor.Step.dispatch (batch [1, 2, 3, 4, 5] 2 2) [1, 2] [[3, 4], [5]]
          rfl (by decide) (by decide)))
      (BatchExecutor.Step.dispatch _ [3, 4] [[5]] rfl rfl (by decide))
  ⟨hreach, (batch_concurrency_bound [1, 2, 3, 4, 5] 2 2 (by decide)).1 _ hreach⟩

end JSTBStore
